import Mathlib

/-!
Lone: heap manager, mark-sweep garbage collector and reader

A shallow embedding of `source/lone/memory/garbage_collector.c` and of the
lexer and parser of `source/lone/lisp/reader.c`.

Modelling conventions

* A `struct lone_value *` is a natural number; `0` is the null pointer. Pointer
  arithmetic on cell pointers is in units of one cell, as in C: the cell
  `&heap->values[i]` has address `heap.address + i`, and `heap->values +
  heap->count` is `heap.address + heap.values.length`. An address between two
  cells of an array does not exist in this model. When two heaps of a list
  overlap, an address designates the cell of the first heap that contains it.
* A heap is its address and its array of cells; `heap->count` is the length of
  the array and `heap->next` is the position in the heap list. The list
  `lone->memory.heaps` is never null (the code dereferences it unconditionally),
  so it is kept as a first heap and the list of the heaps linked after it.
* `struct lone_value` is a tagged union; the tag is the constructor of the
  payload. A vector carries the address of its element array together with the
  `count` elements the collector reads; a table carries the address of its
  entries array together with its `capacity` entries.
* `lone_allocate` and `lone_deallocate` belong to the arena allocator, which is
  not part of this file: the address `lone_allocate` returns and the previous
  contents of the block are parameters, and every call of `lone_deallocate`
  is appended to the trace `lone.deallocated`.
* `lone_mark_value` is recursive in C. The first argument of its model bounds
  the depth of the C call stack; `none` means that the bound was reached, and
  nothing else: `lone_mark_value_adequate` shows that a bound above the number
  of live unmarked cells is never reached.
* The stack is a map from word addresses to words; `__builtin_frame_address(0)`
  and the stack contents, spilled registers included, are parameters.
* A stack word is an arbitrary machine word, and `lone_points_within_range`
  compares byte addresses: a word that points between two cell addresses of a
  heap passes `lone_points_to_heap`. The functions with the suffix `_bytes`
  model the scan on such words: `value_size` is `sizeof(struct lone_value)`, the
  byte address of the model address `a` is `value_size * a`, and a word is the
  address of a cell when it is a multiple of `value_size`. On a word inside a
  cell `lone_mark_value` reads and writes fields of a `struct lone_value` that
  is not there; the layout of the structure is not part of the sources, and the
  outcome of the collection is `undefined`. The functions without the suffix
  are the scan of a stack whose words are model addresses, that is, of a stack
  on which every word is the address of a cell position:
  `lone_garbage_collector_bytes_of_cells` relates the two.
* Memory outside every heap is not modelled: marking a non-null pointer that is
  not the address of a cell of a current heap leaves the heaps as they are.
* The reader is the byte-buffer reader (`file_descriptor` is -1): its buffer is
  the list of input bytes and is never refilled. A byte pointer is an index
  into the buffer; a read at an index outside the buffer, or through a null
  pointer, is the outcome `undefined`, and `linux_exit` is the outcome
  `exited`. The values the reader builds are terms; a vector and a table are
  the history of the calls that built them.
* `lone_parse` is recursive in C through the list, vector and table parsers.
  The first argument of its model bounds the nesting depth and the number of
  iterations of each loop; `none` means that the bound was reached.
-/

namespace Lone

/-- The type tags of `enum lone_type`. -/
inductive lone_type where
  | LONE_MODULE
  | LONE_FUNCTION
  | LONE_PRIMITIVE
  | LONE_LIST
  | LONE_VECTOR
  | LONE_TABLE
  | LONE_SYMBOL
  | LONE_TEXT
  | LONE_BYTES
  | LONE_POINTER
  | LONE_INTEGER
deriving DecidableEq, Repr

/-- The union inside `struct lone_value`, one constructor per type tag. -/
inductive lone_payload where
  | module (name environment exports : Nat)
  | function (arguments code environment : Nat)
  | primitive (name closure : Nat)
  | list (first rest : Nat)
  | vector (values : Nat) (elements : List Nat)
  | table (prototype : Nat) (entries : Nat) (slots : List (Nat × Nat))
  | symbol (pointer : Nat)
  | text (pointer : Nat)
  | bytes (pointer : Nat)
  | pointer (address : Nat)
  | integer (value : Int)
deriving DecidableEq, Repr

/-- One cell: `struct lone_value`. -/
structure lone_value where
  live : Bool
  marked : Bool
  should_deallocate_bytes : Bool
  payload : lone_payload
deriving DecidableEq, Repr

/-- One heap: `struct lone_heap`, with `count = values.length`. -/
structure lone_heap where
  address : Nat
  values : List lone_value
deriving DecidableEq, Repr

/-- The part of `struct lone_lisp` the heap manager and the collector use. -/
structure lone_lisp where
  first_heap : lone_heap
  next_heaps : List lone_heap
  general_pointer : Nat
  general_size : Nat
  stack : Nat
  symbol_table : Nat
  nil : Nat
  truth : Nat
  loaded : Nat
  null : Nat
  top_level_environment : Nat
  path : Nat
  deallocated : List Nat
deriving DecidableEq, Repr

/-- The field `value->type`. -/
def lone_value.type (value : lone_value) : lone_type :=
  match value.payload with
  | .module _ _ _ => .LONE_MODULE
  | .function _ _ _ => .LONE_FUNCTION
  | .primitive _ _ => .LONE_PRIMITIVE
  | .list _ _ => .LONE_LIST
  | .vector _ _ => .LONE_VECTOR
  | .table _ _ _ => .LONE_TABLE
  | .symbol _ => .LONE_SYMBOL
  | .text _ => .LONE_TEXT
  | .bytes _ => .LONE_BYTES
  | .pointer _ => .LONE_POINTER
  | .integer _ => .LONE_INTEGER

/-- The heap list `lone->memory.heaps`, first heap first. -/
def lone_lisp.heaps (lone : lone_lisp) : List lone_heap :=
  lone.first_heap :: lone.next_heaps

/-- Store a heap list back into the state. The list is never empty where this
is used; an empty list leaves the state as it is. -/
def lone_lisp.with_heaps (lone : lone_lisp) : List lone_heap → lone_lisp
  | [] => lone
  | first :: next => { lone with first_heap := first, next_heaps := next }

/-! ## Heap manager -/

/-- The cells `lone_allocate_heap` initialises: `count` cells, each with the
previous contents `raw i` of the block and both collector bits cleared. -/
def lone_allocate_heap_values (raw : Nat → lone_value) : Nat → List lone_value
  | 0 => []
  | count + 1 =>
    lone_allocate_heap_values raw count ++ [{ raw count with live := false, marked := false }]

/-- Model of `lone_allocate_heap`: `allocated` is the block `lone_allocate` returned. -/
def lone_allocate_heap (allocated : Nat) (raw : Nat → lone_value) (count : Nat) : lone_heap :=
  { address := allocated, values := lone_allocate_heap_values raw count }

/-- The inner loop of `lone_allocate_from_heap`: index of the first cell that is not live. -/
def find_dead_value : List lone_value → Option Nat
  | [] => none
  | element :: values =>
    if !element.live then some 0 else (find_dead_value values).map (· + 1)

/-- The assignment `element->live = true` on the cell at index `i` of an array. -/
def resurrect_value : List lone_value → Nat → List lone_value
  | [], _ => []
  | element :: values, 0 => { element with live := true } :: values
  | element :: values, i + 1 => element :: resurrect_value values i

/-- The outer loop of `lone_allocate_from_heap` followed by `resurrect`: the
heap list with the first dead cell made live, and the address of that cell;
`none` when the loop runs off the end of the list. -/
def resurrect_in_heaps : List lone_heap → Option (List lone_heap × Nat)
  | [] => none
  | heap :: heaps =>
    match find_dead_value heap.values with
    | some i => some ({ heap with values := resurrect_value heap.values i } :: heaps, heap.address + i)
    | none =>
      match resurrect_in_heaps heaps with
      | some (heaps, element) => some (heap :: heaps, element)
      | none => none

/-- Model of `lone_allocate_from_heap`: the new state and the returned cell
pointer. `allocated` and `raw` are the block a call of `lone_allocate` would
return; they are used only when every cell of every heap is live. When the
first heap has no cell the new heap has none either, and the write through
`&heap->values[0]` falls outside it. -/
def lone_allocate_from_heap (lone : lone_lisp) (allocated : Nat) (raw : Nat → lone_value) :
    lone_lisp × Nat :=
  match resurrect_in_heaps lone.heaps with
  | some (heaps, element) => (lone.with_heaps heaps, element)
  | none =>
    let heap := lone_allocate_heap allocated raw lone.first_heap.values.length
    ({ lone with
        next_heaps := lone.next_heaps ++ [{ heap with values := resurrect_value heap.values 0 }] },
      heap.address + 0)

/-- The inner loop of `lone_deallocate_dead_heaps`: does the heap hold a live cell. -/
def has_live_value : List lone_value → Bool
  | [] => false
  | value :: values => if value.live then true else has_live_value values

/-- The loop of `lone_deallocate_dead_heaps` over the heaps after the first:
the heaps that stay linked, and the heaps passed to `lone_deallocate`, in order. -/
def deallocate_dead_heaps : List lone_heap → List lone_heap × List Nat
  | [] => ([], [])
  | heap :: heaps =>
    let (kept, freed) := deallocate_dead_heaps heaps
    if has_live_value heap.values then (heap :: kept, freed)
    else (kept, heap.address :: freed)

/-- Model of `lone_deallocate_dead_heaps`. -/
def lone_deallocate_dead_heaps (lone : lone_lisp) : lone_lisp :=
  let (kept, freed) := deallocate_dead_heaps lone.next_heaps
  { lone with next_heaps := kept, deallocated := lone.deallocated ++ freed }

/-! ## Marking -/

/-- The cell a pointer designates: the cell at index `pointer - heap.address`
of the first heap whose cell array contains the address. -/
def lone_value_at : List lone_heap → Nat → Option lone_value
  | [], _ => none
  | heap :: heaps, pointer =>
    if heap.address ≤ pointer ∧ pointer < heap.address + heap.values.length then
      heap.values[pointer - heap.address]?
    else lone_value_at heaps pointer

/-- The assignment `value->marked = true` on the cell at index `i` of an array. -/
def mark_in_values : List lone_value → Nat → List lone_value
  | [], _ => []
  | value :: values, 0 => { value with marked := true } :: values
  | value :: values, i + 1 => value :: mark_in_values values i

/-- The assignment `value->marked = true` through a cell pointer. -/
def set_marked : List lone_heap → Nat → List lone_heap
  | [], _ => []
  | heap :: heaps, pointer =>
    if heap.address ≤ pointer ∧ pointer < heap.address + heap.values.length then
      { heap with values := mark_in_values heap.values (pointer - heap.address) } :: heaps
    else heap :: set_marked heaps pointer

/-- A sequence of calls of a marking function, one per pointer, in order. -/
def mark_each (mark : List lone_heap → Nat → Option (List lone_heap)) :
    List lone_heap → List Nat → Option (List lone_heap)
  | heaps, [] => some heaps
  | heaps, value :: values =>
    match mark heaps value with
    | some heaps => mark_each mark heaps values
    | none => none

/-- The loop over the entries of a table: the key of an entry, then its value. -/
def mark_entries (mark : List lone_heap → Nat → Option (List lone_heap)) :
    List lone_heap → List (Nat × Nat) → Option (List lone_heap)
  | heaps, [] => some heaps
  | heaps, entry :: entries =>
    match mark heaps entry.1 with
    | some heaps =>
      match mark heaps entry.2 with
      | some heaps => mark_entries mark heaps entries
      | none => none
    | none => none

/-- Model of `lone_mark_value`. The first argument bounds the recursion depth. -/
def lone_mark_value : Nat → List lone_heap → Nat → Option (List lone_heap)
  | 0, _, _ => none
  | depth + 1, heaps, value =>
    if value = 0 then some heaps
    else
      match lone_value_at heaps value with
      | none => some heaps
      | some cell =>
        if !cell.live || cell.marked then some heaps
        else
          let heaps := set_marked heaps value
          match cell.payload with
          | .module name environment exports =>
            mark_each (lone_mark_value depth) heaps [name, environment, exports]
          | .function arguments code environment =>
            mark_each (lone_mark_value depth) heaps [arguments, code, environment]
          | .primitive name closure =>
            mark_each (lone_mark_value depth) heaps [name, closure]
          | .list first rest =>
            mark_each (lone_mark_value depth) heaps [first, rest]
          | .vector _ elements =>
            mark_each (lone_mark_value depth) heaps elements
          | .table prototype _ slots =>
            match lone_mark_value depth heaps prototype with
            | some heaps => mark_entries (lone_mark_value depth) heaps slots
            | none => none
          | .symbol _ => some heaps
          | .text _ => some heaps
          | .bytes _ => some heaps
          | .pointer _ => some heaps
          | .integer _ => some heaps

/-- Model of `lone_mark_known_roots`: the seven named roots, in the order of the code. -/
def lone_mark_known_roots (depth : Nat) (lone : lone_lisp) (heaps : List lone_heap) :
    Option (List lone_heap) :=
  mark_each (lone_mark_value depth) heaps
    [lone.symbol_table, lone.nil, lone.truth, lone.loaded, lone.null,
     lone.top_level_environment, lone.path]

/-- Model of `lone_points_within_range`. -/
def lone_points_within_range (pointer start finish : Nat) : Bool :=
  decide (start ≤ pointer) && decide (pointer < finish)

/-- Model of `lone_points_to_general_memory`. -/
def lone_points_to_general_memory (lone : lone_lisp) (pointer : Nat) : Bool :=
  lone_points_within_range pointer lone.general_pointer (lone.general_pointer + lone.general_size)

/-- The loop of `lone_points_to_heap` over the heap list. -/
def points_to_some_heap : List lone_heap → Nat → Bool
  | [], _ => false
  | heap :: heaps, pointer =>
    if lone_points_within_range pointer heap.address (heap.address + heap.values.length) then true
    else points_to_some_heap heaps pointer

/-- Model of `lone_points_to_heap` on a model address, that is, on a pointer
that is the address of a cell position; `lone_points_to_heap_bytes` is the test
on an arbitrary byte address. -/
def lone_points_to_heap (lone : lone_lisp) (pointer : Nat) : Bool :=
  if !lone_points_to_general_memory lone pointer then false
  else points_to_some_heap lone.heaps pointer

/-- The loop `while (pointer++ < top)` of `lone_find_and_mark_stack_roots`.
Addresses of stack words are in units of one word; `memory` gives the word
stored at a word address. The first argument is the number of iterations left,
`top - pointer`: the test `pointer < top` holds exactly when it is not zero.
Each iteration first increments `pointer` and then reads the word at the
incremented address. `lone_points_to_heap` looks at the heap list of `lone`,
which has the addresses and counts of `heaps`: marking changes neither. The
words are model addresses; `stack_roots_loop_bytes` is the loop on arbitrary
machine words. -/
def stack_roots_loop (depth : Nat) (lone : lone_lisp) (memory : Nat → Nat) :
    Nat → Nat → List lone_heap → Option (List lone_heap)
  | 0, _, heaps => some heaps
  | iterations + 1, pointer, heaps =>
    let pointer := pointer + 1
    if lone_points_to_heap lone (memory pointer) then
      match lone_mark_value depth heaps (memory pointer) with
      | some heaps => stack_roots_loop depth lone memory iterations pointer heaps
      | none => none
    else stack_roots_loop depth lone memory iterations pointer heaps

/-- Model of `lone_find_and_mark_stack_roots`: `frame` is the value of
`__builtin_frame_address(0)`. -/
def lone_find_and_mark_stack_roots (depth : Nat) (lone : lone_lisp) (frame : Nat)
    (memory : Nat → Nat) (heaps : List lone_heap) : Option (List lone_heap) :=
  let bottom := if frame < lone.stack then frame else lone.stack
  let top := if frame < lone.stack then lone.stack else frame
  stack_roots_loop depth lone memory (top - bottom) bottom heaps

/-- Model of `lone_mark_all_reachable_values`. The spilled registers are words
of the scanned stack. -/
def lone_mark_all_reachable_values (depth : Nat) (lone : lone_lisp) (frame : Nat)
    (memory : Nat → Nat) : Option lone_lisp :=
  match lone_mark_known_roots depth lone lone.heaps with
  | some heaps =>
    match lone_find_and_mark_stack_roots depth lone frame memory heaps with
    | some heaps => some (lone.with_heaps heaps)
    | none => none
  | none => none

/-! ## Sweeping -/

/-- The pointers the sweep passes to `lone_deallocate` when it kills a cell. -/
def deallocated_by_kill (value : lone_value) : List Nat :=
  match value.payload with
  | .bytes pointer => if value.should_deallocate_bytes then [pointer] else []
  | .text pointer => if value.should_deallocate_bytes then [pointer] else []
  | .symbol pointer => if value.should_deallocate_bytes then [pointer] else []
  | .vector values _ => [values]
  | .table _ entries _ => [entries]
  | .module _ _ _ => []
  | .function _ _ _ => []
  | .primitive _ _ => []
  | .list _ _ => []
  | .integer _ => []
  | .pointer _ => []

/-- The body of the inner loop of `lone_kill_all_unmarked_values` on one cell:
the cell afterwards and the pointers passed to `lone_deallocate`. -/
def kill_unmarked_value (value : lone_value) : lone_value × List Nat :=
  if !value.live then (value, [])
  else if !value.marked then
    ({ value with live := false, marked := false }, deallocated_by_kill value)
  else ({ value with marked := false }, [])

/-- The inner loop of `lone_kill_all_unmarked_values` over the cells of one heap. -/
def kill_unmarked_values : List lone_value → List lone_value × List Nat
  | [] => ([], [])
  | value :: values =>
    let (value, freed) := kill_unmarked_value value
    let (values, more) := kill_unmarked_values values
    (value :: values, freed ++ more)

/-- The outer loop of `lone_kill_all_unmarked_values` over the heap list. -/
def kill_unmarked_heaps : List lone_heap → List lone_heap × List Nat
  | [] => ([], [])
  | heap :: heaps =>
    let (values, freed) := kill_unmarked_values heap.values
    let (heaps, more) := kill_unmarked_heaps heaps
    ({ heap with values := values } :: heaps, freed ++ more)

/-- Model of `lone_kill_all_unmarked_values`. -/
def lone_kill_all_unmarked_values (lone : lone_lisp) : lone_lisp :=
  let (heaps, freed) := kill_unmarked_heaps lone.heaps
  { lone.with_heaps heaps with deallocated := lone.deallocated ++ freed }

/-- Model of `lone_garbage_collector` on a stack whose words are model
addresses; `lone_garbage_collector_bytes` is the collector on a stack of
arbitrary machine words. -/
def lone_garbage_collector (depth : Nat) (lone : lone_lisp) (frame : Nat) (memory : Nat → Nat) :
    Option lone_lisp :=
  match lone_mark_all_reachable_values depth lone frame memory with
  | some lone => some (lone_deallocate_dead_heaps (lone_kill_all_unmarked_values lone))
  | none => none

/-! ## The collector on a stack of machine words

The stack words are byte addresses. `value_size` is `sizeof(struct lone_value)`;
the byte address of the model address `a` is `value_size * a`, so the cell array
of a heap is the byte range from `value_size * heap.address` to
`value_size * heap.address + value_size * heap.values.length`, and the general
memory is scaled in the same way. The code compares byte addresses and steps
through a cell array in whole cells, so only the order of the addresses and the
offset of a word from the start of a cell enter; placing the cell position `a`
at the byte address `value_size * a` keeps both. The named roots and the
reference fields of cells are cell pointers, as before.
-/

/-- The outcomes of a collection on a stack of machine words: it returns, or
the depth bound of the model of `lone_mark_value` was reached, or
`lone_mark_value` was called on a byte address inside a cell. -/
inductive collector_outcome (α : Type) where
  | returned (result : α)
  | depth_reached
  | undefined
deriving DecidableEq, Repr

/-- An outcome of the model on model addresses as an outcome of the collector:
`none` is the depth bound. -/
def outcome_of_option {α : Type} : Option α → collector_outcome α
  | some result => .returned result
  | none => .depth_reached

/-- The state a collection returned, if it returned. -/
def outcome_result {α : Type} : collector_outcome α → Option α
  | .returned result => some result
  | .depth_reached => none
  | .undefined => none

/-- Model of `lone_points_to_general_memory` on a byte address. -/
def lone_points_to_general_memory_bytes (value_size : Nat) (lone : lone_lisp) (pointer : Nat) :
    Bool :=
  lone_points_within_range pointer (value_size * lone.general_pointer)
    (value_size * lone.general_pointer + value_size * lone.general_size)

/-- The loop of `lone_points_to_heap` over the heap list, on a byte address:
`heap->values + heap->count` is `heap->count` cells after `heap->values`. -/
def points_to_some_heap_bytes (value_size : Nat) : List lone_heap → Nat → Bool
  | [], _ => false
  | heap :: heaps, pointer =>
    if lone_points_within_range pointer (value_size * heap.address)
        (value_size * heap.address + value_size * heap.values.length) then true
    else points_to_some_heap_bytes value_size heaps pointer

/-- Model of `lone_points_to_heap` on a byte address. -/
def lone_points_to_heap_bytes (value_size : Nat) (lone : lone_lisp) (pointer : Nat) : Bool :=
  if !lone_points_to_general_memory_bytes value_size lone pointer then false
  else points_to_some_heap_bytes value_size lone.heaps pointer

/-- The loop `while (pointer++ < top)` of `lone_find_and_mark_stack_roots` on a
stack of machine words. A word that passes `lone_points_to_heap` is passed to
`lone_mark_value`. When the word is the address of a cell, a multiple of
`value_size`, this is the call on that cell. When it points inside a cell,
`lone_mark_value` reads `live`, `marked` and `type` at an address where no
`struct lone_value` starts and writes `marked` there, into the fields of the
cell the word points into: the model does not follow this call, and the outcome
is `undefined`. -/
def stack_roots_loop_bytes (value_size depth : Nat) (lone : lone_lisp) (memory : Nat → Nat) :
    Nat → Nat → List lone_heap → collector_outcome (List lone_heap)
  | 0, _, heaps => .returned heaps
  | iterations + 1, pointer, heaps =>
    let pointer := pointer + 1
    if lone_points_to_heap_bytes value_size lone (memory pointer) then
      if memory pointer % value_size = 0 then
        match lone_mark_value depth heaps (memory pointer / value_size) with
        | some heaps => stack_roots_loop_bytes value_size depth lone memory iterations pointer heaps
        | none => .depth_reached
      else .undefined
    else stack_roots_loop_bytes value_size depth lone memory iterations pointer heaps

/-- Model of `lone_find_and_mark_stack_roots` on a stack of machine words:
`frame` is the value of `__builtin_frame_address(0)`. -/
def lone_find_and_mark_stack_roots_bytes (value_size depth : Nat) (lone : lone_lisp)
    (frame : Nat) (memory : Nat → Nat) (heaps : List lone_heap) :
    collector_outcome (List lone_heap) :=
  let bottom := if frame < lone.stack then frame else lone.stack
  let top := if frame < lone.stack then lone.stack else frame
  stack_roots_loop_bytes value_size depth lone memory (top - bottom) bottom heaps

/-- Model of `lone_mark_all_reachable_values` on a stack of machine words. -/
def lone_mark_all_reachable_values_bytes (value_size depth : Nat) (lone : lone_lisp)
    (frame : Nat) (memory : Nat → Nat) : collector_outcome lone_lisp :=
  match lone_mark_known_roots depth lone lone.heaps with
  | some heaps =>
    match lone_find_and_mark_stack_roots_bytes value_size depth lone frame memory heaps with
    | .returned heaps => .returned (lone.with_heaps heaps)
    | .depth_reached => .depth_reached
    | .undefined => .undefined
  | none => .depth_reached

/-- Model of `lone_garbage_collector` on a stack of machine words. -/
def lone_garbage_collector_bytes (value_size depth : Nat) (lone : lone_lisp) (frame : Nat)
    (memory : Nat → Nat) : collector_outcome lone_lisp :=
  match lone_mark_all_reachable_values_bytes value_size depth lone frame memory with
  | .returned lone => .returned (lone_deallocate_dead_heaps (lone_kill_all_unmarked_values lone))
  | .depth_reached => .depth_reached
  | .undefined => .undefined

/-! ## Reader

A shallow embedding of `source/lone/lisp/reader.c`, for a reader created by
`lone_reader_for_bytes`: `file_descriptor` is `-1`, `lone_reader_fill_buffer`
returns 0 and `position.write` is the number of bytes of the buffer, the length
of `bytes`. A pointer into the buffer is the index of its byte; the bytes after
the input are not part of the model, and reading one of them, or reading
through a null pointer, gives the outcome `undefined`. The call `linux_exit(-1)`
gives the outcome `exited`.

Bytes are natural numbers: 9 tab, 10 newline, 32 space, 34 `"`, 39 `'`, 40 `(`,
41 `)`, 43 `+`, 45 `-`, 46 `.`, 48 to 57 the digits, 91 `[`, 93 `]`, 96 the
backquote, 123 `{`, 125 `}`.
-/

/-- Modelled from the spec: the values the reader builds with the constructors
of the value modules, which are not part of the sources. The name `lone_value`
is taken by the cell of the collector. An integer is the byte string passed to
`lone_integer_parse`, a symbol the bytes passed to `lone_intern`, a text the
bytes passed to `lone_text_copy`; a vector is `lone_vector_create` followed by
its calls of `lone_vector_set_value_at`, a table is `lone_table_create` followed
by its calls of `lone_table_set`, first call innermost. -/
inductive reader_value where
  | nil
  | integer (digits : List Nat)
  | symbol (bytes : List Nat)
  | text (bytes : List Nat)
  | list (first rest : reader_value)
  | vector_create
  | vector_set (vector : reader_value) (index : Nat) (value : reader_value)
  | table_create
  | table_set (table key value : reader_value)
deriving DecidableEq, Repr

/-- The part of `struct lone_reader` a reader over a byte buffer uses. -/
structure lone_reader where
  bytes : List Nat
  read : Nat
  error : Bool
  end_of_input : Bool
deriving DecidableEq, Repr

/-- How a call of a reader function ends. -/
inductive reader_outcome where
  | returned (reader : lone_reader) (value : reader_value)
  | exited
  | undefined
deriving DecidableEq, Repr

/-- Model of `lone_reader_for_bytes`. -/
def lone_reader_for_bytes (bytes : List Nat) : lone_reader :=
  { bytes := bytes, read := 0, error := false, end_of_input := false }

/-- The bytes `pointer[0 .. count)` for a pointer into the buffer. -/
def reader_slice (reader : lone_reader) (pointer count : Nat) : List Nat :=
  (reader.bytes.drop pointer).take count

/-- Modelled from the spec: `lone_list_append`, which is not part of the
sources, appends a value at the end of the list that starts at `first`. -/
def lone_list_append : reader_value → reader_value → reader_value
  | .list first rest, value => .list first (lone_list_append rest value)
  | _, value => .list value .nil

/-- Modelled from the spec: `lone_list_set_rest`, which is not part of the
sources, called on the last pair of the list that starts at `first`. -/
def lone_list_set_rest : reader_value → reader_value → reader_value
  | .list first .nil, value => .list first value
  | .list first rest, value => .list first (lone_list_set_rest rest value)
  | other, _ => other

/-- Modelled from the spec: `lone_list_build` with two values. -/
def lone_list_build (first second : reader_value) : reader_value :=
  .list first (.list second .nil)

/-- Model of `lone_reader_peek_k`: the byte the returned pointer points to, the
pointer being `read + k`; `none` for the null pointer. -/
def lone_reader_peek_k (reader : lone_reader) (k : Nat) : Option Nat :=
  if reader.read + k ≥ reader.bytes.length then none
  else reader.bytes[reader.read + k]?

/-- Model of `lone_reader_peek`. -/
def lone_reader_peek (reader : lone_reader) : Option Nat :=
  lone_reader_peek_k reader 0

/-- Model of `lone_reader_consume_k`. -/
def lone_reader_consume_k (reader : lone_reader) (k : Nat) : lone_reader :=
  { reader with read := reader.read + k }

/-- Model of `lone_reader_consume`. -/
def lone_reader_consume (reader : lone_reader) : lone_reader :=
  lone_reader_consume_k reader 1

/-- Model of `lone_reader_match_byte`. -/
def lone_reader_match_byte (byte target : Nat) : Bool :=
  if target = 32 then byte = 32 || byte = 9 || byte = 10
  else if target = 41 || target = 93 || target = 125 then byte = 41 || byte = 93 || byte = 125
  else if 48 ≤ target ∧ target ≤ 57 then decide (48 ≤ byte) && decide (byte ≤ 57)
  else byte = target

/-- The loops `while ((current = peek) && test(*current)) { consume; ++end; }`
of the token functions: the reader and the value of `end` after the loop. The
first argument bounds the number of iterations; the callers pass the number of
bytes left, and every iteration consumes one of them. -/
def consume_while (test : Nat → Bool) : Nat → lone_reader → Nat → lone_reader × Nat
  | 0, reader, count => (reader, count)
  | iterations + 1, reader, count =>
    match lone_reader_peek reader with
    | some byte =>
      if test byte then
        consume_while test iterations (lone_reader_consume reader) (count + 1)
      else (reader, count)
    | none => (reader, count)

/-- The label `error` of the token functions and of the parsers of lists,
vectors and tables: set the flag, return nil. -/
def reader_error (reader : lone_reader) : lone_reader × reader_value :=
  ({ reader with error := true }, .nil)

/-- The part of `lone_reader_consume_number` after the `switch` on the sign:
the first digit, the loop over the digits, the test of the byte that follows.
`start` is the pointer to the first byte of the number and `count` the value of
`end`. -/
def consume_number_digits (reader : lone_reader) (start count : Nat) :
    lone_reader × reader_value :=
  match lone_reader_peek reader with
  | none => reader_error reader
  | some current =>
    if lone_reader_match_byte current 49 then
      let digits := consume_while (fun byte => lone_reader_match_byte byte 49)
        (reader.bytes.length - reader.read) (lone_reader_consume reader) (count + 1)
      match lone_reader_peek digits.1 with
      | some current =>
        if !lone_reader_match_byte current 41 && !lone_reader_match_byte current 32 then
          reader_error digits.1
        else (digits.1, .integer (reader_slice digits.1 start digits.2))
      | none => (digits.1, .integer (reader_slice digits.1 start digits.2))
    else reader_error reader

/-- Model of `lone_reader_consume_number`. -/
def lone_reader_consume_number (reader : lone_reader) : lone_reader × reader_value :=
  match lone_reader_peek reader with
  | none => reader_error reader
  | some first =>
    if first = 43 ∨ first = 45 then
      consume_number_digits (lone_reader_consume reader) reader.read 1
    else consume_number_digits reader reader.read 0

/-- Model of `lone_reader_consume_symbol`. -/
def lone_reader_consume_symbol (reader : lone_reader) : lone_reader × reader_value :=
  match lone_reader_peek reader with
  | none => reader_error reader
  | some _ =>
    let start := reader.read
    let run := consume_while
      (fun byte => !lone_reader_match_byte byte 41 && !lone_reader_match_byte byte 32)
      (reader.bytes.length - reader.read) reader 0
    (run.1, .symbol (reader_slice run.1 start run.2))

/-- Model of `lone_reader_consume_text`. After the loop the code increments
`current` and dereferences it without a call of `lone_reader_peek`: when the
loop ended at the end of the input `current` is null, and when the closing
quote is the last byte of the input the byte read lies after the input. -/
def lone_reader_consume_text (reader : lone_reader) : reader_outcome :=
  match lone_reader_peek reader with
  | none => .returned (reader_error reader).1 (reader_error reader).2
  | some first =>
    if first ≠ 34 then .returned (reader_error reader).1 (reader_error reader).2
    else
      let start := reader.read + 1
      let run := consume_while (fun byte => byte ≠ 34)
        (reader.bytes.length - (reader.read + 1)) (lone_reader_consume reader) 0
      match lone_reader_peek run.1 with
      | none => .undefined
      | some _ =>
        let current := run.1.read + 1
        let after := lone_reader_consume run.1
        match after.bytes[current]? with
        | none => .undefined
        | some byte =>
          if !lone_reader_match_byte byte 41 && !lone_reader_match_byte byte 32 then
            .returned (reader_error after).1 (reader_error after).2
          else .returned after (.text (reader_slice after start run.2))

/-- Model of `lone_reader_consume_character`. -/
def lone_reader_consume_character (reader : lone_reader) : lone_reader × reader_value :=
  match lone_reader_peek reader with
  | none => reader_error reader
  | some bracket =>
    if bracket = 40 ∨ bracket = 41 ∨ bracket = 91 ∨ bracket = 93 ∨ bracket = 123 ∨
        bracket = 125 ∨ bracket = 39 ∨ bracket = 96 ∨ bracket = 46 then
      (lone_reader_consume reader, .symbol (reader_slice reader reader.read 1))
    else reader_error reader

/-- The end of one iteration of the loop of `lone_lex` that found a token:
`linux_exit(-1)` when the error flag is set, else the token is returned with
`end_of_input` cleared (`found` is true). -/
def lex_found (token : lone_reader × reader_value) : reader_outcome :=
  if token.1.error then .exited
  else .returned { token.1 with end_of_input := false } token.2

/-- The loop of `lone_lex`. The first argument bounds the number of
iterations; `lone_lex` passes the number of bytes left plus one, and every
iteration but the last consumes one byte of whitespace. -/
def lex_loop : Nat → lone_reader → reader_outcome
  | 0, reader => .returned { reader with end_of_input := true } .nil
  | iterations + 1, reader =>
    match lone_reader_peek reader with
    | none => .returned { reader with end_of_input := true } .nil
    | some c =>
      if lone_reader_match_byte c 32 then lex_loop iterations (lone_reader_consume reader)
      else if c = 43 ∨ c = 45 then
        match lone_reader_peek_k reader 1 with
        | some c1 =>
          if lone_reader_match_byte c1 49 then lex_found (lone_reader_consume_number reader)
          else lex_found (lone_reader_consume_symbol reader)
        | none => lex_found (lone_reader_consume_symbol reader)
      else if 48 ≤ c ∧ c ≤ 57 then lex_found (lone_reader_consume_number reader)
      else if c = 34 then
        match lone_reader_consume_text reader with
        | .returned after token => lex_found (after, token)
        | other => other
      else if c = 40 ∨ c = 41 ∨ c = 91 ∨ c = 93 ∨ c = 123 ∨ c = 125 ∨ c = 39 ∨ c = 96 ∨
          c = 46 then
        lex_found (lone_reader_consume_character reader)
      else lex_found (lone_reader_consume_symbol reader)

/-- Model of `lone_lex`. -/
def lone_lex (reader : lone_reader) : reader_outcome :=
  lex_loop (reader.bytes.length - reader.read + 1) reader

/-- Modelled from the spec: `lone_is_symbol`, which is not part of the sources. -/
def lone_is_symbol : reader_value → Bool
  | .symbol _ => true
  | _ => false

/-- Model of `lone_is_expected_character_symbol`. -/
def lone_is_expected_character_symbol (value : reader_value) (expected : Nat) : Bool :=
  match value with
  | .symbol bytes =>
    if bytes.length ≠ 1 then false
    else
      match bytes with
      | character :: _ => character = expected
      | [] => false
  | _ => false

/-- The loop of `lone_parse_vector`; `parse` is `lone_parse`, the first argument
bounds the number of iterations, `none` means that the bound was reached. -/
def parse_vector_loop (parse : lone_reader → reader_value → Option reader_outcome) :
    Nat → lone_reader → reader_value → Nat → Option reader_outcome
  | 0, _, _, _ => none
  | iterations + 1, reader, vector, i =>
    match lone_lex reader with
    | .returned reader value =>
      if reader.end_of_input then some (.returned (reader_error reader).1 (reader_error reader).2)
      else if lone_is_expected_character_symbol value 93 then some (.returned reader vector)
      else
        match parse reader value with
        | some (.returned reader value) =>
          parse_vector_loop parse iterations reader (.vector_set vector i value) (i + 1)
        | other => other
    | other => some other

/-- The loop of `lone_parse_table`; `parse` is `lone_parse`, the first argument
bounds the number of iterations, `none` means that the bound was reached. -/
def parse_table_loop (parse : lone_reader → reader_value → Option reader_outcome) :
    Nat → lone_reader → reader_value → Option reader_outcome
  | 0, _, _ => none
  | iterations + 1, reader, table =>
    match lone_lex reader with
    | .returned reader key =>
      if reader.end_of_input then some (.returned (reader_error reader).1 (reader_error reader).2)
      else if lone_is_expected_character_symbol key 125 then some (.returned reader table)
      else
        match parse reader key with
        | some (.returned reader key) =>
          match lone_lex reader with
          | .returned reader value =>
            if reader.end_of_input then
              some (.returned (reader_error reader).1 (reader_error reader).2)
            else if lone_is_expected_character_symbol value 125 then
              some (.returned (reader_error reader).1 (reader_error reader).2)
            else
              match parse reader value with
              | some (.returned reader value) =>
                parse_table_loop parse iterations reader (.table_set table key value)
              | other => other
          | other => some other
        | other => other
    | other => some other

/-- The pair syntax of `lone_parse_list`, after the token `.` was read. -/
def parse_list_pair (parse : lone_reader → reader_value → Option reader_outcome)
    (reader : lone_reader) (first : reader_value) (at_least_one : Bool) :
    Option reader_outcome :=
  if !at_least_one then some (.returned (reader_error reader).1 (reader_error reader).2)
  else
    match lone_lex reader with
    | .returned reader next =>
      if reader.end_of_input then some (.returned (reader_error reader).1 (reader_error reader).2)
      else
        match parse reader next with
        | some (.returned reader rest) =>
          match lone_lex reader with
          | .returned reader next =>
            if !lone_is_expected_character_symbol next 41 then
              some (.returned (reader_error reader).1 (reader_error reader).2)
            else some (.returned reader (lone_list_set_rest first rest))
          | other => some other
        | other => other
    | other => some other

/-- The loop of `lone_parse_list`; `parse` is `lone_parse`, the first argument
bounds the number of iterations, `none` means that the bound was reached. The
list built so far starts at `first`; `head` is its last pair. -/
def parse_list_loop (parse : lone_reader → reader_value → Option reader_outcome) :
    Nat → lone_reader → reader_value → Bool → Option reader_outcome
  | 0, _, _, _ => none
  | iterations + 1, reader, first, at_least_one =>
    match lone_lex reader with
    | .returned reader next =>
      if reader.end_of_input then some (.returned (reader_error reader).1 (reader_error reader).2)
      else if lone_is_symbol next && lone_is_expected_character_symbol next 41 then
        if at_least_one then some (.returned reader first) else some (.returned reader .nil)
      else if lone_is_symbol next && lone_is_expected_character_symbol next 46 then
        parse_list_pair parse reader first at_least_one
      else
        match parse reader next with
        | some (.returned reader value) =>
          parse_list_loop parse iterations reader (lone_list_append first value) true
        | other => other
    | other => some other

/-- Model of `lone_parse_list`; `parse` is `lone_parse`. -/
def lone_parse_list (parse : lone_reader → reader_value → Option reader_outcome)
    (iterations : Nat) (reader : lone_reader) : Option reader_outcome :=
  parse_list_loop parse iterations reader .nil false

/-- Model of `lone_parse_vector`; `parse` is `lone_parse`. -/
def lone_parse_vector (parse : lone_reader → reader_value → Option reader_outcome)
    (iterations : Nat) (reader : lone_reader) : Option reader_outcome :=
  parse_vector_loop parse iterations reader .vector_create 0

/-- Model of `lone_parse_table`; `parse` is `lone_parse`. -/
def lone_parse_table (parse : lone_reader → reader_value → Option reader_outcome)
    (iterations : Nat) (reader : lone_reader) : Option reader_outcome :=
  parse_table_loop parse iterations reader .table_create

/-- Model of `lone_parse_special_character`; `parse` is `lone_parse`. The
symbols are the bytes of `quote` and of `quasiquote`. -/
def lone_parse_special_character (parse : lone_reader → reader_value → Option reader_outcome)
    (reader : lone_reader) (character : Nat) : Option reader_outcome :=
  if character = 39 ∨ character = 96 then
    let symbol : reader_value :=
      if character = 39 then .symbol [113, 117, 111, 116, 101]
      else .symbol [113, 117, 97, 115, 105, 113, 117, 111, 116, 101]
    match lone_lex reader with
    | .returned reader token =>
      match parse reader token with
      | some (.returned reader value) => some (.returned reader (lone_list_build symbol value))
      | other => other
    | other => some other
  else some .exited

/-- Model of `lone_parse`. The first argument bounds the depth of the calls
and the number of iterations of the loops of the list, vector and table
parsers; `none` means that the bound was reached. -/
def lone_parse : Nat → lone_reader → reader_value → Option reader_outcome
  | 0, _, _ => none
  | fuel + 1, reader, token =>
    if reader.end_of_input then some (.returned reader .nil)
    else
      match token with
      | .nil => some (.returned reader token)
      | .integer _ => some (.returned reader token)
      | .text _ => some (.returned reader token)
      | .symbol bytes =>
        if bytes.length > 1 then some (.returned reader token)
        else
          match bytes with
          | [] => some .undefined
          | character :: _ =>
            if character = 39 ∨ character = 96 then
              lone_parse_special_character (lone_parse fuel) reader character
            else if character = 40 then lone_parse_list (lone_parse fuel) fuel reader
            else if character = 91 then lone_parse_vector (lone_parse fuel) fuel reader
            else if character = 123 then lone_parse_table (lone_parse fuel) fuel reader
            else if character = 41 ∨ character = 93 ∨ character = 125 then some .exited
            else some (.returned reader token)
      | .list _ _ => some .exited
      | .vector_create => some .exited
      | .vector_set _ _ _ => some .exited
      | .table_create => some .exited
      | .table_set _ _ _ => some .exited

/-- Model of `lone_read`. -/
def lone_read (fuel : Nat) (reader : lone_reader) : Option reader_outcome :=
  match lone_lex reader with
  | .returned reader token => lone_parse fuel reader token
  | other => some other

/-! ## Specification vocabulary -/

/-- A cell with its mark bit cleared. -/
def unmark_value (value : lone_value) : lone_value :=
  { value with marked := false }

/-- A heap list with every mark bit cleared: what marking never changes. -/
def unmark_heaps (heaps : List lone_heap) : List lone_heap :=
  heaps.map (fun heap => { heap with values := heap.values.map unmark_value })

/-- The keys and values of table entries, in the order the collector visits them. -/
def slot_references : List (Nat × Nat) → List Nat
  | [] => []
  | entry :: entries => entry.1 :: entry.2 :: slot_references entries

/-- The outgoing reference fields of a cell, in the order `lone_mark_value` visits them. -/
def references (value : lone_value) : List Nat :=
  match value.payload with
  | .module name environment exports => [name, environment, exports]
  | .function arguments code environment => [arguments, code, environment]
  | .primitive name closure => [name, closure]
  | .list first rest => [first, rest]
  | .vector _ elements => elements
  | .table prototype _ slots => prototype :: slot_references slots
  | .symbol _ => []
  | .text _ => []
  | .bytes _ => []
  | .pointer _ => []
  | .integer _ => []

/-- Is the pointer the address of a live cell. -/
def live_at (heaps : List lone_heap) (pointer : Nat) : Bool :=
  match lone_value_at heaps pointer with
  | some value => value.live
  | none => false

/-- Is the pointer the address of a marked cell. -/
def marked_at (heaps : List lone_heap) (pointer : Nat) : Bool :=
  match lone_value_at heaps pointer with
  | some value => value.marked
  | none => false

/-- The reference fields of the cell a pointer designates. -/
def references_at (heaps : List lone_heap) (pointer : Nat) : List Nat :=
  match lone_value_at heaps pointer with
  | some value => references value
  | none => []

/-- A pointer designates a cell the collector can reach: a live cell that a
root points to, or a live cell that a reference field of a reachable cell points to. -/
inductive Reachable (heaps : List lone_heap) (roots : List Nat) : Nat → Prop where
  | root {pointer : Nat} : pointer ∈ roots → pointer ≠ 0 → live_at heaps pointer = true →
      Reachable heaps roots pointer
  | step {pointer reference : Nat} : Reachable heaps roots pointer →
      reference ∈ references_at heaps pointer → reference ≠ 0 →
      live_at heaps reference = true → Reachable heaps roots reference

/-- The seven named roots. -/
def known_roots (lone : lone_lisp) : List Nat :=
  [lone.symbol_table, lone.nil, lone.truth, lone.loaded, lone.null,
   lone.top_level_environment, lone.path]

/-- The lower of the two stack bounds. -/
def stack_bottom (lone : lone_lisp) (frame : Nat) : Nat :=
  if frame < lone.stack then frame else lone.stack

/-- The higher of the two stack bounds. -/
def stack_top (lone : lone_lisp) (frame : Nat) : Nat :=
  if frame < lone.stack then lone.stack else frame

/-- The word addresses `lone_find_and_mark_stack_roots` reads: the addresses
above the low bound, up to and including the high bound. -/
def scanned_addresses (lone : lone_lisp) (frame : Nat) : List Nat :=
  List.range' (stack_bottom lone frame + 1) (stack_top lone frame - stack_bottom lone frame)

/-- The scanned stack words that point into a heap. -/
def stack_roots (lone : lone_lisp) (frame : Nat) (memory : Nat → Nat) : List Nat :=
  ((scanned_addresses lone frame).map memory).filter (lone_points_to_heap lone)

/-- The roots of a collection: the named roots and the stack roots. -/
def collector_roots (lone : lone_lisp) (frame : Nat) (memory : Nat → Nat) : List Nat :=
  known_roots lone ++ stack_roots lone frame memory

/-- The stack words as model addresses: the cell position a byte address
points to or into. -/
def cell_words (value_size : Nat) (memory : Nat → Nat) : Nat → Nat :=
  fun address => memory address / value_size

/-- Every scanned stack word that points into the cell array of a heap is the
address of a cell. -/
def stack_words_are_cells (value_size : Nat) (lone : lone_lisp) (frame : Nat)
    (memory : Nat → Nat) : Prop :=
  ∀ address ∈ scanned_addresses lone frame,
    lone_points_to_heap_bytes value_size lone (memory address) = true →
      memory address % value_size = 0

/-- The scanned machine words that point into a heap, each as the model address
of the cell it points to or into. -/
def stack_roots_bytes (value_size : Nat) (lone : lone_lisp) (frame : Nat)
    (memory : Nat → Nat) : List Nat :=
  (((scanned_addresses lone frame).map memory).filter
    (lone_points_to_heap_bytes value_size lone)).map (fun word => word / value_size)

/-- The roots of a collection on a stack of machine words: the named roots and
the stack roots. -/
def collector_roots_bytes (value_size : Nat) (lone : lone_lisp) (frame : Nat)
    (memory : Nat → Nat) : List Nat :=
  known_roots lone ++ stack_roots_bytes value_size lone frame memory

/-- The number of live cells of an array whose mark bit is clear. -/
def unmarked_live_values : List lone_value → Nat
  | [] => 0
  | value :: values =>
    (if value.live && !value.marked then 1 else 0) + unmarked_live_values values

/-- The number of live cells of a heap list whose mark bit is clear. -/
def unmarked_live_count : List lone_heap → Nat
  | [] => 0
  | heap :: heaps => unmarked_live_values heap.values + unmarked_live_count heaps

/-- No cell of the heap list is marked. -/
def no_value_marked (heaps : List lone_heap) : Prop :=
  ∀ heap ∈ heaps, ∀ value ∈ heap.values, value.marked = false

/-- Every marked cell of the heap list has an address in the given set. -/
def marked_within (allowed : Nat → Prop) (heaps : List lone_heap) : Prop :=
  ∀ heap ∈ heaps, ∀ (i : Nat) (value : lone_value),
    heap.values[i]? = some value → value.marked = true → allowed (heap.address + i)

/-- Every marked cell of the heap list is live. -/
def marked_are_live (heaps : List lone_heap) : Prop :=
  ∀ heap ∈ heaps, ∀ value ∈ heap.values, value.marked = true → value.live = true

/-- What a run of marking may change: mark bits only, never clearing one, never
raising the number of live unmarked cells, never marking a dead cell. -/
def mark_extends (before after : List lone_heap) : Prop :=
  unmark_heaps after = unmark_heaps before ∧
  unmarked_live_count after ≤ unmarked_live_count before ∧
  (∀ pointer, marked_at before pointer = true → marked_at after pointer = true) ∧
  (marked_are_live before → marked_are_live after)

/-- The marked cells are closed under the reference fields of the cells marked
since `before`: what a run of marking that started at `before` guarantees. -/
def marks_closed (before after : List lone_heap) : Prop :=
  ∀ pointer, marked_at after pointer = true → marked_at before pointer = false →
    ∀ reference ∈ references_at before pointer, reference ≠ 0 →
      live_at before reference = true → marked_at after reference = true

/-- What the sweep leaves of one cell. -/
def sweep_value (value : lone_value) : lone_value :=
  (kill_unmarked_value value).1

/-- What the sweep leaves of one heap. -/
def sweep_heap (heap : lone_heap) : lone_heap :=
  { heap with values := heap.values.map sweep_value }

/-- The address and the capacity of every heap of a list. -/
def heap_layout (heaps : List lone_heap) : List (Nat × Nat) :=
  heaps.map (fun heap => (heap.address, heap.values.length))

/-- The address of every heap and the two collector bits of every cell: what a
write of the mutator into a payload or a root leaves as it is. -/
def collector_bits (heaps : List lone_heap) : List (Nat × List (Bool × Bool)) :=
  heaps.map (fun heap => (heap.address, heap.values.map (fun value => (value.live, value.marked))))

/-- The states of a run: a first heap created by `lone_allocate_heap`, then any
sequence of calls of `lone_allocate_from_heap` and `lone_garbage_collector`;
between calls the mutator may write payloads, roots and the other fields, but
not the collector bits. -/
inductive collector_run : lone_lisp → Prop where
  | start (lone : lone_lisp) (address count : Nat) (raw : Nat → lone_value) :
      lone.first_heap = lone_allocate_heap address raw count → lone.next_heaps = [] →
      collector_run lone
  | allocate {lone : lone_lisp} (allocated : Nat) (raw : Nat → lone_value) :
      collector_run lone → collector_run (lone_allocate_from_heap lone allocated raw).1
  | collect {lone after : lone_lisp} (depth frame : Nat) (memory : Nat → Nat) :
      collector_run lone → lone_garbage_collector depth lone frame memory = some after →
      collector_run after
  | mutate {lone after : lone_lisp} :
      collector_run lone → collector_bits after.heaps = collector_bits lone.heaps →
      collector_run after

/-- The auxiliary buffer a cell owns: the byte span of a symbol, text or bytes
cell whose `should_deallocate_bytes` flag is set, the element array of a vector,
the entries array of a table. -/
def auxiliary_buffer (value : lone_value) : Option Nat :=
  match value.payload with
  | .symbol pointer => if value.should_deallocate_bytes then some pointer else none
  | .text pointer => if value.should_deallocate_bytes then some pointer else none
  | .bytes pointer => if value.should_deallocate_bytes then some pointer else none
  | .vector values _ => some values
  | .table _ entries _ => some entries
  | _ => none

/-- The cells of a heap list, in heap order and then in index order. -/
def heap_values (heaps : List lone_heap) : List lone_value :=
  heaps.flatMap (fun heap => heap.values)

/-- The auxiliary buffers of a list of cells, in order. -/
def buffers_of (values : List lone_value) : List Nat :=
  values.flatMap (fun value => (auxiliary_buffer value).toList)

/-- The auxiliary buffers of the live cells of a heap list. -/
def live_buffers (heaps : List lone_heap) : List Nat :=
  buffers_of ((heap_values heaps).filter (fun value => value.live))

/-- The auxiliary buffers of the live cells without a mark: the cells a sweep kills. -/
def killed_buffers (heaps : List lone_heap) : List Nat :=
  buffers_of ((heap_values heaps).filter (fun value => value.live && !value.marked))

/-- The auxiliary buffers of the live cells with a mark: the cells a sweep keeps. -/
def kept_buffers (heaps : List lone_heap) : List Nat :=
  buffers_of ((heap_values heaps).filter (fun value => value.live && value.marked))

/-- Allocations are distinct: no two live cells own the same buffer, and no
buffer of a live cell is a heap. -/
def exclusive_ownership (heaps : List lone_heap) : Prop :=
  (live_buffers heaps).Nodup ∧ ∀ heap ∈ heaps, heap.address ∉ live_buffers heaps

/-- A sequence of calls of an instrumented marking function: the heaps after
the last call and the traces of the calls, in order. -/
def mark_each_traced (mark : List lone_heap → Nat → Option (List lone_heap × List Nat)) :
    List lone_heap → List Nat → Option (List lone_heap × List Nat)
  | heaps, [] => some (heaps, [])
  | heaps, value :: values =>
    match mark heaps value with
    | some (heaps, trace) =>
      match mark_each_traced mark heaps values with
      | some (heaps, more) => some (heaps, trace ++ more)
      | none => none
    | none => none

/-- The function `lone_mark_value` instrumented with a trace: the addresses of
the cells that pass the guard, in the order in which their mark bit is set and
their reference fields are traversed. -/
def lone_mark_value_traced : Nat → List lone_heap → Nat → Option (List lone_heap × List Nat)
  | 0, _, _ => none
  | depth + 1, heaps, value =>
    if value = 0 then some (heaps, [])
    else
      match lone_value_at heaps value with
      | none => some (heaps, [])
      | some cell =>
        if !cell.live || cell.marked then some (heaps, [])
        else
          match mark_each_traced (lone_mark_value_traced depth) (set_marked heaps value)
              (references cell) with
          | some (heaps, trace) => some (heaps, value :: trace)
          | none => none

/-- What a trace records: its cells were unmarked before and are marked after,
no cell occurs twice, and each one accounts for one live unmarked cell. -/
def trace_sound (before after : List lone_heap) (trace : List Nat) : Prop :=
  trace.Nodup ∧ trace.length + unmarked_live_count after = unmarked_live_count before ∧
    ∀ pointer ∈ trace, marked_at before pointer = false ∧ marked_at after pointer = true

/-- The bytes of the input that are not consumed yet. -/
def input_left (reader : lone_reader) : List Nat :=
  reader.bytes.drop reader.read

/-- The bytes that end a token: space, tab, newline and the closing brackets. -/
def is_delimiter (byte : Nat) : Bool :=
  byte = 32 || byte = 9 || byte = 10 || byte = 41 || byte = 93 || byte = 125

/-- The decimal digits. -/
def is_digit (byte : Nat) : Bool :=
  decide (48 ≤ byte) && decide (byte ≤ 57)

/-- The reader after `count` more bytes were consumed. -/
def advanced (reader : lone_reader) (count : Nat) : lone_reader :=
  { reader with read := reader.read + count }

/-- The shape of a number at the start of an input: an optional `+` or `-`,
then one or more decimal digits, then the rest of the input. -/
def number_shape (input sign digits rest : List Nat) : Prop :=
  input = sign ++ digits ++ rest ∧ (sign = [] ∨ sign = [43] ∨ sign = [45]) ∧ digits ≠ [] ∧
    ∀ byte ∈ digits, is_digit byte = true

/-- The rest of the input starts with a delimiter. -/
def delimiter_next (rest : List Nat) : Prop :=
  ∃ byte tail, rest = byte :: tail ∧ is_delimiter byte = true

/-- The list with the given elements, in order, that ends in `tail`; it is a
proper list when `tail` is nil. -/
def list_of : List reader_value → reader_value → reader_value
  | [], tail => tail
  | element :: elements, tail => .list element (list_of elements tail)

/-- The table after the calls of `lone_table_set` on the consecutive pairs of
a sequence of forms, key then value, in order. -/
def table_of (table : reader_value) : List reader_value → reader_value
  | key :: value :: forms => table_of (.table_set table key value) forms
  | _ => table

/-- The tokens that end the elements of a list: the symbols `)` and `.`. -/
def list_stop (token : reader_value) : Bool :=
  lone_is_symbol token &&
    (lone_is_expected_character_symbol token 41 || lone_is_expected_character_symbol token 46)

/-- The token that ends the forms of a table: the symbol `}`. -/
def table_stop (token : reader_value) : Bool :=
  lone_is_expected_character_symbol token 125

/-- A sequence of forms in the input: from `reader`, the lexer returns a token
that is not the end of the input and not a stop token, `parse` returns a value
for it, and so on for each form; `final` is the reader after the last form. -/
inductive reads_forms (parse : lone_reader → reader_value → Option reader_outcome)
    (stop : reader_value → Bool) : lone_reader → List reader_value → lone_reader → Prop where
  | done (reader : lone_reader) : reads_forms parse stop reader [] reader
  | form {reader lexed after final : lone_reader} {token value : reader_value}
      {values : List reader_value} :
      lone_lex reader = .returned lexed token → lexed.end_of_input = false →
      stop token = false → parse lexed token = some (.returned after value) →
      reads_forms parse stop after values final →
      reads_forms parse stop reader (value :: values) final

/-! ## Sample states -/

/-- A stack with no pointer in it. -/
def empty_memory : Nat → Nat :=
  fun _ => 0

/-- A state whose heap list holds a mark bit on entry: the root cell at address
100 is live and already marked, and its `first` field points to the live,
unmarked cell at address 101. -/
def premarked_state : lone_lisp :=
  { first_heap :=
      { address := 100,
        values :=
          [{ live := true, marked := true, should_deallocate_bytes := false,
             payload := .list 101 0 },
           { live := true, marked := false, should_deallocate_bytes := false,
             payload := .integer 7 }] },
    next_heaps := [],
    general_pointer := 0, general_size := 1000, stack := 0,
    symbol_table := 100, nil := 0, truth := 0, loaded := 0, null := 0,
    top_level_environment := 0, path := 0,
    deallocated := [] }

/-- A state with two heaps. Heap 100: a list cell (the symbol table root) whose
`first` is the integer at 101, an unreachable text that owns the buffer 500, and
a dead cell. Heap 200: a vector that owns the buffer 600 and holds the integer
at 101, and a dead cell. -/
def sample_state : lone_lisp :=
  { first_heap :=
      { address := 100,
        values :=
          [{ live := true, marked := false, should_deallocate_bytes := false,
             payload := .list 101 0 },
           { live := true, marked := false, should_deallocate_bytes := false,
             payload := .integer 7 },
           { live := true, marked := false, should_deallocate_bytes := true,
             payload := .text 500 },
           { live := false, marked := false, should_deallocate_bytes := false,
             payload := .integer 0 }] },
    next_heaps :=
      [{ address := 200,
         values :=
           [{ live := true, marked := false, should_deallocate_bytes := false,
              payload := .vector 600 [101] },
            { live := false, marked := false, should_deallocate_bytes := false,
              payload := .integer 0 }] }],
    general_pointer := 0, general_size := 1000, stack := 20,
    symbol_table := 100, nil := 0, truth := 0, loaded := 0, null := 0,
    top_level_environment := 0, path := 0,
    deallocated := [] }

/-- A stack for `sample_state`: the word at address 11 points to the vector at 200. -/
def sample_memory : Nat → Nat :=
  fun address => if address = 11 then 200 else 0

/-- Block contents before initialisation, for the sample calls. -/
def sample_raw : Nat → lone_value :=
  fun _ => { live := false, marked := false, should_deallocate_bytes := false,
             payload := .integer 0 }

/-- A state whose only heap has capacity 0. -/
def zero_capacity_state : lone_lisp :=
  { first_heap := { address := 100, values := [] },
    next_heaps := [],
    general_pointer := 0, general_size := 1000, stack := 0,
    symbol_table := 0, nil := 0, truth := 0, loaded := 0, null := 0,
    top_level_environment := 0, path := 0,
    deallocated := [] }

/-- A state with one heap of capacity 2 in which every cell is live. -/
def full_state : lone_lisp :=
  { first_heap :=
      { address := 100,
        values :=
          [{ live := true, marked := false, should_deallocate_bytes := false,
             payload := .integer 1 },
           { live := true, marked := false, should_deallocate_bytes := false,
             payload := .integer 2 }] },
    next_heaps := [],
    general_pointer := 0, general_size := 1000, stack := 0,
    symbol_table := 0, nil := 0, truth := 0, loaded := 0, null := 0,
    top_level_environment := 0, path := 0,
    deallocated := [] }

/-- A state right after start-up: one heap of capacity 2 from `lone_allocate_heap`. -/
def fresh_state : lone_lisp :=
  { first_heap := lone_allocate_heap 100 sample_raw 2,
    next_heaps := [],
    general_pointer := 0, general_size := 1000, stack := 0,
    symbol_table := 0, nil := 0, truth := 0, loaded := 0, null := 0,
    top_level_environment := 0, path := 0,
    deallocated := [] }

/-- The state `fresh_state` is in after one allocation and one collection with
no root: the allocated cell is dead again. -/
def fresh_state_collected : lone_lisp :=
  { first_heap := { address := 100, values := [sample_raw 0, sample_raw 1] },
    next_heaps := [],
    general_pointer := 0, general_size := 1000, stack := 0,
    symbol_table := 0, nil := 0, truth := 0, loaded := 0, null := 0,
    top_level_environment := 0, path := 0,
    deallocated := [] }

/-- A state with one live cell, at address 100, that no named root points to;
the recorded stack base is the word address 20. -/
def low_word_state : lone_lisp :=
  { first_heap :=
      { address := 100,
        values :=
          [{ live := true, marked := false, should_deallocate_bytes := false,
             payload := .integer 7 }] },
    next_heaps := [],
    general_pointer := 0, general_size := 1000, stack := 20,
    symbol_table := 0, nil := 0, truth := 0, loaded := 0, null := 0,
    top_level_environment := 0, path := 0,
    deallocated := [] }

/-- A stack whose only pointer is the word at address 10. -/
def low_word_memory : Nat → Nat :=
  fun address => if address = 10 then 100 else 0

/-- A stack whose only pointer is the word at address 20. -/
def high_word_memory : Nat → Nat :=
  fun address => if address = 20 then 100 else 0

/-- A state with cyclic object graphs: the list at 100 is its own `rest`; the
tables at 101 and 102 are each the prototype of the other; the function at 103
has the table at 104 as environment, and that table holds the function as a
value. The symbol table root points to the list, the other named roots to the
table at 101 and to the function. -/
def cyclic_state : lone_lisp :=
  { first_heap :=
      { address := 100,
        values :=
          [{ live := true, marked := false, should_deallocate_bytes := false,
             payload := .list 0 100 },
           { live := true, marked := false, should_deallocate_bytes := false,
             payload := .table 102 700 [] },
           { live := true, marked := false, should_deallocate_bytes := false,
             payload := .table 101 701 [] },
           { live := true, marked := false, should_deallocate_bytes := false,
             payload := .function 0 0 104 },
           { live := true, marked := false, should_deallocate_bytes := false,
             payload := .table 0 702 [(100, 103)] },
           { live := true, marked := false, should_deallocate_bytes := false,
             payload := .integer 5 }] },
    next_heaps := [],
    general_pointer := 0, general_size := 1000, stack := 0,
    symbol_table := 100, nil := 101, truth := 103, loaded := 0, null := 0,
    top_level_environment := 0, path := 0,
    deallocated := [] }

/-- A stack of machine words for `sample_state` and cells of 8 bytes: the word
at address 11 is the byte address of the vector at 200, and the word at address
12 points outside the heaps. -/
def sample_memory_bytes : Nat → Nat :=
  fun address => if address = 11 then 8 * 200 else if address = 12 then 8 * 700 + 3 else 0

/-- A stack of machine words for `sample_state` and cells of 8 bytes: the word
at address 11 points 4 bytes into the vector at 200. -/
def interior_word_memory : Nat → Nat :=
  fun address => if address = 11 then 8 * 200 + 4 else 0

/-- A state with two live text cells, which no root points to, that own the
same buffer 500. -/
def shared_buffer_state : lone_lisp :=
  { first_heap :=
      { address := 100,
        values :=
          [{ live := true, marked := false, should_deallocate_bytes := true,
             payload := .text 500 },
           { live := true, marked := false, should_deallocate_bytes := true,
             payload := .text 500 }] },
    next_heaps := [],
    general_pointer := 0, general_size := 1000, stack := 0,
    symbol_table := 0, nil := 0, truth := 0, loaded := 0, null := 0,
    top_level_environment := 0, path := 0,
    deallocated := [] }

/-- A state whose first heap holds a live text cell, which no root points to,
with the buffer pointer 200, and whose second heap, at address 200, holds no
live cell. -/
def buffer_heap_state : lone_lisp :=
  { first_heap :=
      { address := 100,
        values :=
          [{ live := true, marked := false, should_deallocate_bytes := true,
             payload := .text 200 }] },
    next_heaps :=
      [{ address := 200,
         values :=
           [{ live := false, marked := false, should_deallocate_bytes := false,
              payload := .integer 0 }] }],
    general_pointer := 0, general_size := 1000, stack := 0,
    symbol_table := 0, nil := 0, truth := 0, loaded := 0, null := 0,
    top_level_environment := 0, path := 0,
    deallocated := [] }

/-- A byte-buffer reader at a read position, with both status flags clear. -/
def reader_at (bytes : List Nat) (read : Nat) : lone_reader :=
  { bytes := bytes, read := read, error := false, end_of_input := false }

/-! ## Lemmas on cell arrays and cell pointers -/

theorem mark_in_values_length (values : List lone_value) (i : Nat) :
    (mark_in_values values i).length = values.length := by
  induction values generalizing i with
  | nil => simp [mark_in_values]
  | cons value values ih => cases i <;> simp [mark_in_values, ih]

theorem mark_in_values_unmark (values : List lone_value) (i : Nat) :
    (mark_in_values values i).map unmark_value = values.map unmark_value := by
  induction values generalizing i with
  | nil => simp [mark_in_values]
  | cons value values ih => cases i <;> simp [mark_in_values, ih, unmark_value]

theorem mark_in_values_get_self (values : List lone_value) (i : Nat) :
    (mark_in_values values i)[i]? = values[i]?.map (fun value => { value with marked := true }) := by
  induction values generalizing i with
  | nil => simp [mark_in_values]
  | cons value values ih => cases i <;> simp [mark_in_values, ih]

theorem mark_in_values_get_other (values : List lone_value) (i j : Nat) (hij : j ≠ i) :
    (mark_in_values values i)[j]? = values[j]? := by
  induction values generalizing i j with
  | nil => simp [mark_in_values]
  | cons value values ih =>
    cases i with
    | zero =>
      cases j with
      | zero => exact absurd rfl hij
      | succ j => simp [mark_in_values]
    | succ i =>
      cases j with
      | zero => simp [mark_in_values]
      | succ j =>
        simp only [mark_in_values, List.getElem?_cons_succ]
        exact ih i j (fun h => hij (by rw [h]))

theorem unmark_set_marked (heaps : List lone_heap) (pointer : Nat) :
    unmark_heaps (set_marked heaps pointer) = unmark_heaps heaps := by
  induction heaps with
  | nil => rfl
  | cons heap heaps ih =>
    unfold set_marked
    split
    · simp [unmark_heaps, mark_in_values_unmark]
    · simp only [unmark_heaps, List.map_cons] at ih ⊢
      rw [ih]

theorem lone_value_at_unmark (heaps : List lone_heap) (pointer : Nat) :
    lone_value_at (unmark_heaps heaps) pointer = (lone_value_at heaps pointer).map unmark_value := by
  induction heaps with
  | nil => rfl
  | cons heap heaps ih =>
    simp only [unmark_heaps, List.map_cons] at ih ⊢
    unfold lone_value_at
    simp only [List.length_map]
    split
    · simp [List.getElem?_map]
    · exact ih

theorem lone_value_at_set_marked_self (heaps : List lone_heap) (pointer : Nat) :
    lone_value_at (set_marked heaps pointer) pointer =
      (lone_value_at heaps pointer).map (fun value => { value with marked := true }) := by
  induction heaps with
  | nil => rfl
  | cons heap heaps ih =>
    unfold set_marked
    by_cases h : heap.address ≤ pointer ∧ pointer < heap.address + heap.values.length
    · simp only [h, and_self, if_true]
      unfold lone_value_at
      simp [h, mark_in_values_length, mark_in_values_get_self]
    · simp only [h, if_false]
      unfold lone_value_at
      simp only [h, if_false]
      exact ih

theorem lone_value_at_set_marked_other (heaps : List lone_heap) (pointer other : Nat)
    (hne : other ≠ pointer) :
    lone_value_at (set_marked heaps pointer) other = lone_value_at heaps other := by
  induction heaps with
  | nil => rfl
  | cons heap heaps ih =>
    unfold set_marked
    by_cases h : heap.address ≤ pointer ∧ pointer < heap.address + heap.values.length
    · simp only [h, and_self, if_true]
      unfold lone_value_at
      simp only [mark_in_values_length]
      split
      · rename_i h2
        apply mark_in_values_get_other
        omega
      · rfl
    · simp only [h, if_false]
      unfold lone_value_at
      simp only [ih]

theorem live_at_unmark (heaps : List lone_heap) (pointer : Nat) :
    live_at (unmark_heaps heaps) pointer = live_at heaps pointer := by
  unfold live_at
  rw [lone_value_at_unmark]
  cases lone_value_at heaps pointer <;> simp [unmark_value]

theorem references_at_unmark (heaps : List lone_heap) (pointer : Nat) :
    references_at (unmark_heaps heaps) pointer = references_at heaps pointer := by
  unfold references_at
  rw [lone_value_at_unmark]
  cases lone_value_at heaps pointer <;> simp [unmark_value, references]

theorem live_at_congr {before after : List lone_heap}
    (h : unmark_heaps after = unmark_heaps before) (pointer : Nat) :
    live_at after pointer = live_at before pointer := by
  rw [← live_at_unmark after, ← live_at_unmark before, h]

theorem references_at_congr {before after : List lone_heap}
    (h : unmark_heaps after = unmark_heaps before) (pointer : Nat) :
    references_at after pointer = references_at before pointer := by
  rw [← references_at_unmark after, ← references_at_unmark before, h]

theorem unmarked_live_values_mark (values : List lone_value) (i : Nat) (value : lone_value)
    (hget : values[i]? = some value) (hlive : value.live = true) (hmarked : value.marked = false) :
    unmarked_live_values (mark_in_values values i) + 1 = unmarked_live_values values := by
  induction values generalizing i with
  | nil => simp at hget
  | cons first values ih =>
    cases i with
    | zero =>
      simp only [List.getElem?_cons_zero, Option.some.injEq] at hget
      subst hget
      simp [mark_in_values, unmarked_live_values, hlive, hmarked]
      omega
    | succ i =>
      simp only [List.getElem?_cons_succ] at hget
      simp only [mark_in_values, unmarked_live_values]
      have := ih i hget
      omega

theorem unmarked_live_count_set_marked (heaps : List lone_heap) (pointer : Nat) (value : lone_value)
    (hat : lone_value_at heaps pointer = some value) (hlive : value.live = true)
    (hmarked : value.marked = false) :
    unmarked_live_count (set_marked heaps pointer) + 1 = unmarked_live_count heaps := by
  induction heaps with
  | nil => simp [lone_value_at] at hat
  | cons heap heaps ih =>
    unfold lone_value_at at hat
    unfold set_marked
    by_cases h : heap.address ≤ pointer ∧ pointer < heap.address + heap.values.length
    · simp only [h, and_self, if_true] at hat ⊢
      simp only [unmarked_live_count]
      have := unmarked_live_values_mark heap.values _ value hat hlive hmarked
      omega
    · simp only [h, if_false] at hat ⊢
      simp only [unmarked_live_count]
      have := ih hat
      omega

theorem mark_extends_refl (heaps : List lone_heap) : mark_extends heaps heaps :=
  ⟨rfl, Nat.le_refl _, fun _ h => h, fun h => h⟩

theorem mark_extends_trans {a b c : List lone_heap} (hab : mark_extends a b)
    (hbc : mark_extends b c) : mark_extends a c :=
  ⟨hbc.1.trans hab.1, Nat.le_trans hbc.2.1 hab.2.1,
    fun q h => hbc.2.2.1 q (hab.2.2.1 q h), fun h => hbc.2.2.2 (hab.2.2.2 h)⟩

theorem mem_mark_in_values (values : List lone_value) (i : Nat) (marked : lone_value)
    (h : marked ∈ mark_in_values values i) :
    marked ∈ values ∨ ∃ value, values[i]? = some value ∧ marked = { value with marked := true } := by
  induction values generalizing i with
  | nil => simp [mark_in_values] at h
  | cons first values ih =>
    cases i with
    | zero =>
      simp only [mark_in_values, List.mem_cons] at h
      rcases h with rfl | h
      · exact Or.inr ⟨first, by simp, rfl⟩
      · exact Or.inl (List.mem_cons_of_mem _ h)
    | succ i =>
      simp only [mark_in_values, List.mem_cons] at h
      rcases h with rfl | h
      · exact Or.inl (List.mem_cons_self _ _)
      · rcases ih i h with hmem | ⟨value, hget, heq⟩
        · exact Or.inl (List.mem_cons_of_mem _ hmem)
        · exact Or.inr ⟨value, by simpa using hget, heq⟩

theorem marked_are_live_set_marked (heaps : List lone_heap) (pointer : Nat) (value : lone_value)
    (hat : lone_value_at heaps pointer = some value) (hlive : value.live = true)
    (h : marked_are_live heaps) : marked_are_live (set_marked heaps pointer) := by
  induction heaps with
  | nil => exact h
  | cons heap heaps ih =>
    have htail : marked_are_live heaps :=
      fun hp hh v hv hm => h hp (List.mem_cons_of_mem _ hh) v hv hm
    unfold lone_value_at at hat
    unfold set_marked
    by_cases hin : heap.address ≤ pointer ∧ pointer < heap.address + heap.values.length
    · simp only [hin, and_self, if_true] at hat ⊢
      intro hp hh v hv hm
      rcases List.mem_cons.mp hh with rfl | hh
      · rcases mem_mark_in_values _ _ _ hv with hmem | ⟨source, hget, rfl⟩
        · exact h heap (List.mem_cons_self _ _) v hmem hm
        · rw [hat] at hget
          simp only [Option.some.injEq] at hget
          subst hget
          exact hlive
      · exact htail hp hh v hv hm
    · simp only [hin, if_false] at hat ⊢
      intro hp hh v hv hm
      rcases List.mem_cons.mp hh with rfl | hh
      · exact h hp (List.mem_cons_self _ _) v hv hm
      · exact ih hat htail hp hh v hv hm

theorem marked_at_set_marked_self (heaps : List lone_heap) (pointer : Nat) (value : lone_value)
    (hat : lone_value_at heaps pointer = some value) :
    marked_at (set_marked heaps pointer) pointer = true := by
  unfold marked_at
  rw [lone_value_at_set_marked_self, hat]
  rfl

theorem marked_at_set_marked_other (heaps : List lone_heap) (pointer other : Nat)
    (hne : other ≠ pointer) :
    marked_at (set_marked heaps pointer) other = marked_at heaps other := by
  unfold marked_at
  rw [lone_value_at_set_marked_other heaps pointer other hne]

theorem mark_extends_set_marked (heaps : List lone_heap) (pointer : Nat) (value : lone_value)
    (hat : lone_value_at heaps pointer = some value) (hlive : value.live = true)
    (hmarked : value.marked = false) : mark_extends heaps (set_marked heaps pointer) := by
  refine ⟨unmark_set_marked heaps pointer, ?_, ?_,
    marked_are_live_set_marked heaps pointer value hat hlive⟩
  · have := unmarked_live_count_set_marked heaps pointer value hat hlive hmarked
    omega
  · intro q hq
    by_cases hqp : q = pointer
    · subst hqp
      exact marked_at_set_marked_self heaps q value hat
    · rw [marked_at_set_marked_other heaps pointer q hqp]
      exact hq

/-! ## Lemmas on marking -/

theorem mark_entries_eq (mark : List lone_heap → Nat → Option (List lone_heap))
    (heaps : List lone_heap) (slots : List (Nat × Nat)) :
    mark_entries mark heaps slots = mark_each mark heaps (slot_references slots) := by
  induction slots generalizing heaps with
  | nil => rfl
  | cons entry slots ih =>
    simp only [mark_entries, slot_references, mark_each]
    cases mark heaps entry.1 with
    | none => rfl
    | some heaps1 =>
      simp only
      cases mark heaps1 entry.2 with
      | none => rfl
      | some heaps2 => exact ih heaps2

/-- One call of `lone_mark_value` below the depth bound: the guard, the mark
bit, then one call per reference field. -/
theorem lone_mark_value_succ (depth : Nat) (heaps : List lone_heap) (value : Nat) :
    lone_mark_value (depth + 1) heaps value =
      if value = 0 then some heaps
      else
        match lone_value_at heaps value with
        | none => some heaps
        | some cell =>
          if !cell.live || cell.marked then some heaps
          else mark_each (lone_mark_value depth) (set_marked heaps value) (references cell) := by
  rw [lone_mark_value]
  split
  · rfl
  · cases hat : lone_value_at heaps value with
    | none => rfl
    | some cell =>
      simp only
      split
      · rfl
      · rcases cell with ⟨live, marked, flag, payload⟩
        cases payload <;> simp [references, mark_each, mark_entries_eq]

theorem mark_each_append (mark : List lone_heap → Nat → Option (List lone_heap))
    (heaps : List lone_heap) (first second : List Nat) :
    mark_each mark heaps (first ++ second) =
      match mark_each mark heaps first with
      | some heaps => mark_each mark heaps second
      | none => none := by
  induction first generalizing heaps with
  | nil => rfl
  | cons value first ih =>
    simp only [List.cons_append, mark_each]
    cases mark heaps value with
    | none => rfl
    | some heaps1 => exact ih heaps1

theorem mark_each_extends (mark : List lone_heap → Nat → Option (List lone_heap))
    (hmark : ∀ heaps value after, mark heaps value = some after → mark_extends heaps after)
    (values : List Nat) (heaps after : List lone_heap)
    (h : mark_each mark heaps values = some after) : mark_extends heaps after := by
  induction values generalizing heaps with
  | nil =>
    simp only [mark_each, Option.some.injEq] at h
    subst h
    exact mark_extends_refl heaps
  | cons value values ih =>
    simp only [mark_each] at h
    cases hm : mark heaps value with
    | none => simp [hm] at h
    | some heaps1 =>
      simp only [hm] at h
      exact mark_extends_trans (hmark heaps value heaps1 hm) (ih heaps1 h)

theorem lone_mark_value_extends (depth : Nat) (heaps : List lone_heap) (value : Nat)
    (after : List lone_heap) (h : lone_mark_value depth heaps value = some after) :
    mark_extends heaps after := by
  induction depth generalizing heaps value after with
  | zero => simp [lone_mark_value] at h
  | succ depth ih =>
    rw [lone_mark_value_succ] at h
    split at h
    · simp only [Option.some.injEq] at h
      subst h
      exact mark_extends_refl heaps
    · split at h
      · simp only [Option.some.injEq] at h
        subst h
        exact mark_extends_refl heaps
      · rename_i cell hat
        split at h
        · simp only [Option.some.injEq] at h
          subst h
          exact mark_extends_refl heaps
        · rename_i hguard
          simp only [Bool.or_eq_true, Bool.not_eq_true', not_or, Bool.not_eq_false,
            Bool.not_eq_true] at hguard
          exact mark_extends_trans
            (mark_extends_set_marked heaps value cell hat hguard.1 hguard.2)
            (mark_each_extends _ ih _ _ _ h)

theorem mark_each_closed (mark : List lone_heap → Nat → Option (List lone_heap))
    (hext : ∀ heaps value after, mark heaps value = some after → mark_extends heaps after)
    (hmark : ∀ heaps value after, mark heaps value = some after →
      (value ≠ 0 → live_at heaps value = true → marked_at after value = true) ∧
        marks_closed heaps after)
    (values : List Nat) (heaps after : List lone_heap)
    (h : mark_each mark heaps values = some after) :
    (∀ value ∈ values, value ≠ 0 → live_at heaps value = true → marked_at after value = true) ∧
      marks_closed heaps after := by
  induction values generalizing heaps with
  | nil =>
    simp only [mark_each, Option.some.injEq] at h
    subst h
    refine ⟨fun _ hin => by simp at hin, ?_⟩
    intro q hq hnq
    rw [hq] at hnq
    exact absurd hnq (by simp)
  | cons value values ih =>
    simp only [mark_each] at h
    cases hm : mark heaps value with
    | none => simp [hm] at h
    | some heaps1 =>
      simp only [hm] at h
      have hfirst := hmark heaps value heaps1 hm
      have hrest := ih heaps1 h
      have hext1 := hext heaps value heaps1 hm
      have hext2 := mark_each_extends mark hext values heaps1 after h
      constructor
      · intro v hv hv0 hlive
        rcases List.mem_cons.mp hv with rfl | hv
        · exact hext2.2.2.1 _ (hfirst.1 hv0 hlive)
        · refine hrest.1 v hv hv0 ?_
          rw [live_at_congr hext1.1]
          exact hlive
      · intro q hq hnq c hc hc0 hclive
        cases hq1 : marked_at heaps1 q with
        | true => exact hext2.2.2.1 _ (hfirst.2 q hq1 hnq c hc hc0 hclive)
        | false =>
          refine hrest.2 q hq hq1 c ?_ hc0 ?_
          · rw [references_at_congr hext1.1]
            exact hc
          · rw [live_at_congr hext1.1]
            exact hclive

theorem lone_mark_value_closed (depth : Nat) (heaps : List lone_heap) (value : Nat)
    (after : List lone_heap) (h : lone_mark_value depth heaps value = some after) :
    (value ≠ 0 → live_at heaps value = true → marked_at after value = true) ∧
      marks_closed heaps after := by
  induction depth generalizing heaps value after with
  | zero => simp [lone_mark_value] at h
  | succ depth ih =>
    have hnothing : ∀ before : List lone_heap, marks_closed before before := by
      intro before q hq hnq
      rw [hq] at hnq
      exact absurd hnq (by simp)
    rw [lone_mark_value_succ] at h
    split at h
    · rename_i hzero
      simp only [Option.some.injEq] at h
      subst h
      exact ⟨fun h0 => absurd hzero h0, hnothing heaps⟩
    · split at h
      · rename_i hat
        simp only [Option.some.injEq] at h
        subst h
        refine ⟨fun _ hlive => ?_, hnothing heaps⟩
        simp [live_at, hat] at hlive
      · rename_i cell hat
        split at h
        · rename_i hguard
          simp only [Option.some.injEq] at h
          subst h
          refine ⟨fun _ hlive => ?_, hnothing heaps⟩
          simp only [live_at, hat] at hlive
          simp only [marked_at, hat]
          simpa [hlive] using hguard
        · rename_i hguard
          simp only [Bool.or_eq_true, Bool.not_eq_true', not_or, Bool.not_eq_false,
            Bool.not_eq_true] at hguard
          have hstep := mark_extends_set_marked heaps value cell hat hguard.1 hguard.2
          have hseq := mark_each_closed (lone_mark_value depth)
            (fun a b c hh => lone_mark_value_extends depth a b c hh) ih _ _ _ h
          have hrun := mark_each_extends (lone_mark_value depth)
            (fun a b c hh => lone_mark_value_extends depth a b c hh) _ _ _ h
          constructor
          · intro _ _
            exact hrun.2.2.1 _ (marked_at_set_marked_self heaps value cell hat)
          · intro q hq hnq c hc hc0 hclive
            by_cases hqv : q = value
            · subst hqv
              refine hseq.1 c ?_ hc0 ?_
              · simpa [references_at, hat] using hc
              · rw [live_at_congr hstep.1]
                exact hclive
            · refine hseq.2 q hq ?_ c ?_ hc0 ?_
              · rw [marked_at_set_marked_other heaps value q hqv]
                exact hnq
              · rw [references_at_congr hstep.1]
                exact hc
              · rw [live_at_congr hstep.1]
                exact hclive

theorem mark_each_adequate (mark : List lone_heap → Nat → Option (List lone_heap)) (bound : Nat)
    (hext : ∀ heaps value after, mark heaps value = some after → mark_extends heaps after)
    (hmark : ∀ heaps value, unmarked_live_count heaps < bound →
      ∃ after, mark heaps value = some after)
    (values : List Nat) (heaps : List lone_heap) (h : unmarked_live_count heaps < bound) :
    ∃ after, mark_each mark heaps values = some after := by
  induction values generalizing heaps with
  | nil => exact ⟨heaps, rfl⟩
  | cons value values ih =>
    obtain ⟨heaps1, h1⟩ := hmark heaps value h
    have hle := (hext heaps value heaps1 h1).2.1
    obtain ⟨after, h2⟩ := ih heaps1 (by omega)
    exact ⟨after, by simp [mark_each, h1, h2]⟩

/-- Marking returns when the depth bound exceeds the number of live unmarked cells. -/
theorem lone_mark_value_adequate (depth : Nat) (heaps : List lone_heap) (value : Nat)
    (h : unmarked_live_count heaps < depth) :
    ∃ after, lone_mark_value depth heaps value = some after := by
  induction depth generalizing heaps value with
  | zero => omega
  | succ depth ih =>
    rw [lone_mark_value_succ]
    split
    · exact ⟨heaps, rfl⟩
    · split
      · exact ⟨heaps, rfl⟩
      · rename_i cell hat
        split
        · exact ⟨heaps, rfl⟩
        · rename_i hguard
          simp only [Bool.or_eq_true, Bool.not_eq_true', not_or, Bool.not_eq_false,
            Bool.not_eq_true] at hguard
          have hcount := unmarked_live_count_set_marked heaps value cell hat hguard.1 hguard.2
          exact mark_each_adequate (lone_mark_value depth) depth
            (fun a b c hh => lone_mark_value_extends depth a b c hh) ih _ _ (by omega)

theorem marked_within_set_marked (allowed : Nat → Prop) (heaps : List lone_heap) (pointer : Nat)
    (hwithin : marked_within allowed heaps) (hallowed : allowed pointer) :
    marked_within allowed (set_marked heaps pointer) := by
  induction heaps with
  | nil => exact hwithin
  | cons heap heaps ih =>
    have htail : marked_within allowed heaps :=
      fun h hh i v hv hm => hwithin h (List.mem_cons_of_mem _ hh) i v hv hm
    unfold set_marked
    by_cases hin : heap.address ≤ pointer ∧ pointer < heap.address + heap.values.length
    · simp only [hin, and_self, if_true]
      intro h hh i v hv hm
      rcases List.mem_cons.mp hh with rfl | hh
      · simp only at hv ⊢
        by_cases hi : i = pointer - heap.address
        · have : heap.address + i = pointer := by omega
          rw [this]
          exact hallowed
        · rw [mark_in_values_get_other _ _ _ hi] at hv
          exact hwithin heap (List.mem_cons_self _ _) i v hv hm
      · exact htail h hh i v hv hm
    · simp only [hin, if_false]
      intro h hh i v hv hm
      rcases List.mem_cons.mp hh with rfl | hh
      · exact hwithin h (List.mem_cons_self _ _) i v hv hm
      · exact ih htail h hh i v hv hm

theorem mark_each_within (mark : List lone_heap → Nat → Option (List lone_heap))
    (allowed : Nat → Prop) (origin : List lone_heap)
    (hext : ∀ heaps value after, mark heaps value = some after → mark_extends heaps after)
    (hmark : ∀ heaps value after, unmark_heaps heaps = unmark_heaps origin →
      mark heaps value = some after →
      (value ≠ 0 → live_at origin value = true → allowed value) →
      marked_within allowed heaps → marked_within allowed after)
    (values : List Nat) (heaps after : List lone_heap)
    (hsame : unmark_heaps heaps = unmark_heaps origin)
    (h : mark_each mark heaps values = some after)
    (hvalues : ∀ value ∈ values, value ≠ 0 → live_at origin value = true → allowed value)
    (hwithin : marked_within allowed heaps) : marked_within allowed after := by
  induction values generalizing heaps with
  | nil =>
    simp only [mark_each, Option.some.injEq] at h
    subst h
    exact hwithin
  | cons value values ih =>
    simp only [mark_each] at h
    cases hm : mark heaps value with
    | none => simp [hm] at h
    | some heaps1 =>
      simp only [hm] at h
      have h1 := hmark heaps value heaps1 hsame hm
        (hvalues value (List.mem_cons_self _ _)) hwithin
      exact ih heaps1 ((hext heaps value heaps1 hm).1.trans hsame) h
        (fun v hv => hvalues v (List.mem_cons_of_mem _ hv)) h1

theorem lone_mark_value_within (allowed : Nat → Prop) (origin : List lone_heap)
    (hclosed : ∀ pointer reference, allowed pointer → live_at origin pointer = true →
      reference ∈ references_at origin pointer → reference ≠ 0 →
      live_at origin reference = true → allowed reference)
    (depth : Nat) (heaps : List lone_heap) (value : Nat) (after : List lone_heap)
    (hsame : unmark_heaps heaps = unmark_heaps origin)
    (h : lone_mark_value depth heaps value = some after)
    (hvalue : value ≠ 0 → live_at origin value = true → allowed value)
    (hwithin : marked_within allowed heaps) : marked_within allowed after := by
  induction depth generalizing heaps value after with
  | zero => simp [lone_mark_value] at h
  | succ depth ih =>
    rw [lone_mark_value_succ] at h
    split at h
    · simp only [Option.some.injEq] at h
      subst h
      exact hwithin
    · rename_i hzero
      split at h
      · simp only [Option.some.injEq] at h
        subst h
        exact hwithin
      · rename_i cell hat
        split at h
        · simp only [Option.some.injEq] at h
          subst h
          exact hwithin
        · rename_i hguard
          simp only [Bool.or_eq_true, Bool.not_eq_true', not_or, Bool.not_eq_false,
            Bool.not_eq_true] at hguard
          have hstep := mark_extends_set_marked heaps value cell hat hguard.1 hguard.2
          have hlive : live_at origin value = true := by
            rw [← live_at_congr hsame]
            simp [live_at, hat, hguard.1]
          have hrefs : references_at origin value = references cell := by
            rw [← references_at_congr hsame]
            simp [references_at, hat]
          have hallowed := hvalue hzero hlive
          refine mark_each_within (lone_mark_value depth) allowed origin
            (fun a b c hh => lone_mark_value_extends depth a b c hh)
            (fun a b c hs hh hv hw => ih a b c hs hh hv hw) _ _ _
            (hstep.1.trans hsame) h ?_
            (marked_within_set_marked allowed heaps value hwithin hallowed)
          intro c hc hc0 hclive
          exact hclosed value c hallowed hlive (by rw [hrefs]; exact hc) hc0 hclive

theorem stack_roots_loop_eq (depth : Nat) (lone : lone_lisp) (memory : Nat → Nat)
    (iterations pointer : Nat) (heaps : List lone_heap) :
    stack_roots_loop depth lone memory iterations pointer heaps =
      mark_each (lone_mark_value depth) heaps
        (((List.range' (pointer + 1) iterations).map memory).filter (lone_points_to_heap lone)) := by
  induction iterations generalizing pointer heaps with
  | zero => rfl
  | succ iterations ih =>
    simp only [stack_roots_loop, List.range'_succ, List.map_cons, List.filter_cons]
    by_cases hp : lone_points_to_heap lone (memory (pointer + 1)) = true
    · simp only [hp, if_true, mark_each]
      cases lone_mark_value depth heaps (memory (pointer + 1)) with
      | none => rfl
      | some heaps1 => exact ih (pointer + 1) heaps1
    · simp only [hp, if_false]
      exact ih (pointer + 1) heaps

theorem lone_find_and_mark_stack_roots_eq (depth : Nat) (lone : lone_lisp) (frame : Nat)
    (memory : Nat → Nat) (heaps : List lone_heap) :
    lone_find_and_mark_stack_roots depth lone frame memory heaps =
      mark_each (lone_mark_value depth) heaps (stack_roots lone frame memory) := by
  simp only [lone_find_and_mark_stack_roots, stack_roots_loop_eq, stack_roots, scanned_addresses,
    stack_bottom, stack_top]

theorem lone_mark_all_reachable_values_eq (depth : Nat) (lone : lone_lisp) (frame : Nat)
    (memory : Nat → Nat) :
    lone_mark_all_reachable_values depth lone frame memory =
      (mark_each (lone_mark_value depth) lone.heaps (collector_roots lone frame memory)).map
        lone.with_heaps := by
  simp only [lone_mark_all_reachable_values, lone_mark_known_roots,
    lone_find_and_mark_stack_roots_eq, collector_roots, mark_each_append, known_roots]
  cases mark_each (lone_mark_value depth) lone.heaps
      [lone.symbol_table, lone.nil, lone.truth, lone.loaded, lone.null,
        lone.top_level_environment, lone.path] with
  | none => rfl
  | some heaps1 =>
    simp only
    cases mark_each (lone_mark_value depth) heaps1 (stack_roots lone frame memory) <;> rfl

theorem lone_value_at_mem (heaps : List lone_heap) (pointer : Nat) (value : lone_value)
    (h : lone_value_at heaps pointer = some value) :
    ∃ heap ∈ heaps, ∃ i, heap.values[i]? = some value ∧ heap.address + i = pointer := by
  induction heaps with
  | nil => simp [lone_value_at] at h
  | cons heap heaps ih =>
    unfold lone_value_at at h
    split at h
    · rename_i hin
      exact ⟨heap, List.mem_cons_self _ _, pointer - heap.address, h, by omega⟩
    · obtain ⟨heap1, hmem, i, hi, hp⟩ := ih h
      exact ⟨heap1, List.mem_cons_of_mem _ hmem, i, hi, hp⟩

theorem marked_at_of_no_value_marked (heaps : List lone_heap) (h : no_value_marked heaps)
    (pointer : Nat) : marked_at heaps pointer = false := by
  unfold marked_at
  cases hat : lone_value_at heaps pointer with
  | none => rfl
  | some value =>
    obtain ⟨heap, hmem, i, hi, _⟩ := lone_value_at_mem heaps pointer value hat
    exact h heap hmem value (List.getElem?_mem hi)

theorem marked_within_of_no_value_marked (allowed : Nat → Prop) (heaps : List lone_heap)
    (h : no_value_marked heaps) : marked_within allowed heaps := by
  intro heap hmem i value hi hm
  rw [h heap hmem value (List.getElem?_mem hi)] at hm
  exact absurd hm (by simp)

theorem reachable_closed (heaps : List lone_heap) (roots : List Nat) (pointer reference : Nat)
    (hp : Reachable heaps roots pointer) (_hlive : live_at heaps pointer = true)
    (href : reference ∈ references_at heaps pointer) (h0 : reference ≠ 0)
    (hrlive : live_at heaps reference = true) : Reachable heaps roots reference :=
  Reachable.step hp href h0 hrlive

/-- The marking phase on a heap list without marks: it returns, it changes mark
bits only, it marks every reachable cell, and it marks reachable cells only. -/
theorem mark_roots_spec (depth : Nat) (heaps : List lone_heap) (roots : List Nat)
    (hmarks : no_value_marked heaps) (hdepth : unmarked_live_count heaps < depth) :
    ∃ marked, mark_each (lone_mark_value depth) heaps roots = some marked ∧
      unmark_heaps marked = unmark_heaps heaps ∧
      (∀ pointer, Reachable heaps roots pointer → marked_at marked pointer = true) ∧
      marked_within (Reachable heaps roots) marked := by
  obtain ⟨marked, hrun⟩ := mark_each_adequate (lone_mark_value depth) depth
    (fun a b c hh => lone_mark_value_extends depth a b c hh)
    (fun a b hh => lone_mark_value_adequate depth a b hh) roots heaps hdepth
  have hext := mark_each_extends (lone_mark_value depth)
    (fun a b c hh => lone_mark_value_extends depth a b c hh) roots heaps marked hrun
  have hclosed := mark_each_closed (lone_mark_value depth)
    (fun a b c hh => lone_mark_value_extends depth a b c hh)
    (fun a b c hh => lone_mark_value_closed depth a b c hh) roots heaps marked hrun
  refine ⟨marked, hrun, hext.1, ?_, ?_⟩
  · intro pointer hreach
    induction hreach with
    | root hin h0 hlive => exact hclosed.1 _ hin h0 hlive
    | step _ href h0 hlive ih =>
      exact hclosed.2 _ ih (marked_at_of_no_value_marked heaps hmarks _) _ href h0 hlive
  · refine mark_each_within (lone_mark_value depth) (Reachable heaps roots) heaps
      (fun a b c hh => lone_mark_value_extends depth a b c hh)
      (fun a b c hs hh hv hw => lone_mark_value_within (Reachable heaps roots) heaps
        (fun p r hp hl hr h0 hrl => reachable_closed heaps roots p r hp hl hr h0 hrl)
        depth a b c hs hh hv hw)
      roots heaps marked rfl hrun ?_ (marked_within_of_no_value_marked _ heaps hmarks)
    intro value hin h0 hlive
    exact Reachable.root hin h0 hlive

/-! ## Lemmas on the sweep and on heap release -/

theorem kill_unmarked_values_fst (values : List lone_value) :
    (kill_unmarked_values values).1 = values.map sweep_value := by
  induction values with
  | nil => rfl
  | cons value values ih => simp [kill_unmarked_values, sweep_value, ← ih]

theorem kill_unmarked_heaps_fst (heaps : List lone_heap) :
    (kill_unmarked_heaps heaps).1 = heaps.map sweep_heap := by
  induction heaps with
  | nil => rfl
  | cons heap heaps ih => simp [kill_unmarked_heaps, sweep_heap, kill_unmarked_values_fst, ← ih]

theorem with_heaps_heaps (lone : lone_lisp) (heaps : List lone_heap) (h : heaps ≠ []) :
    (lone.with_heaps heaps).heaps = heaps := by
  cases heaps with
  | nil => exact absurd rfl h
  | cons first next => rfl

theorem lone_kill_all_unmarked_values_heaps (lone : lone_lisp) :
    (lone_kill_all_unmarked_values lone).heaps = lone.heaps.map sweep_heap := by
  simp only [lone_kill_all_unmarked_values, kill_unmarked_heaps_fst]
  rfl

theorem sweep_value_live (value : lone_value) :
    (sweep_value value).live = (value.live && value.marked) := by
  rcases value with ⟨live, marked, flag, payload⟩
  cases live <;> cases marked <;> rfl

theorem sweep_value_payload (value : lone_value) :
    (sweep_value value).payload = value.payload ∧
      (sweep_value value).should_deallocate_bytes = value.should_deallocate_bytes := by
  rcases value with ⟨live, marked, flag, payload⟩
  cases live <;> cases marked <;> exact ⟨rfl, rfl⟩

theorem sweep_value_marked (value : lone_value) (h : value.live = true) :
    (sweep_value value).marked = false := by
  rcases value with ⟨live, marked, flag, payload⟩
  simp only at h
  subst h
  cases marked <;> rfl

theorem sweep_value_of_marked (value : lone_value) (hlive : value.live = true)
    (hmarked : value.marked = true) : sweep_value value = unmark_value value := by
  rcases value with ⟨live, marked, flag, payload⟩
  simp only at hlive hmarked
  subst hlive hmarked
  rfl

theorem lone_value_at_sweep (heaps : List lone_heap) (pointer : Nat) :
    lone_value_at (heaps.map sweep_heap) pointer =
      (lone_value_at heaps pointer).map sweep_value := by
  induction heaps with
  | nil => rfl
  | cons heap heaps ih =>
    simp only [List.map_cons]
    unfold lone_value_at
    simp only [sweep_heap, List.length_map]
    split
    · simp [List.getElem?_map]
    · exact ih

theorem has_live_value_eq (values : List lone_value) :
    has_live_value values = values.any (fun value => value.live) := by
  induction values with
  | nil => rfl
  | cons value values ih =>
    simp only [has_live_value, List.any_cons, ih]
    cases value.live <;> simp

theorem deallocate_dead_heaps_fst (heaps : List lone_heap) :
    (deallocate_dead_heaps heaps).1 =
      heaps.filter (fun heap => heap.values.any (fun value => value.live)) := by
  induction heaps with
  | nil => rfl
  | cons heap heaps ih =>
    simp only [deallocate_dead_heaps, List.filter_cons, has_live_value_eq]
    split <;> simp [ih]

theorem deallocate_dead_heaps_snd (heaps : List lone_heap) :
    (deallocate_dead_heaps heaps).2 =
      (heaps.filter (fun heap => !heap.values.any (fun value => value.live))).map
        (fun heap => heap.address) := by
  induction heaps with
  | nil => rfl
  | cons heap heaps ih =>
    simp only [deallocate_dead_heaps, List.filter_cons, has_live_value_eq]
    cases hany : heap.values.any (fun value => value.live) <;> simp [ih]

theorem lone_deallocate_dead_heaps_heaps (lone : lone_lisp) :
    (lone_deallocate_dead_heaps lone).heaps =
      lone.first_heap ::
        lone.next_heaps.filter (fun heap => heap.values.any (fun value => value.live)) := by
  simp only [lone_deallocate_dead_heaps, lone_lisp.heaps, deallocate_dead_heaps_fst]

theorem lone_value_at_filter_live (heaps : List lone_heap) (pointer : Nat) (value : lone_value)
    (hat : lone_value_at heaps pointer = some value) (hlive : value.live = true) :
    lone_value_at (heaps.filter (fun heap => heap.values.any (fun value => value.live))) pointer =
      some value := by
  induction heaps with
  | nil => simp [lone_value_at] at hat
  | cons heap heaps ih =>
    unfold lone_value_at at hat
    by_cases hin : heap.address ≤ pointer ∧ pointer < heap.address + heap.values.length
    · simp only [hin, and_self, if_true] at hat
      have hany : heap.values.any (fun value => value.live) = true :=
        List.any_eq_true.mpr ⟨value, List.getElem?_mem hat, hlive⟩
      simp only [List.filter_cons, hany, if_true]
      unfold lone_value_at
      simp only [hin, and_self, if_true]
      exact hat
    · simp only [hin, if_false] at hat
      simp only [List.filter_cons]
      split
      · unfold lone_value_at
        simp only [hin, if_false]
        exact ih hat
      · exact ih hat

theorem lone_value_at_deallocate_dead_heaps (lone : lone_lisp) (pointer : Nat)
    (value : lone_value) (hat : lone_value_at lone.heaps pointer = some value)
    (hlive : value.live = true) :
    lone_value_at (lone_deallocate_dead_heaps lone).heaps pointer = some value := by
  rw [lone_deallocate_dead_heaps_heaps]
  simp only [lone_lisp.heaps] at hat
  unfold lone_value_at at hat ⊢
  split
  · rename_i hin
    simpa [hin] using hat
  · rename_i hin
    simp only [hin, if_false] at hat
    exact lone_value_at_filter_live _ _ _ hat hlive

theorem unmark_heaps_ne_nil (before after : List lone_heap)
    (h : unmark_heaps after = unmark_heaps before) (hne : before ≠ []) : after ≠ [] := by
  intro hnil
  subst hnil
  cases before with
  | nil => exact hne rfl
  | cons heap heaps => simp [unmark_heaps] at h

theorem lone_garbage_collector_eq (depth : Nat) (lone : lone_lisp) (frame : Nat)
    (memory : Nat → Nat) :
    lone_garbage_collector depth lone frame memory =
      (mark_each (lone_mark_value depth) lone.heaps (collector_roots lone frame memory)).map
        (fun marked =>
          lone_deallocate_dead_heaps (lone_kill_all_unmarked_values (lone.with_heaps marked))) := by
  simp only [lone_garbage_collector, lone_mark_all_reachable_values_eq]
  cases mark_each (lone_mark_value depth) lone.heaps (collector_roots lone frame memory) <;> rfl

theorem heap_layout_unmark (heaps : List lone_heap) :
    heap_layout (unmark_heaps heaps) = heap_layout heaps := by
  simp [heap_layout, unmark_heaps, Function.comp_def]

theorem heap_layout_sweep (heaps : List lone_heap) :
    heap_layout (heaps.map sweep_heap) = heap_layout heaps := by
  simp [heap_layout, sweep_heap, Function.comp_def]

theorem live_after_sweep_within (allowed : Nat → Prop) (marked : List lone_heap)
    (hwithin : marked_within allowed marked) (heap : lone_heap)
    (hmem : heap ∈ marked.map sweep_heap) (i : Nat) (value : lone_value)
    (hget : heap.values[i]? = some value) (hlive : value.live = true) :
    allowed (heap.address + i) := by
  obtain ⟨source, hsource, rfl⟩ := List.mem_map.mp hmem
  simp only [sweep_heap, List.getElem?_map, Option.map_eq_some'] at hget
  obtain ⟨before, hbefore, rfl⟩ := hget
  rw [sweep_value_live, Bool.and_eq_true] at hlive
  exact hwithin source hsource i before hbefore hlive.2

/-! ## The claims -/

/-- On a stack of model addresses: when no cell is marked on entry and the
depth bound exceeds the number of live cells, `lone_garbage_collector` returns,
and every cell reachable from a named root or from a scanned stack word that
points into a heap is the same live cell afterwards: same payload, so same type
tag. -/
theorem reachable_cells_survive (depth : Nat) (lone : lone_lisp) (frame : Nat)
    (memory : Nat → Nat) (hmarks : no_value_marked lone.heaps)
    (hdepth : unmarked_live_count lone.heaps < depth) :
    ∃ after, lone_garbage_collector depth lone frame memory = some after ∧
      ∀ pointer, Reachable lone.heaps (collector_roots lone frame memory) pointer →
        ∃ value, lone_value_at lone.heaps pointer = some value ∧ value.live = true ∧
          lone_value_at after.heaps pointer = some value := by
  obtain ⟨marked, hrun, hsame, hreach, _⟩ :=
    mark_roots_spec depth lone.heaps (collector_roots lone frame memory) hmarks hdepth
  refine ⟨_, by rw [lone_garbage_collector_eq, hrun]; rfl, ?_⟩
  intro pointer hp
  have hlive : live_at lone.heaps pointer = true := by cases hp <;> assumption
  have hm := hreach pointer hp
  have hnm := marked_at_of_no_value_marked lone.heaps hmarks pointer
  have hmap : (lone_value_at marked pointer).map unmark_value =
      (lone_value_at lone.heaps pointer).map unmark_value := by
    rw [← lone_value_at_unmark, ← lone_value_at_unmark, hsame]
  unfold live_at at hlive
  unfold marked_at at hm hnm
  cases hat : lone_value_at lone.heaps pointer with
  | none => simp [hat] at hlive
  | some value =>
    cases hat2 : lone_value_at marked pointer with
    | none => simp [hat2] at hm
    | some value2 =>
      simp only [hat, hat2, Option.map_some', Option.some.injEq] at hlive hm hnm hmap
      have hvalue : unmark_value value = value := by
        rcases value with ⟨l, m, f, pl⟩
        simp only at hnm
        subst hnm
        rfl
      have hlive2 : value2.live = true := by
        have := congrArg lone_value.live hmap
        simp only [unmark_value] at this
        rw [this]
        exact hlive
      refine ⟨value, rfl, hlive, ?_⟩
      have hne : marked ≠ [] := unmark_heaps_ne_nil lone.heaps marked hsame (by simp [lone_lisp.heaps])
      apply lone_value_at_deallocate_dead_heaps _ _ _ _ hlive
      rw [lone_kill_all_unmarked_values_heaps, with_heaps_heaps _ _ hne, lone_value_at_sweep, hat2]
      simp only [Option.map_some', Option.some.injEq]
      rw [sweep_value_of_marked value2 hlive2 hm, hmap, hvalue]

/-- On a stack of model addresses: when no cell is marked on entry (and the
depth bound exceeds the number of live cells), one call of
`lone_garbage_collector` returns, and every cell whose address is not reachable
from a named root or a scanned stack word has `live = false`, both after the
sweep, where every heap is still linked, and in the heap list the collector
leaves. -/
theorem unreachable_cells_die (depth : Nat) (lone : lone_lisp) (frame : Nat)
    (memory : Nat → Nat) (hmarks : no_value_marked lone.heaps)
    (hdepth : unmarked_live_count lone.heaps < depth) :
    ∃ marked after,
      lone_mark_all_reachable_values depth lone frame memory = some marked ∧
      lone_garbage_collector depth lone frame memory = some after ∧
      after = lone_deallocate_dead_heaps (lone_kill_all_unmarked_values marked) ∧
      heap_layout (lone_kill_all_unmarked_values marked).heaps = heap_layout lone.heaps ∧
      (∀ heap ∈ (lone_kill_all_unmarked_values marked).heaps,
        ∀ (i : Nat) (value : lone_value), heap.values[i]? = some value →
          ¬ Reachable lone.heaps (collector_roots lone frame memory) (heap.address + i) →
          value.live = false) ∧
      (∀ heap ∈ after.heaps,
        ∀ (i : Nat) (value : lone_value), heap.values[i]? = some value →
          ¬ Reachable lone.heaps (collector_roots lone frame memory) (heap.address + i) →
          value.live = false) := by
  obtain ⟨marked, hrun, hsame, _, hwithin⟩ :=
    mark_roots_spec depth lone.heaps (collector_roots lone frame memory) hmarks hdepth
  have hne : marked ≠ [] := unmark_heaps_ne_nil lone.heaps marked hsame (by simp [lone_lisp.heaps])
  have hswept : (lone_kill_all_unmarked_values (lone.with_heaps marked)).heaps =
      marked.map sweep_heap := by
    rw [lone_kill_all_unmarked_values_heaps, with_heaps_heaps _ _ hne]
  have hdead : ∀ heap ∈ marked.map sweep_heap,
      ∀ (i : Nat) (value : lone_value), heap.values[i]? = some value →
        ¬ Reachable lone.heaps (collector_roots lone frame memory) (heap.address + i) →
        value.live = false := by
    intro heap hmem i value hget hnot
    cases hl : value.live with
    | false => rfl
    | true => exact absurd (live_after_sweep_within _ marked hwithin heap hmem i value hget hl) hnot
  refine ⟨lone.with_heaps marked, _, by rw [lone_mark_all_reachable_values_eq, hrun]; rfl,
    by rw [lone_garbage_collector_eq, hrun]; rfl, rfl, ?_, ?_, ?_⟩
  · rw [hswept, heap_layout_sweep, ← heap_layout_unmark, hsame, heap_layout_unmark]
  · rw [hswept]
    exact hdead
  · intro heap hmem
    apply hdead heap
    rw [lone_deallocate_dead_heaps_heaps] at hmem
    rw [← hswept]
    rcases List.mem_cons.mp hmem with rfl | hmem
    · exact List.mem_cons_self _ _
    · exact List.mem_cons_of_mem _ (List.mem_filter.mp hmem).1

/-- C5: after `lone_kill_all_unmarked_values` the heap list has the same heaps
at the same addresses, and cell by cell: a cell is live exactly when it was
live and marked before, and a cell that was live before is unmarked. -/
theorem C5_sweep_bits (lone : lone_lisp) :
    List.Forall₂
      (fun heap swept_heap =>
        swept_heap.address = heap.address ∧
        List.Forall₂
          (fun value swept =>
            swept.live = (value.live && value.marked) ∧
            (value.live = true → swept.marked = false))
          heap.values swept_heap.values)
      lone.heaps (lone_kill_all_unmarked_values lone).heaps := by
  rw [lone_kill_all_unmarked_values_heaps, List.forall₂_map_right_iff, List.forall₂_same]
  intro heap _
  refine ⟨rfl, ?_⟩
  simp only [sweep_heap]
  rw [List.forall₂_map_right_iff, List.forall₂_same]
  intro value _
  exact ⟨sweep_value_live value, sweep_value_marked value⟩

/-! ### Allocation from the heap list -/

theorem find_dead_value_none (values : List lone_value) :
    find_dead_value values = none ↔ ∀ value ∈ values, value.live = true := by
  induction values with
  | nil => simp [find_dead_value]
  | cons value values ih =>
    simp only [find_dead_value, List.mem_cons, forall_eq_or_imp]
    cases value.live <;> simp [ih]

theorem find_dead_value_some (values : List lone_value) (i : Nat)
    (h : find_dead_value values = some i) :
    ∃ front value back, values = front ++ value :: back ∧ front.length = i ∧
      (∀ earlier ∈ front, earlier.live = true) ∧ value.live = false ∧
      resurrect_value values i = front ++ { value with live := true } :: back := by
  induction values generalizing i with
  | nil => simp [find_dead_value] at h
  | cons first values ih =>
    simp only [find_dead_value] at h
    cases hlive : first.live with
    | false =>
      simp only [hlive, Bool.not_false, if_true, Option.some.injEq] at h
      subst h
      exact ⟨[], first, values, rfl, rfl, by simp, hlive, rfl⟩
    | true =>
      simp only [hlive, Bool.not_true, Bool.false_eq_true, if_false, Option.map_eq_some'] at h
      obtain ⟨j, hj, rfl⟩ := h
      obtain ⟨front, value, back, hsplit, hlen, hfront, hdead, hres⟩ := ih j hj
      refine ⟨first :: front, value, back, by rw [hsplit]; rfl, by simp [hlen], ?_, hdead, ?_⟩
      · intro earlier hmem
        rcases List.mem_cons.mp hmem with rfl | hmem
        · exact hlive
        · exact hfront earlier hmem
      · simp only [resurrect_value, hres, List.cons_append]

theorem resurrect_in_heaps_none (heaps : List lone_heap) :
    resurrect_in_heaps heaps = none ↔
      ∀ heap ∈ heaps, ∀ value ∈ heap.values, value.live = true := by
  induction heaps with
  | nil => simp [resurrect_in_heaps]
  | cons heap heaps ih =>
    simp only [resurrect_in_heaps, List.mem_cons, forall_eq_or_imp]
    cases hfind : find_dead_value heap.values with
    | some i =>
      have hnot : ¬ ∀ value ∈ heap.values, value.live = true := by
        intro hall
        rw [(find_dead_value_none heap.values).mpr hall] at hfind
        exact absurd hfind (by simp)
      simp [hnot]
    | none =>
      have hall := (find_dead_value_none heap.values).mp hfind
      cases hrest : resurrect_in_heaps heaps with
      | none =>
        simp only [true_iff]
        exact ⟨hall, ih.mp hrest⟩
      | some found =>
        have hnot : ¬ ∀ heap ∈ heaps, ∀ value ∈ heap.values, value.live = true := by
          intro hrest_all
          rw [ih.mpr hrest_all] at hrest
          exact absurd hrest (by simp)
        simp [hnot]

theorem resurrect_in_heaps_some (heaps after : List lone_heap) (element : Nat)
    (h : resurrect_in_heaps heaps = some (after, element)) :
    ∃ before heap rest front value back,
      heaps = before ++ heap :: rest ∧ heap.values = front ++ value :: back ∧
      (∀ earlier ∈ before, ∀ cell ∈ earlier.values, cell.live = true) ∧
      (∀ cell ∈ front, cell.live = true) ∧ value.live = false ∧
      element = heap.address + front.length ∧
      after = before ++
        { heap with values := front ++ { value with live := true } :: back } :: rest := by
  induction heaps generalizing after element with
  | nil => simp [resurrect_in_heaps] at h
  | cons heap heaps ih =>
    simp only [resurrect_in_heaps] at h
    cases hfind : find_dead_value heap.values with
    | some i =>
      simp only [hfind, Option.some.injEq, Prod.mk.injEq] at h
      obtain ⟨front, value, back, hsplit, hlen, hfront, hdead, hres⟩ :=
        find_dead_value_some heap.values i hfind
      refine ⟨[], heap, heaps, front, value, back, rfl, hsplit, by simp, hfront, hdead, ?_, ?_⟩
      · rw [hlen]
        exact h.2.symm
      · rw [← h.1, hres]
        rfl
    | none =>
      simp only [hfind] at h
      cases hrest : resurrect_in_heaps heaps with
      | none => simp [hrest] at h
      | some found =>
        obtain ⟨found_heaps, found_element⟩ := found
        simp only [hrest, Option.some.injEq, Prod.mk.injEq] at h
        obtain ⟨before, target, rest, front, value, back, hsplit, hvalues, hbefore, hfront,
          hdead, helement, hafter⟩ := ih found_heaps found_element hrest
        refine ⟨heap :: before, target, rest, front, value, back, by rw [hsplit]; rfl, hvalues,
          ?_, hfront, hdead, ?_, ?_⟩
        · intro earlier hmem
          rcases List.mem_cons.mp hmem with rfl | hmem
          · exact (find_dead_value_none _).mp hfind
          · exact hbefore earlier hmem
        · rw [← h.2, helement]
        · rw [← h.1, hafter]
          rfl

/-- C6: when some cell of the heap list is not live, `lone_allocate_from_heap`
returns the address of the first such cell, in heap order and then in index
order; the heap list afterwards is the same list with only the live bit of that
cell set, so no heap is added and no other bit or payload changes. -/
theorem C6_allocate_reuses_first_dead (lone : lone_lisp) (allocated : Nat)
    (raw : Nat → lone_value)
    (hdead : ∃ heap ∈ lone.heaps, ∃ value ∈ heap.values, value.live = false) :
    ∃ before heap rest front value back,
      lone.heaps = before ++ heap :: rest ∧ heap.values = front ++ value :: back ∧
      (∀ earlier ∈ before, ∀ cell ∈ earlier.values, cell.live = true) ∧
      (∀ cell ∈ front, cell.live = true) ∧ value.live = false ∧
      (lone_allocate_from_heap lone allocated raw).2 = heap.address + front.length ∧
      (lone_allocate_from_heap lone allocated raw).1.heaps =
        before ++ { heap with values := front ++ { value with live := true } :: back } :: rest ∧
      (lone_allocate_from_heap lone allocated raw).1.deallocated = lone.deallocated := by
  cases hres : resurrect_in_heaps lone.heaps with
  | none =>
    obtain ⟨heap, hmem, value, hvalue, hlive⟩ := hdead
    have := (resurrect_in_heaps_none lone.heaps).mp hres heap hmem value hvalue
    rw [this] at hlive
    exact absurd hlive (by simp)
  | some found =>
    obtain ⟨after, element⟩ := found
    obtain ⟨before, heap, rest, front, value, back, hsplit, hvalues, hbefore, hfront, hvdead,
      helement, hafter⟩ := resurrect_in_heaps_some lone.heaps after element hres
    refine ⟨before, heap, rest, front, value, back, hsplit, hvalues, hbefore, hfront, hvdead,
      ?_, ?_, ?_⟩
    · simp only [lone_allocate_from_heap, hres, helement]
    · simp only [lone_allocate_from_heap, hres]
      rw [with_heaps_heaps _ _ (by rw [hafter]; simp), hafter]
    · simp only [lone_allocate_from_heap, hres]
      rw [hafter]
      cases before <;> rfl

/-- C6, witness: the theorem at `sample_state`, whose first dead cell is at 103. -/
theorem C6_allocate_reuses_first_dead_witness :
    ∃ before heap rest front value back,
      sample_state.heaps = before ++ heap :: rest ∧ heap.values = front ++ value :: back ∧
      (∀ earlier ∈ before, ∀ cell ∈ earlier.values, cell.live = true) ∧
      (∀ cell ∈ front, cell.live = true) ∧ value.live = false ∧
      (lone_allocate_from_heap sample_state 300 sample_raw).2 = heap.address + front.length ∧
      (lone_allocate_from_heap sample_state 300 sample_raw).1.heaps =
        before ++ { heap with values := front ++ { value with live := true } :: back } :: rest ∧
      (lone_allocate_from_heap sample_state 300 sample_raw).1.deallocated =
        sample_state.deallocated :=
  C6_allocate_reuses_first_dead sample_state 300 sample_raw
    ⟨sample_state.first_heap, by decide, sample_raw 0, by decide, rfl⟩

theorem lone_allocate_heap_values_length (raw : Nat → lone_value) (count : Nat) :
    (lone_allocate_heap_values raw count).length = count := by
  induction count with
  | zero => rfl
  | succ count ih => simp [lone_allocate_heap_values, ih]

theorem lone_allocate_heap_values_bits (raw : Nat → lone_value) (count : Nat) :
    ∀ value ∈ lone_allocate_heap_values raw count, value.live = false ∧ value.marked = false := by
  induction count with
  | zero => simp [lone_allocate_heap_values]
  | succ count ih =>
    intro value hmem
    simp only [lone_allocate_heap_values, List.mem_append, List.mem_singleton] at hmem
    rcases hmem with hmem | rfl
    · exact ih value hmem
    · exact ⟨rfl, rfl⟩

/-- C7, as amended: when every cell of the heap list is live and the first heap
has at least one cell, `lone_allocate_from_heap` appends one heap at the tail,
at the address `lone_allocate` returned and with the capacity of the first
heap, and returns the address of its cell 0; that cell is live and unmarked,
every other cell of the new heap is dead and unmarked, and the heaps that
existed before are unchanged. -/
theorem C7_allocate_appends_heap (lone : lone_lisp) (allocated : Nat) (raw : Nat → lone_value)
    (hlive : ∀ heap ∈ lone.heaps, ∀ value ∈ heap.values, value.live = true)
    (hcapacity : 0 < lone.first_heap.values.length) :
    ∃ first rest,
      (lone_allocate_from_heap lone allocated raw).1.heaps =
        lone.heaps ++ [{ address := allocated, values := first :: rest }] ∧
      (first :: rest).length = lone.first_heap.values.length ∧
      (lone_allocate_from_heap lone allocated raw).2 = allocated ∧
      first.live = true ∧ first.marked = false ∧
      (∀ value ∈ rest, value.live = false ∧ value.marked = false) ∧
      (lone_allocate_from_heap lone allocated raw).1.deallocated = lone.deallocated := by
  have hres := (resurrect_in_heaps_none lone.heaps).mpr hlive
  have hlen := lone_allocate_heap_values_length raw lone.first_heap.values.length
  have hbits := lone_allocate_heap_values_bits raw lone.first_heap.values.length
  cases hvalues : lone_allocate_heap_values raw lone.first_heap.values.length with
  | nil =>
    rw [hvalues] at hlen
    simp only [List.length_nil] at hlen
    omega
  | cons first rest =>
    rw [hvalues] at hlen hbits
    refine ⟨{ first with live := true }, rest, ?_, hlen, ?_, rfl, ?_, ?_, ?_⟩
    · simp only [lone_allocate_from_heap, hres, lone_allocate_heap, hvalues, resurrect_value]
      rfl
    · simp only [lone_allocate_from_heap, hres, lone_allocate_heap]
      rfl
    · exact (hbits first (List.mem_cons_self _ _)).2
    · intro value hmem
      exact hbits value (List.mem_cons_of_mem _ hmem)
    · simp only [lone_allocate_from_heap, hres]

/-- C7, witness: the theorem at `full_state`. -/
theorem C7_allocate_appends_heap_witness :
    ∃ first rest,
      (lone_allocate_from_heap full_state 200 sample_raw).1.heaps =
        full_state.heaps ++ [{ address := 200, values := first :: rest }] ∧
      (first :: rest).length = full_state.first_heap.values.length ∧
      (lone_allocate_from_heap full_state 200 sample_raw).2 = 200 ∧
      first.live = true ∧ first.marked = false ∧
      (∀ value ∈ rest, value.live = false ∧ value.marked = false) ∧
      (lone_allocate_from_heap full_state 200 sample_raw).1.deallocated =
        full_state.deallocated :=
  C7_allocate_appends_heap full_state 200 sample_raw (by decide) (by decide)

/-- C7, as stated, fails when the first heap has capacity 0: every cell of
`zero_capacity_state` is live (there is none), the heap that is appended has no
cell, and the pointer that is returned is the address of no cell. -/
theorem C7_counterexample :
    (∀ heap ∈ zero_capacity_state.heaps, ∀ value ∈ heap.values, value.live = true) ∧
      (lone_allocate_from_heap zero_capacity_state 200 sample_raw).1.heaps =
        zero_capacity_state.heaps ++ [{ address := 200, values := [] }] ∧
      lone_value_at (lone_allocate_from_heap zero_capacity_state 200 sample_raw).1.heaps
        (lone_allocate_from_heap zero_capacity_state 200 sample_raw).2 = none := by
  refine ⟨by decide, by decide, by decide⟩

/-- C8: after `lone_deallocate_dead_heaps` the heap list is the first heap,
kept whatever its cells, followed by the later heaps that hold a live cell, in
their order and unchanged; the calls of `lone_deallocate` it makes are one call
per later heap without a live cell, in list order. -/
theorem C8_dead_heaps_released (lone : lone_lisp) :
    (lone_deallocate_dead_heaps lone).heaps =
        lone.first_heap ::
          lone.next_heaps.filter (fun heap => heap.values.any (fun value => value.live)) ∧
      (lone_deallocate_dead_heaps lone).deallocated =
        lone.deallocated ++
          (lone.next_heaps.filter (fun heap => !heap.values.any (fun value => value.live))).map
            (fun heap => heap.address) := by
  refine ⟨lone_deallocate_dead_heaps_heaps lone, ?_⟩
  simp only [lone_deallocate_dead_heaps, deallocate_dead_heaps_snd]

/-! ### The mark bit between calls -/

theorem sweep_value_dead (value : lone_value) (h : value.live = false) :
    sweep_value value = value := by
  rcases value with ⟨live, marked, flag, payload⟩
  simp only at h
  subst h
  rfl

theorem collected_heaps_mem (depth : Nat) (lone after : lone_lisp) (frame : Nat)
    (memory : Nat → Nat) (h : lone_garbage_collector depth lone frame memory = some after) :
    ∃ marked, mark_each (lone_mark_value depth) lone.heaps (collector_roots lone frame memory) =
        some marked ∧ mark_extends lone.heaps marked ∧
      after = lone_deallocate_dead_heaps (lone_kill_all_unmarked_values (lone.with_heaps marked)) ∧
      (lone_kill_all_unmarked_values (lone.with_heaps marked)).heaps = marked.map sweep_heap ∧
      ∀ heap ∈ after.heaps, heap ∈ marked.map sweep_heap := by
  rw [lone_garbage_collector_eq] at h
  cases hrun : mark_each (lone_mark_value depth) lone.heaps (collector_roots lone frame memory) with
  | none => simp [hrun] at h
  | some marked =>
    simp only [hrun, Option.map_some', Option.some.injEq] at h
    have hext := mark_each_extends (lone_mark_value depth)
      (fun a b c hh => lone_mark_value_extends depth a b c hh) _ _ _ hrun
    have hne : marked ≠ [] :=
      unmark_heaps_ne_nil lone.heaps marked hext.1 (by simp [lone_lisp.heaps])
    have hswept : (lone_kill_all_unmarked_values (lone.with_heaps marked)).heaps =
        marked.map sweep_heap := by
      rw [lone_kill_all_unmarked_values_heaps, with_heaps_heaps _ _ hne]
    refine ⟨marked, rfl, hext, h.symm, hswept, ?_⟩
    intro heap hmem
    rw [← h, lone_deallocate_dead_heaps_heaps] at hmem
    rw [← hswept]
    rcases List.mem_cons.mp hmem with rfl | hmem
    · exact List.mem_cons_self _ _
    · exact List.mem_cons_of_mem _ (List.mem_filter.mp hmem).1

theorem mem_resurrect_value (values : List lone_value) (i : Nat) (value : lone_value)
    (h : value ∈ resurrect_value values i) : ∃ source ∈ values, value.marked = source.marked := by
  induction values generalizing i with
  | nil => simp [resurrect_value] at h
  | cons first values ih =>
    cases i with
    | zero =>
      simp only [resurrect_value, List.mem_cons] at h
      rcases h with rfl | h
      · exact ⟨first, List.mem_cons_self _ _, rfl⟩
      · exact ⟨value, List.mem_cons_of_mem _ h, rfl⟩
    | succ i =>
      simp only [resurrect_value, List.mem_cons] at h
      rcases h with rfl | h
      · exact ⟨value, List.mem_cons_self _ _, rfl⟩
      · obtain ⟨source, hmem, heq⟩ := ih i h
        exact ⟨source, List.mem_cons_of_mem _ hmem, heq⟩

theorem no_value_marked_iff_bits (heaps : List lone_heap) :
    no_value_marked heaps ↔ ∀ entry ∈ collector_bits heaps, ∀ bits ∈ entry.2, bits.2 = false := by
  simp only [no_value_marked, collector_bits, List.mem_map, forall_exists_index, and_imp,
    forall_apply_eq_imp_iff₂, Prod.forall]
  constructor
  · intro h heap hmem live marked value hvalue hl
    simp only [Prod.mk.injEq] at hl
    rw [← hl.2]
    exact h heap hmem value hvalue
  · intro h heap hmem value hvalue
    exact h heap hmem value.live value.marked value hvalue rfl

theorem lone_allocate_from_heap_grow (lone : lone_lisp) (allocated : Nat)
    (raw : Nat → lone_value) (hres : resurrect_in_heaps lone.heaps = none) :
    (lone_allocate_from_heap lone allocated raw).1.heaps =
      lone.heaps ++
        [{ address := allocated,
           values :=
             resurrect_value (lone_allocate_heap_values raw lone.first_heap.values.length) 0 }] := by
  simp only [lone_allocate_from_heap, hres]
  rfl

theorem no_value_marked_allocate (lone : lone_lisp) (allocated : Nat) (raw : Nat → lone_value)
    (h : no_value_marked lone.heaps) :
    no_value_marked (lone_allocate_from_heap lone allocated raw).1.heaps := by
  cases hres : resurrect_in_heaps lone.heaps with
  | some found =>
    obtain ⟨after, element⟩ := found
    obtain ⟨before, heap, rest, front, value, back, hsplit, hvalues, _, _, _, _, hafter⟩ :=
      resurrect_in_heaps_some lone.heaps after element hres
    simp only [lone_allocate_from_heap, hres]
    rw [with_heaps_heaps _ _ (by rw [hafter]; simp), hafter]
    rw [hsplit] at h
    intro target htarget cell hcell
    simp only [List.mem_append, List.mem_cons] at htarget
    rcases htarget with hin | rfl | hin
    · exact h target (by simp [hin]) cell hcell
    · simp only [List.mem_append, List.mem_cons] at hcell
      have hheap := h heap (by simp)
      rw [hvalues] at hheap
      rcases hcell with hin | rfl | hin
      · exact hheap cell (by simp [hin])
      · exact hheap value (by simp)
      · exact hheap cell (by simp [hin])
    · exact h target (by simp [hin]) cell hcell
  | none =>
    rw [lone_allocate_from_heap_grow lone allocated raw hres]
    intro target htarget cell hcell
    rcases List.mem_append.mp htarget with hin | hin
    · exact h target hin cell hcell
    · simp only [List.mem_singleton] at hin
      subst hin
      obtain ⟨source, hsource, heq⟩ := mem_resurrect_value _ _ _ hcell
      rw [heq]
      exact (lone_allocate_heap_values_bits raw _ source hsource).2

theorem no_value_marked_collect (depth : Nat) (lone after : lone_lisp) (frame : Nat)
    (memory : Nat → Nat) (h : lone_garbage_collector depth lone frame memory = some after)
    (hmarks : no_value_marked lone.heaps) : no_value_marked after.heaps := by
  obtain ⟨marked, _, hext, _, _, hmem⟩ := collected_heaps_mem depth lone after frame memory h
  have hlive : marked_are_live marked := by
    apply hext.2.2.2
    intro heap hheap value hvalue hm
    rw [hmarks heap hheap value hvalue] at hm
    exact absurd hm (by simp)
  intro heap hheap value hvalue
  obtain ⟨source, hsource, rfl⟩ := List.mem_map.mp (hmem heap hheap)
  simp only [sweep_heap, List.mem_map] at hvalue
  obtain ⟨cell, hcell, rfl⟩ := hvalue
  cases hl : cell.live with
  | true => exact sweep_value_marked cell hl
  | false =>
    rw [sweep_value_dead cell hl]
    cases hm : cell.marked with
    | false => rfl
    | true =>
      rw [hlive source hsource cell hcell hm] at hl
      exact absurd hl (by simp)

/-- C4: in every state of a run that starts from a heap created by
`lone_allocate_heap` and goes through any sequence of calls of
`lone_allocate_from_heap` and `lone_garbage_collector` (with writes of the
mutator that leave the collector bits in between), every cell of every heap,
live or dead, has `marked = false`. -/
theorem C4_no_mark_between_calls (lone : lone_lisp) (hrun : collector_run lone) :
    no_value_marked lone.heaps := by
  induction hrun with
  | start lone address count raw hfirst hnext =>
    intro heap hheap value hvalue
    simp only [lone_lisp.heaps, hnext, List.mem_singleton] at hheap
    subst hheap
    rw [hfirst] at hvalue
    exact (lone_allocate_heap_values_bits raw count value hvalue).2
  | allocate allocated raw _ ih => exact no_value_marked_allocate _ allocated raw ih
  | collect depth frame memory _ hgc ih =>
    exact no_value_marked_collect depth _ _ frame memory hgc ih
  | mutate _ hbits ih =>
    rw [no_value_marked_iff_bits] at ih ⊢
    rw [hbits]
    exact ih

/-- C4, witness: the theorem at the state reached from `fresh_state` by one
allocation and one collection. -/
theorem C4_no_mark_between_calls_witness : no_value_marked fresh_state_collected.heaps :=
  C4_no_mark_between_calls fresh_state_collected
    (collector_run.collect 5 0 empty_memory
      (collector_run.allocate 200 sample_raw
        (collector_run.start fresh_state 100 2 sample_raw rfl rfl))
      (by decide))

/-! ### The stack scan -/

/-- The stack scan reads the words above the low bound only: two stacks that
agree on the addresses from `low + 1` up to the high bound give the same result,
whatever the word at the low bound is. -/
theorem stack_scan_reads_above_low_bound (depth : Nat) (lone : lone_lisp) (frame : Nat)
    (memory other : Nat → Nat) (heaps : List lone_heap)
    (hagree : ∀ address, stack_bottom lone frame < address → address ≤ stack_top lone frame →
      memory address = other address) :
    lone_find_and_mark_stack_roots depth lone frame memory heaps =
      lone_find_and_mark_stack_roots depth lone frame other heaps := by
  rw [lone_find_and_mark_stack_roots_eq, lone_find_and_mark_stack_roots_eq]
  have hwords : (scanned_addresses lone frame).map memory =
      (scanned_addresses lone frame).map other := by
    apply List.map_congr_left
    intro address hmem
    simp only [scanned_addresses, List.mem_range'_1] at hmem
    exact hagree address (by omega) (by omega)
  simp only [stack_roots, hwords]

/-- C10, the code at the failing input: the low bound is the word address 10,
the word stored there points to the live cell at address 100 of the heap, the
scan marks nothing, and the collection kills the cell; the same pointer in the
word at the high bound, address 20, keeps the cell alive. -/
theorem C10_low_bound_word_not_scanned :
    stack_bottom low_word_state 10 = 10 ∧ stack_top low_word_state 10 = 20 ∧
      low_word_memory 10 = 100 ∧ lone_points_to_heap low_word_state 100 = true ∧
      live_at low_word_state.heaps 100 = true ∧
      scanned_addresses low_word_state 10 = [11, 12, 13, 14, 15, 16, 17, 18, 19, 20] ∧
      lone_find_and_mark_stack_roots 5 low_word_state 10 low_word_memory low_word_state.heaps =
        some low_word_state.heaps ∧
      (lone_garbage_collector 5 low_word_state 10 low_word_memory).map
          (fun after => live_at after.heaps 100) = some false ∧
      (lone_garbage_collector 5 low_word_state 10 high_word_memory).map
          (fun after => live_at after.heaps 100) = some true := by
  refine ⟨by decide, by decide, by decide, by decide, by decide, by decide, by decide,
    by decide, by decide⟩

/-! ### The scenario -/

/-- A finite set of addresses that holds the live roots and is closed under the
references of its cells holds every reachable address. -/
theorem reachable_within (heaps : List lone_heap) (roots allowed : List Nat)
    (hroots : ∀ pointer ∈ roots, pointer ≠ 0 → live_at heaps pointer = true → pointer ∈ allowed)
    (hstep : ∀ pointer ∈ allowed, ∀ reference ∈ references_at heaps pointer, reference ≠ 0 →
      live_at heaps reference = true → reference ∈ allowed)
    (pointer : Nat) (h : Reachable heaps roots pointer) : pointer ∈ allowed := by
  induction h with
  | root hin h0 hlive => exact hroots _ hin h0 hlive
  | step _ href h0 hlive ih => exact hstep _ ih _ href h0 hlive

theorem deallocated_by_kill_eq (value : lone_value) :
    deallocated_by_kill value = (auxiliary_buffer value).toList := by
  rcases value with ⟨live, marked, flag, payload⟩
  cases payload <;> cases flag <;> rfl

theorem kill_unmarked_values_snd (values : List lone_value) :
    (kill_unmarked_values values).2 =
      buffers_of (values.filter (fun value => value.live && !value.marked)) := by
  induction values with
  | nil => rfl
  | cons value values ih =>
    simp only [kill_unmarked_values, ih, List.filter_cons]
    rcases value with ⟨live, marked, flag, payload⟩
    cases live <;> cases marked <;>
      simp [kill_unmarked_value, buffers_of, deallocated_by_kill_eq]

theorem kill_unmarked_heaps_snd (heaps : List lone_heap) :
    (kill_unmarked_heaps heaps).2 = killed_buffers heaps := by
  induction heaps with
  | nil => rfl
  | cons heap heaps ih =>
    simp only [kill_unmarked_heaps, ih, kill_unmarked_values_snd, killed_buffers, heap_values,
      buffers_of, List.flatMap_cons, List.filter_append, List.flatMap_append]

theorem lone_kill_all_unmarked_values_deallocated (lone : lone_lisp) :
    (lone_kill_all_unmarked_values lone).deallocated =
      lone.deallocated ++ killed_buffers lone.heaps := by
  simp only [lone_kill_all_unmarked_values, kill_unmarked_heaps_snd]

theorem with_heaps_deallocated (lone : lone_lisp) (heaps : List lone_heap) :
    (lone.with_heaps heaps).deallocated = lone.deallocated := by
  cases heaps <;> rfl

theorem mem_buffers_of (values : List lone_value) (buffer : Nat) :
    buffer ∈ buffers_of values ↔ ∃ value ∈ values, auxiliary_buffer value = some buffer := by
  simp [buffers_of]

theorem mem_heap_values (heaps : List lone_heap) (value : lone_value) :
    value ∈ heap_values heaps ↔ ∃ heap ∈ heaps, value ∈ heap.values := by
  simp [heap_values]

theorem live_buffers_perm (heaps : List lone_heap) :
    (killed_buffers heaps ++ kept_buffers heaps).Perm (live_buffers heaps) := by
  simp only [killed_buffers, kept_buffers, live_buffers, buffers_of, ← List.flatMap_append]
  apply List.Perm.flatMap_right
  have h := List.filter_append_perm (fun value : lone_value => !value.marked)
    ((heap_values heaps).filter (fun value => value.live))
  simp only [List.filter_filter, Bool.not_not] at h
  have e1 : (fun value : lone_value => value.live && !value.marked) =
      (fun value => !value.marked && value.live) := by
    funext value
    exact Bool.and_comm _ _
  have e2 : (fun value : lone_value => value.live && value.marked) =
      (fun value => value.marked && value.live) := by
    funext value
    exact Bool.and_comm _ _
  rw [e1, e2]
  exact h

theorem heap_values_unmark (heaps : List lone_heap) :
    heap_values (unmark_heaps heaps) = (heap_values heaps).map unmark_value := by
  induction heaps with
  | nil => rfl
  | cons heap heaps ih =>
    simp only [unmark_heaps, heap_values, List.map_cons, List.flatMap_cons, List.map_append] at ih ⊢
    rw [ih]

theorem live_buffers_unmark (heaps : List lone_heap) :
    live_buffers (unmark_heaps heaps) = live_buffers heaps := by
  simp only [live_buffers, heap_values_unmark, List.filter_map, buffers_of, List.flatMap_map]
  rfl

theorem mem_live_buffers (heaps : List lone_heap) (buffer : Nat) :
    buffer ∈ live_buffers heaps ↔
      ∃ heap ∈ heaps, ∃ value ∈ heap.values, value.live = true ∧
        auxiliary_buffer value = some buffer := by
  simp only [live_buffers, mem_buffers_of, List.mem_filter, mem_heap_values]
  constructor
  · rintro ⟨value, ⟨⟨heap, hheap, hvalue⟩, hlive⟩, hbuffer⟩
    exact ⟨heap, hheap, value, hvalue, hlive, hbuffer⟩
  · rintro ⟨heap, hheap, value, hvalue, hlive, hbuffer⟩
    exact ⟨value, ⟨⟨heap, hheap, hvalue⟩, hlive⟩, hbuffer⟩

theorem mem_killed_buffers (heaps : List lone_heap) (buffer : Nat) :
    buffer ∈ killed_buffers heaps ↔
      ∃ heap ∈ heaps, ∃ value ∈ heap.values, (value.live = true ∧ value.marked = false) ∧
        auxiliary_buffer value = some buffer := by
  simp only [killed_buffers, mem_buffers_of, List.mem_filter, mem_heap_values, Bool.and_eq_true,
    Bool.not_eq_true']
  constructor
  · rintro ⟨value, ⟨⟨heap, hheap, hvalue⟩, hbits⟩, hbuffer⟩
    exact ⟨heap, hheap, value, hvalue, hbits, hbuffer⟩
  · rintro ⟨heap, hheap, value, hvalue, hbits, hbuffer⟩
    exact ⟨value, ⟨⟨heap, hheap, hvalue⟩, hbits⟩, hbuffer⟩

theorem mem_kept_buffers (heaps : List lone_heap) (buffer : Nat) :
    buffer ∈ kept_buffers heaps ↔
      ∃ heap ∈ heaps, ∃ value ∈ heap.values, (value.live = true ∧ value.marked = true) ∧
        auxiliary_buffer value = some buffer := by
  simp only [kept_buffers, mem_buffers_of, List.mem_filter, mem_heap_values, Bool.and_eq_true]
  constructor
  · rintro ⟨value, ⟨⟨heap, hheap, hvalue⟩, hbits⟩, hbuffer⟩
    exact ⟨heap, hheap, value, hvalue, hbits, hbuffer⟩
  · rintro ⟨heap, hheap, value, hvalue, hbits, hbuffer⟩
    exact ⟨value, ⟨⟨heap, hheap, hvalue⟩, hbits⟩, hbuffer⟩

theorem heap_address_of_unmark (before after : List lone_heap)
    (h : unmark_heaps after = unmark_heaps before) (heap : lone_heap) (hmem : heap ∈ after) :
    ∃ source ∈ before, source.address = heap.address := by
  have hin : ({ heap with values := heap.values.map unmark_value } : lone_heap) ∈
      unmark_heaps after := List.mem_map.mpr ⟨heap, hmem, rfl⟩
  rw [h] at hin
  obtain ⟨source, hsource, heq⟩ := List.mem_map.mp hin
  exact ⟨source, hsource, congrArg (fun x => x.address) heq⟩

theorem auxiliary_buffer_sweep (value : lone_value) :
    auxiliary_buffer (sweep_value value) = auxiliary_buffer value := by
  have h := sweep_value_payload value
  simp only [auxiliary_buffer, h.1, h.2]

/-- What one collection passes to `lone_deallocate`: the buffers of the cells
the sweep kills, then heaps; and what it leaves live. -/
theorem collector_trace (depth : Nat) (lone after : lone_lisp) (frame : Nat)
    (memory : Nat → Nat) (h : lone_garbage_collector depth lone frame memory = some after) :
    ∃ marked released,
      mark_each (lone_mark_value depth) lone.heaps (collector_roots lone frame memory) =
        some marked ∧
      unmark_heaps marked = unmark_heaps lone.heaps ∧
      after.deallocated = lone.deallocated ++ (killed_buffers marked ++ released) ∧
      (∀ pointer ∈ released, ∃ heap ∈ lone.heaps, heap.address = pointer) ∧
      (∀ heap ∈ after.heaps, ∃ source ∈ lone.heaps, source.address = heap.address) ∧
      (∀ heap ∈ after.heaps, ∀ value ∈ heap.values, value.live = true →
        ∀ buffer, auxiliary_buffer value = some buffer → buffer ∈ kept_buffers marked) := by
  obtain ⟨marked, hrun, hext, hafter, hswept, hmem⟩ :=
    collected_heaps_mem depth lone after frame memory h
  have haddress : ∀ heap ∈ marked.map sweep_heap,
      ∃ source ∈ lone.heaps, source.address = heap.address := by
    intro heap hheap
    obtain ⟨middle, hmiddle, rfl⟩ := List.mem_map.mp hheap
    exact heap_address_of_unmark lone.heaps marked hext.1 middle hmiddle
  refine ⟨marked,
    ((lone_kill_all_unmarked_values (lone.with_heaps marked)).next_heaps.filter
      (fun heap => !heap.values.any (fun value => value.live))).map (fun heap => heap.address),
    hrun, hext.1, ?_, ?_, fun heap hheap => haddress heap (hmem heap hheap), ?_⟩
  · rw [hafter]
    simp only [lone_deallocate_dead_heaps, lone_kill_all_unmarked_values_deallocated,
      with_heaps_deallocated, deallocate_dead_heaps_snd, List.append_assoc]
    rw [with_heaps_heaps _ _
      (unmark_heaps_ne_nil lone.heaps marked hext.1 (by simp [lone_lisp.heaps]))]
  · intro pointer hpointer
    obtain ⟨heap, hheap, rfl⟩ := List.mem_map.mp hpointer
    apply haddress heap
    rw [← hswept]
    exact List.mem_cons_of_mem _ (List.mem_filter.mp hheap).1
  · intro heap hheap value hvalue hlive buffer hbuffer
    obtain ⟨source, hsource, rfl⟩ := List.mem_map.mp (hmem heap hheap)
    simp only [sweep_heap, List.mem_map] at hvalue
    obtain ⟨cell, hcell, rfl⟩ := hvalue
    rw [sweep_value_live, Bool.and_eq_true] at hlive
    rw [auxiliary_buffer_sweep] at hbuffer
    exact (mem_kept_buffers marked buffer).mpr ⟨source, hsource, cell, hcell, hlive, hbuffer⟩

theorem lone_garbage_collector_adequate (depth : Nat) (lone : lone_lisp) (frame : Nat)
    (memory : Nat → Nat) (hdepth : unmarked_live_count lone.heaps < depth) :
    ∃ after, lone_garbage_collector depth lone frame memory = some after := by
  obtain ⟨marked, hrun⟩ := mark_each_adequate (lone_mark_value depth) depth
    (fun a b c hh => lone_mark_value_extends depth a b c hh)
    (fun a b hh => lone_mark_value_adequate depth a b hh)
    (collector_roots lone frame memory) lone.heaps hdepth
  exact ⟨_, by rw [lone_garbage_collector_eq, hrun]; rfl⟩

/-- On a stack of model addresses: let no two live cells own the same buffer
and no buffer be a heap. Then `lone_garbage_collector` returns, and of the
pointers it passes to `lone_deallocate`: the buffer of every cell the sweep
killed (live and unmarked when the sweep starts) occurs exactly once, and no
buffer of a cell that is live afterwards occurs; a second collection passes no
buffer of a cell the first one killed. -/
theorem buffers_released_once (depth : Nat) (lone : lone_lisp) (frame : Nat)
    (memory : Nat → Nat) (hown : exclusive_ownership lone.heaps)
    (hdepth : unmarked_live_count lone.heaps < depth) :
    ∃ marked after released,
      lone_mark_all_reachable_values depth lone frame memory = some marked ∧
      lone_garbage_collector depth lone frame memory = some after ∧
      after.deallocated = lone.deallocated ++ released ∧
      (∀ heap ∈ marked.heaps, ∀ value ∈ heap.values, value.live = true → value.marked = false →
        ∀ buffer, auxiliary_buffer value = some buffer → released.count buffer = 1) ∧
      (∀ heap ∈ after.heaps, ∀ value ∈ heap.values, value.live = true →
        ∀ buffer, auxiliary_buffer value = some buffer → buffer ∉ released) ∧
      (∀ (depth2 frame2 : Nat) (memory2 : Nat → Nat), unmarked_live_count after.heaps < depth2 →
        ∃ again released2, lone_garbage_collector depth2 after frame2 memory2 = some again ∧
          again.deallocated = after.deallocated ++ released2 ∧
          ∀ heap ∈ marked.heaps, ∀ value ∈ heap.values, value.live = true →
            value.marked = false →
            ∀ buffer, auxiliary_buffer value = some buffer → buffer ∉ released2) := by
  obtain ⟨after, hgc⟩ := lone_garbage_collector_adequate depth lone frame memory hdepth
  obtain ⟨marked, released, hrun, hunmark, htrace, hreleased, haddress, hkept⟩ :=
    collector_trace depth lone after frame memory hgc
  have hne : marked ≠ [] := unmark_heaps_ne_nil lone.heaps marked hunmark (by simp [lone_lisp.heaps])
  have hheaps : (lone.with_heaps marked).heaps = marked := with_heaps_heaps _ _ hne
  have hlive : live_buffers marked = live_buffers lone.heaps := by
    rw [← live_buffers_unmark marked, hunmark, live_buffers_unmark]
  have hperm := live_buffers_perm marked
  have hnodup : (killed_buffers marked ++ kept_buffers marked).Nodup := by
    rw [hperm.nodup_iff, hlive]
    exact hown.1
  obtain ⟨hkilled, _, hdisjoint⟩ := List.nodup_append.mp hnodup
  have hsub : ∀ buffer, buffer ∈ killed_buffers marked ∨ buffer ∈ kept_buffers marked →
      buffer ∈ live_buffers lone.heaps := by
    intro buffer hin
    rw [← hlive]
    exact hperm.subset (List.mem_append.mpr hin)
  have hnoheap : ∀ buffer, buffer ∈ live_buffers lone.heaps →
      ∀ heap ∈ lone.heaps, heap.address ≠ buffer := by
    intro buffer hin heap hheap heq
    exact hown.2 heap hheap (heq ▸ hin)
  have hnotreleased : ∀ buffer, buffer ∈ live_buffers lone.heaps → buffer ∉ released := by
    intro buffer hin hrel
    obtain ⟨heap, hheap, heq⟩ := hreleased buffer hrel
    exact hnoheap buffer hin heap hheap heq
  have hinkilled : ∀ heap ∈ (lone.with_heaps marked).heaps, ∀ value ∈ heap.values,
      value.live = true → value.marked = false →
      ∀ buffer, auxiliary_buffer value = some buffer → buffer ∈ killed_buffers marked := by
    intro heap hheap value hvalue hl hm buffer hbuffer
    rw [hheaps] at hheap
    exact (mem_killed_buffers marked buffer).mpr ⟨heap, hheap, value, hvalue, ⟨hl, hm⟩, hbuffer⟩
  refine ⟨lone.with_heaps marked, after, killed_buffers marked ++ released,
    by rw [lone_mark_all_reachable_values_eq, hrun]; rfl, hgc, htrace, ?_, ?_, ?_⟩
  · intro heap hheap value hvalue hl hm buffer hbuffer
    have hin := hinkilled heap hheap value hvalue hl hm buffer hbuffer
    rw [List.count_append, List.count_eq_one_of_mem hkilled hin,
      List.count_eq_zero_of_not_mem (hnotreleased buffer (hsub buffer (Or.inl hin)))]
  · intro heap hheap value hvalue hl buffer hbuffer hin
    have hk := hkept heap hheap value hvalue hl buffer hbuffer
    rcases List.mem_append.mp hin with hin | hin
    · exact hdisjoint hin hk
    · exact hnotreleased buffer (hsub buffer (Or.inr hk)) hin
  · intro depth2 frame2 memory2 hdepth2
    obtain ⟨again, hgc2⟩ := lone_garbage_collector_adequate depth2 after frame2 memory2 hdepth2
    obtain ⟨marked2, released2, _, hunmark2, htrace2, hreleased2, _, _⟩ :=
      collector_trace depth2 after again frame2 memory2 hgc2
    refine ⟨again, killed_buffers marked2 ++ released2, hgc2, htrace2, ?_⟩
    intro heap hheap value hvalue hl hm buffer hbuffer hin
    have hk := hinkilled heap hheap value hvalue hl hm buffer hbuffer
    rcases List.mem_append.mp hin with hin | hin
    · have hlive2 : buffer ∈ live_buffers after.heaps := by
        rw [← live_buffers_unmark after.heaps, ← hunmark2, live_buffers_unmark]
        exact (live_buffers_perm marked2).subset (List.mem_append_left _ hin)
      obtain ⟨heap2, hheap2, value2, hvalue2, hl2, hbuffer2⟩ :=
        (mem_live_buffers after.heaps buffer).mp hlive2
      exact hdisjoint hk (hkept heap2 hheap2 value2 hvalue2 hl2 buffer hbuffer2)
    · obtain ⟨heap2, hheap2, heq2⟩ := hreleased2 buffer hin
      obtain ⟨source, hsource, heq⟩ := haddress heap2 hheap2
      exact hnoheap buffer (hsub buffer (Or.inl hk)) source hsource (heq.trans heq2)

/-- The collection of `sample_state`: the trace of `lone_deallocate` is the
buffer 500 alone, and both heaps stay linked. -/
theorem sample_state_collected :
    (lone_garbage_collector 10 sample_state 10 sample_memory).map
        (fun after => (after.deallocated, after.heaps.map (fun heap =>
          (heap.address, heap.values.map (fun value => value.live))))) =
      some ([500], [(100, [true, true, false, false]), (200, [true, false])]) := by
  decide

/-! ### The stack of machine words -/

theorem cell_words_apply (value_size : Nat) (memory : Nat → Nat) (address : Nat) :
    cell_words value_size memory address = memory address / value_size :=
  rfl

/-- The range test on a byte address is the range test on the cell position
the address points to or into. -/
theorem lone_points_within_range_bytes (value_size : Nat) (hsize : 0 < value_size)
    (word start count : Nat) :
    lone_points_within_range word (value_size * start)
        (value_size * start + value_size * count) =
      lone_points_within_range (word / value_size) start (start + count) := by
  have hlow : value_size * start ≤ word ↔ start ≤ word / value_size := by
    rw [Nat.le_div_iff_mul_le hsize, Nat.mul_comm]
  have hhigh : word < value_size * start + value_size * count ↔
      word / value_size < start + count := by
    rw [Nat.div_lt_iff_lt_mul hsize, ← Nat.mul_add, Nat.mul_comm]
  rw [Bool.eq_iff_iff]
  simp only [lone_points_within_range, Bool.and_eq_true, decide_eq_true_eq, hlow, hhigh]

theorem points_to_some_heap_bytes_eq (value_size : Nat) (hsize : 0 < value_size)
    (heaps : List lone_heap) (word : Nat) :
    points_to_some_heap_bytes value_size heaps word =
      points_to_some_heap heaps (word / value_size) := by
  induction heaps with
  | nil => rfl
  | cons heap heaps ih =>
    simp only [points_to_some_heap_bytes, points_to_some_heap,
      lone_points_within_range_bytes value_size hsize, ih]

/-- A byte address passes `lone_points_to_heap` exactly when the cell position
it points to or into does: the test has no alignment check. -/
theorem lone_points_to_heap_bytes_eq (value_size : Nat) (hsize : 0 < value_size)
    (lone : lone_lisp) (word : Nat) :
    lone_points_to_heap_bytes value_size lone word =
      lone_points_to_heap lone (word / value_size) := by
  simp only [lone_points_to_heap_bytes, lone_points_to_heap, lone_points_to_general_memory_bytes,
    lone_points_to_general_memory, lone_points_within_range_bytes value_size hsize,
    points_to_some_heap_bytes_eq value_size hsize]

theorem stack_roots_loop_bytes_eq (value_size depth : Nat) (hsize : 0 < value_size)
    (lone : lone_lisp) (memory : Nat → Nat) (iterations pointer : Nat) (heaps : List lone_heap)
    (hwords : ∀ address ∈ List.range' (pointer + 1) iterations,
      lone_points_to_heap_bytes value_size lone (memory address) = true →
        memory address % value_size = 0) :
    stack_roots_loop_bytes value_size depth lone memory iterations pointer heaps =
      outcome_of_option
        (stack_roots_loop depth lone (cell_words value_size memory) iterations pointer heaps) := by
  induction iterations generalizing pointer heaps with
  | zero => rfl
  | succ iterations ih =>
    have hfirst := hwords (pointer + 1) (by simp [List.range'_succ])
    have hrest : ∀ address ∈ List.range' (pointer + 1 + 1) iterations,
        lone_points_to_heap_bytes value_size lone (memory address) = true →
          memory address % value_size = 0 := by
      intro address hmem
      apply hwords address
      rw [List.range'_succ]
      exact List.mem_cons_of_mem _ hmem
    simp only [stack_roots_loop_bytes, stack_roots_loop, cell_words_apply,
      ← lone_points_to_heap_bytes_eq value_size hsize]
    by_cases hp : lone_points_to_heap_bytes value_size lone (memory (pointer + 1)) = true
    · simp only [hp, if_true, hfirst hp]
      cases lone_mark_value depth heaps (memory (pointer + 1) / value_size) with
      | none => rfl
      | some heaps1 => exact ih (pointer + 1) heaps1 hrest
    · simp only [hp, if_false]
      exact ih (pointer + 1) heaps hrest

theorem lone_find_and_mark_stack_roots_bytes_eq (value_size depth : Nat)
    (hsize : 0 < value_size) (lone : lone_lisp) (frame : Nat) (memory : Nat → Nat)
    (hwords : stack_words_are_cells value_size lone frame memory) (heaps : List lone_heap) :
    lone_find_and_mark_stack_roots_bytes value_size depth lone frame memory heaps =
      outcome_of_option
        (lone_find_and_mark_stack_roots depth lone frame (cell_words value_size memory) heaps) :=
  stack_roots_loop_bytes_eq value_size depth hsize lone memory _ _ heaps hwords

theorem lone_mark_all_reachable_values_bytes_eq (value_size depth : Nat)
    (hsize : 0 < value_size) (lone : lone_lisp) (frame : Nat) (memory : Nat → Nat)
    (hwords : stack_words_are_cells value_size lone frame memory) :
    lone_mark_all_reachable_values_bytes value_size depth lone frame memory =
      outcome_of_option
        (lone_mark_all_reachable_values depth lone frame (cell_words value_size memory)) := by
  simp only [lone_mark_all_reachable_values_bytes, lone_mark_all_reachable_values]
  cases lone_mark_known_roots depth lone lone.heaps with
  | none => rfl
  | some heaps =>
    simp only [lone_find_and_mark_stack_roots_bytes_eq value_size depth hsize lone frame memory
      hwords]
    cases lone_find_and_mark_stack_roots depth lone frame (cell_words value_size memory) heaps <;>
      rfl

/-- When every scanned word that points into a heap is the address of a cell,
the collector on the machine words is the collector on the cell positions. -/
theorem lone_garbage_collector_bytes_eq (value_size depth : Nat) (hsize : 0 < value_size)
    (lone : lone_lisp) (frame : Nat) (memory : Nat → Nat)
    (hwords : stack_words_are_cells value_size lone frame memory) :
    lone_garbage_collector_bytes value_size depth lone frame memory =
      outcome_of_option
        (lone_garbage_collector depth lone frame (cell_words value_size memory)) := by
  simp only [lone_garbage_collector_bytes, lone_garbage_collector,
    lone_mark_all_reachable_values_bytes_eq value_size depth hsize lone frame memory hwords]
  cases lone_mark_all_reachable_values depth lone frame (cell_words value_size memory) <;> rfl

/-- The collector on model addresses is the collector on the stack that holds
the byte address of each of them. -/
theorem lone_garbage_collector_bytes_of_cells (value_size depth : Nat) (hsize : 0 < value_size)
    (lone : lone_lisp) (frame : Nat) (memory : Nat → Nat) :
    lone_garbage_collector_bytes value_size depth lone frame
        (fun address => value_size * memory address) =
      outcome_of_option (lone_garbage_collector depth lone frame memory) := by
  have hwords : stack_words_are_cells value_size lone frame
      (fun address => value_size * memory address) :=
    fun address _ _ => Nat.mul_mod_right _ _
  have hcells : cell_words value_size (fun address => value_size * memory address) = memory := by
    funext address
    exact Nat.mul_div_cancel_left _ hsize
  rw [lone_garbage_collector_bytes_eq value_size depth hsize lone frame _ hwords, hcells]

theorem stack_roots_bytes_eq (value_size : Nat) (hsize : 0 < value_size) (lone : lone_lisp)
    (frame : Nat) (memory : Nat → Nat) :
    stack_roots_bytes value_size lone frame memory =
      stack_roots lone frame (cell_words value_size memory) := by
  simp only [stack_roots_bytes, stack_roots]
  induction scanned_addresses lone frame with
  | nil => rfl
  | cons address addresses ih =>
    simp only [List.map_cons, List.filter_cons, cell_words_apply,
      lone_points_to_heap_bytes_eq value_size hsize]
    by_cases hp : lone_points_to_heap lone (memory address / value_size) = true
    · simp only [hp, if_true, List.map_cons]
      rw [← ih]
    · simp only [hp, Bool.false_eq_true, if_false]
      rw [← ih]

theorem collector_roots_bytes_eq (value_size : Nat) (hsize : 0 < value_size) (lone : lone_lisp)
    (frame : Nat) (memory : Nat → Nat) :
    collector_roots_bytes value_size lone frame memory =
      collector_roots lone frame (cell_words value_size memory) := by
  rw [collector_roots_bytes, collector_roots, stack_roots_bytes_eq value_size hsize]

/-! ### Reachable cells, unreachable cells and buffers on a stack of machine words -/

/-- C1, as amended: let no cell be marked on entry, and let every scanned stack
word that points into the cell array of a heap be the address of a cell. Then
(for a depth bound above the number of live cells) `lone_garbage_collector`
returns, and every cell reachable from a named root or from a scanned stack
word that points into a heap is the same live cell afterwards: same payload, so
same type tag. -/
theorem C1_reachable_cells_survive (value_size depth : Nat) (lone : lone_lisp) (frame : Nat)
    (memory : Nat → Nat) (hsize : 0 < value_size)
    (hwords : stack_words_are_cells value_size lone frame memory)
    (hmarks : no_value_marked lone.heaps) (hdepth : unmarked_live_count lone.heaps < depth) :
    ∃ after, lone_garbage_collector_bytes value_size depth lone frame memory = .returned after ∧
      ∀ pointer,
        Reachable lone.heaps (collector_roots_bytes value_size lone frame memory) pointer →
        ∃ value, lone_value_at lone.heaps pointer = some value ∧ value.live = true ∧
          lone_value_at after.heaps pointer = some value := by
  obtain ⟨after, hgc, hkeep⟩ :=
    reachable_cells_survive depth lone frame (cell_words value_size memory) hmarks hdepth
  refine ⟨after, ?_, ?_⟩
  · rw [lone_garbage_collector_bytes_eq value_size depth hsize lone frame memory hwords, hgc]
    rfl
  · rw [collector_roots_bytes_eq value_size hsize]
    exact hkeep

/-- C1, witness: the theorem at `sample_state`, for cells of 8 bytes and a stack
with the byte address of the vector at 200 and a word that points outside the
heaps. -/
theorem C1_reachable_cells_survive_witness :
    ∃ after, lone_garbage_collector_bytes 8 10 sample_state 10 sample_memory_bytes =
        .returned after ∧
      ∀ pointer,
        Reachable sample_state.heaps
          (collector_roots_bytes 8 sample_state 10 sample_memory_bytes) pointer →
        ∃ value, lone_value_at sample_state.heaps pointer = some value ∧ value.live = true ∧
          lone_value_at after.heaps pointer = some value :=
  C1_reachable_cells_survive 8 10 sample_state 10 sample_memory_bytes (by decide)
    (by unfold stack_words_are_cells; decide) (by unfold no_value_marked; decide) (by decide)

/-- C1, as stated, fails in two ways. In `premarked_state` the cell at 101 is
live and reachable from the symbol table root, whose cell is marked on entry,
and the collector kills it. In `sample_state`, with a stack word that points 4
bytes into the vector at 200, the word passes `lone_points_to_heap`, the vector
is reachable from it, and `lone_mark_value` is called on an address inside the
cell, where it reads and writes fields of the vector as if a cell started
there: the collection has no defined outcome. -/
theorem C1_counterexample :
    (Reachable premarked_state.heaps (collector_roots_bytes 8 premarked_state 0 empty_memory)
          101 ∧
        lone_value_at premarked_state.heaps 101 =
          some { live := true, marked := false, should_deallocate_bytes := false,
                 payload := .integer 7 } ∧
        (outcome_result (lone_garbage_collector_bytes 8 5 premarked_state 0 empty_memory)).map
            (fun after => lone_value_at after.heaps 101) =
          some (some { live := false, marked := false, should_deallocate_bytes := false,
                       payload := .integer 7 })) ∧
      (interior_word_memory 11 = 8 * 200 + 4 ∧
        lone_points_to_heap_bytes 8 sample_state (interior_word_memory 11) = true ∧
        Reachable sample_state.heaps
          (collector_roots_bytes 8 sample_state 10 interior_word_memory) 200 ∧
        lone_garbage_collector_bytes 8 10 sample_state 10 interior_word_memory =
          .undefined) := by
  refine ⟨⟨?_, by decide, by decide⟩, by decide, by decide, ?_, by decide⟩
  · have hroot : Reachable premarked_state.heaps
        (collector_roots_bytes 8 premarked_state 0 empty_memory) 100 :=
      Reachable.root (by decide) (by decide) (by decide)
    exact Reachable.step hroot (by decide) (by decide) (by decide)
  · exact Reachable.root (by decide) (by decide) (by decide)

/-- C2, as amended: let no cell be marked on entry, and let every scanned stack
word that points into the cell array of a heap be the address of a cell. Then
(for a depth bound above the number of live cells) one call of
`lone_garbage_collector` returns, and every cell whose address is not reachable
from a named root or a scanned stack word has `live = false`, both after the
sweep, where every heap is still linked, and in the heap list the collector
leaves. -/
theorem C2_unreachable_cells_die (value_size depth : Nat) (lone : lone_lisp) (frame : Nat)
    (memory : Nat → Nat) (hsize : 0 < value_size)
    (hwords : stack_words_are_cells value_size lone frame memory)
    (hmarks : no_value_marked lone.heaps) (hdepth : unmarked_live_count lone.heaps < depth) :
    ∃ marked after,
      lone_mark_all_reachable_values_bytes value_size depth lone frame memory =
        .returned marked ∧
      lone_garbage_collector_bytes value_size depth lone frame memory = .returned after ∧
      after = lone_deallocate_dead_heaps (lone_kill_all_unmarked_values marked) ∧
      heap_layout (lone_kill_all_unmarked_values marked).heaps = heap_layout lone.heaps ∧
      (∀ heap ∈ (lone_kill_all_unmarked_values marked).heaps,
        ∀ (i : Nat) (value : lone_value), heap.values[i]? = some value →
          ¬ Reachable lone.heaps (collector_roots_bytes value_size lone frame memory)
            (heap.address + i) →
          value.live = false) ∧
      (∀ heap ∈ after.heaps,
        ∀ (i : Nat) (value : lone_value), heap.values[i]? = some value →
          ¬ Reachable lone.heaps (collector_roots_bytes value_size lone frame memory)
            (heap.address + i) →
          value.live = false) := by
  obtain ⟨marked, after, hmark, hgc, hafter, hlayout, hswept, hleft⟩ :=
    unreachable_cells_die depth lone frame (cell_words value_size memory) hmarks hdepth
  rw [← collector_roots_bytes_eq value_size hsize] at hswept hleft
  refine ⟨marked, after, ?_, ?_, hafter, hlayout, hswept, hleft⟩
  · rw [lone_mark_all_reachable_values_bytes_eq value_size depth hsize lone frame memory hwords,
      hmark]
    rfl
  · rw [lone_garbage_collector_bytes_eq value_size depth hsize lone frame memory hwords, hgc]
    rfl

/-- C2, witness: the theorem at `sample_state`, for cells of 8 bytes and a stack
with the byte address of the vector at 200 and a word that points outside the
heaps. -/
theorem C2_unreachable_cells_die_witness :
    ∃ marked after,
      lone_mark_all_reachable_values_bytes 8 10 sample_state 10 sample_memory_bytes =
        .returned marked ∧
      lone_garbage_collector_bytes 8 10 sample_state 10 sample_memory_bytes = .returned after ∧
      after = lone_deallocate_dead_heaps (lone_kill_all_unmarked_values marked) ∧
      heap_layout (lone_kill_all_unmarked_values marked).heaps = heap_layout sample_state.heaps ∧
      (∀ heap ∈ (lone_kill_all_unmarked_values marked).heaps,
        ∀ (i : Nat) (value : lone_value), heap.values[i]? = some value →
          ¬ Reachable sample_state.heaps
            (collector_roots_bytes 8 sample_state 10 sample_memory_bytes) (heap.address + i) →
          value.live = false) ∧
      (∀ heap ∈ after.heaps,
        ∀ (i : Nat) (value : lone_value), heap.values[i]? = some value →
          ¬ Reachable sample_state.heaps
            (collector_roots_bytes 8 sample_state 10 sample_memory_bytes) (heap.address + i) →
          value.live = false) :=
  C2_unreachable_cells_die 8 10 sample_state 10 sample_memory_bytes (by decide)
    (by unfold stack_words_are_cells; decide) (by unfold no_value_marked; decide) (by decide)

/-- C2, as stated, fails: in `sample_state` no cell is marked, the text at 102
is live and reachable neither from a named root nor from a stack word, and the
stack word at address 11 points 4 bytes into the vector at 200. The word passes
`lone_points_to_heap` and `lone_mark_value` is called on an address inside the
cell: the collection has no defined outcome, and nothing makes the text dead. -/
theorem C2_counterexample :
    no_value_marked sample_state.heaps ∧
      (lone_value_at sample_state.heaps 102).map (fun value => value.live) = some true ∧
      ¬ Reachable sample_state.heaps
        (collector_roots_bytes 8 sample_state 10 interior_word_memory) 102 ∧
      lone_points_to_heap_bytes 8 sample_state (interior_word_memory 11) = true ∧
      interior_word_memory 11 % 8 = 4 ∧
      lone_garbage_collector_bytes 8 10 sample_state 10 interior_word_memory = .undefined := by
  refine ⟨by unfold no_value_marked; decide, by decide, ?_, by decide, by decide, by decide⟩
  intro hreach
  have := reachable_within sample_state.heaps
    (collector_roots_bytes 8 sample_state 10 interior_word_memory) [100, 101, 200]
    (by decide) (by decide) 102 hreach
  exact absurd this (by decide)

/-- C3, as amended: let no two live cells own the same buffer and no buffer of
a live cell be a heap, and let every scanned stack word that points into the
cell array of a heap be the address of a cell. Then (for a depth bound above
the number of live cells) `lone_garbage_collector` returns, and of the pointers
it passes to `lone_deallocate`: the buffer of every cell the sweep killed (live
and unmarked when the sweep starts) occurs exactly once, and no buffer of a
cell that is live afterwards occurs; a second collection, on a stack with the
same property, passes no buffer of a cell the first one killed. -/
theorem C3_buffers_released_once (value_size depth : Nat) (lone : lone_lisp) (frame : Nat)
    (memory : Nat → Nat) (hsize : 0 < value_size)
    (hwords : stack_words_are_cells value_size lone frame memory)
    (hown : exclusive_ownership lone.heaps)
    (hdepth : unmarked_live_count lone.heaps < depth) :
    ∃ marked after released,
      lone_mark_all_reachable_values_bytes value_size depth lone frame memory =
        .returned marked ∧
      lone_garbage_collector_bytes value_size depth lone frame memory = .returned after ∧
      after.deallocated = lone.deallocated ++ released ∧
      (∀ heap ∈ marked.heaps, ∀ value ∈ heap.values, value.live = true → value.marked = false →
        ∀ buffer, auxiliary_buffer value = some buffer → released.count buffer = 1) ∧
      (∀ heap ∈ after.heaps, ∀ value ∈ heap.values, value.live = true →
        ∀ buffer, auxiliary_buffer value = some buffer → buffer ∉ released) ∧
      (∀ (depth2 frame2 : Nat) (memory2 : Nat → Nat),
        stack_words_are_cells value_size after frame2 memory2 →
        unmarked_live_count after.heaps < depth2 →
        ∃ again released2,
          lone_garbage_collector_bytes value_size depth2 after frame2 memory2 =
            .returned again ∧
          again.deallocated = after.deallocated ++ released2 ∧
          ∀ heap ∈ marked.heaps, ∀ value ∈ heap.values, value.live = true →
            value.marked = false →
            ∀ buffer, auxiliary_buffer value = some buffer → buffer ∉ released2) := by
  obtain ⟨marked, after, released, hmark, hgc, htrace, honce, hkept, hsecond⟩ :=
    buffers_released_once depth lone frame (cell_words value_size memory) hown hdepth
  refine ⟨marked, after, released, ?_, ?_, htrace, honce, hkept, ?_⟩
  · rw [lone_mark_all_reachable_values_bytes_eq value_size depth hsize lone frame memory hwords,
      hmark]
    rfl
  · rw [lone_garbage_collector_bytes_eq value_size depth hsize lone frame memory hwords, hgc]
    rfl
  · intro depth2 frame2 memory2 hwords2 hdepth2
    obtain ⟨again, released2, hgc2, htrace2, hnot⟩ :=
      hsecond depth2 frame2 (cell_words value_size memory2) hdepth2
    refine ⟨again, released2, ?_, htrace2, hnot⟩
    rw [lone_garbage_collector_bytes_eq value_size depth2 hsize after frame2 memory2 hwords2,
      hgc2]
    rfl

/-- C3, witness: the theorem at `sample_state`, for cells of 8 bytes, where the
sweep kills the text that owns the buffer 500 and keeps the vector that owns
the buffer 600. -/
theorem C3_buffers_released_once_witness :
    ∃ marked after released,
      lone_mark_all_reachable_values_bytes 8 10 sample_state 10 sample_memory_bytes =
        .returned marked ∧
      lone_garbage_collector_bytes 8 10 sample_state 10 sample_memory_bytes = .returned after ∧
      after.deallocated = sample_state.deallocated ++ released ∧
      (∀ heap ∈ marked.heaps, ∀ value ∈ heap.values, value.live = true → value.marked = false →
        ∀ buffer, auxiliary_buffer value = some buffer → released.count buffer = 1) ∧
      (∀ heap ∈ after.heaps, ∀ value ∈ heap.values, value.live = true →
        ∀ buffer, auxiliary_buffer value = some buffer → buffer ∉ released) ∧
      (∀ (depth2 frame2 : Nat) (memory2 : Nat → Nat),
        stack_words_are_cells 8 after frame2 memory2 →
        unmarked_live_count after.heaps < depth2 →
        ∃ again released2,
          lone_garbage_collector_bytes 8 depth2 after frame2 memory2 = .returned again ∧
          again.deallocated = after.deallocated ++ released2 ∧
          ∀ heap ∈ marked.heaps, ∀ value ∈ heap.values, value.live = true →
            value.marked = false →
            ∀ buffer, auxiliary_buffer value = some buffer → buffer ∉ released2) :=
  C3_buffers_released_once 8 10 sample_state 10 sample_memory_bytes (by decide)
    (by unfold stack_words_are_cells; decide) (by unfold exclusive_ownership; decide)
    (by decide)

/-- C3, as stated, fails in three ways. In `shared_buffer_state` two live cells
that no root points to own the same buffer 500: the sweep kills both and passes
500 to `lone_deallocate` twice. In `buffer_heap_state` the buffer pointer of the
killed cell is the second heap, which has no live cell: the sweep passes it to
`lone_deallocate` and `lone_deallocate_dead_heaps` passes it again. In
`sample_state`, with a stack word that points 4 bytes into the vector at 200,
which owns the buffer 600, the word passes `lone_points_to_heap` and
`lone_mark_value` is called on an address inside the cell: the collection has
no defined outcome, so neither has the sequence of pointers passed to
`lone_deallocate`. -/
theorem C3_counterexample :
    ((heap_values shared_buffer_state.heaps).map
          (fun value => (value.live, auxiliary_buffer value)) =
        [(true, some 500), (true, some 500)] ∧
      (outcome_result (lone_garbage_collector_bytes 8 5 shared_buffer_state 0 empty_memory)).map
          (fun after => (after.deallocated,
            (heap_values after.heaps).map (fun value => value.live))) =
        some ([500, 500], [false, false])) ∧
      ((heap_values buffer_heap_state.heaps).map
          (fun value => (value.live, auxiliary_buffer value)) =
        [(true, some 200), (false, none)] ∧
      (outcome_result (lone_garbage_collector_bytes 8 5 buffer_heap_state 0 empty_memory)).map
          (fun after => (after.deallocated, heap_layout after.heaps)) =
        some ([200, 200], [(100, 1)])) ∧
      ((lone_value_at sample_state.heaps 200).map auxiliary_buffer = some (some 600) ∧
        lone_points_to_heap_bytes 8 sample_state (interior_word_memory 11) = true ∧
        interior_word_memory 11 % 8 = 4 ∧
        lone_garbage_collector_bytes 8 10 sample_state 10 interior_word_memory =
          .undefined) := by
  refine ⟨⟨by decide, by decide⟩, ⟨by decide, by decide⟩, by decide, by decide, by decide,
    by decide⟩

/-- The collection of `sample_state` on the stack of machine words
`sample_memory_bytes`: the trace of `lone_deallocate` is the buffer 500 alone,
and both heaps stay linked. -/
theorem sample_state_collected_bytes :
    (outcome_result (lone_garbage_collector_bytes 8 10 sample_state 10 sample_memory_bytes)).map
        (fun after => (after.deallocated, after.heaps.map (fun heap =>
          (heap.address, heap.values.map (fun value => value.live))))) =
      some ([500], [(100, [true, true, false, false]), (200, [true, false])]) := by
  decide

/-! ### Dead cells, exact marking, termination -/

theorem marked_at_of_marked_within (allowed : Nat → Prop) (heaps : List lone_heap)
    (h : marked_within allowed heaps) (pointer : Nat) (hm : marked_at heaps pointer = true) :
    allowed pointer := by
  unfold marked_at at hm
  cases hat : lone_value_at heaps pointer with
  | none => simp [hat] at hm
  | some value =>
    simp only [hat] at hm
    obtain ⟨heap, hmem, i, hi, hp⟩ := lone_value_at_mem heaps pointer value hat
    rw [← hp]
    exact h heap hmem i value hi hm

/-- C19: starting from a heap list without marks (and with a depth bound above
the number of live cells), `lone_mark_known_roots` returns; afterwards a pointer
designates a marked cell exactly when it designates a live cell reachable from
the seven named roots through the reference fields of live cells, and every
marked cell, taken by position, has a reachable address; the mark bits are all
that changed. The reference fields are those the claim lists per tag. -/
theorem C19_marked_exactly_reachable (depth : Nat) (lone : lone_lisp)
    (hmarks : no_value_marked lone.heaps) (hdepth : unmarked_live_count lone.heaps < depth) :
    (∃ marked, lone_mark_known_roots depth lone lone.heaps = some marked ∧
      unmark_heaps marked = unmark_heaps lone.heaps ∧
      (∀ pointer, marked_at marked pointer = true ↔
        Reachable lone.heaps (known_roots lone) pointer) ∧
      marked_within (Reachable lone.heaps (known_roots lone)) marked) ∧
    (∀ (value : lone_value),
      references value =
        match value.payload with
        | .module name environment exports => [name, environment, exports]
        | .function arguments code environment => [arguments, code, environment]
        | .primitive name closure => [name, closure]
        | .list first rest => [first, rest]
        | .vector _ elements => elements
        | .table prototype _ slots =>
          prototype :: (slots.map (fun entry => [entry.1, entry.2])).flatten
        | .symbol _ => []
        | .text _ => []
        | .bytes _ => []
        | .pointer _ => []
        | .integer _ => []) := by
  constructor
  · obtain ⟨marked, hrun, hsame, hall, hwithin⟩ :=
      mark_roots_spec depth lone.heaps (known_roots lone) hmarks hdepth
    refine ⟨marked, hrun, hsame, fun pointer => ⟨?_, hall pointer⟩, hwithin⟩
    exact marked_at_of_marked_within _ marked hwithin pointer
  · intro value
    rcases value with ⟨live, marked, flag, payload⟩
    cases payload with
    | table prototype entries slots =>
      simp only [references, List.cons.injEq, true_and]
      induction slots with
      | nil => rfl
      | cons entry slots ih => simp [slot_references, ih]
    | _ => rfl

/-- C19, witness: the theorem at `cyclic_state`. -/
theorem C19_marked_exactly_reachable_witness :
    ∃ marked, lone_mark_known_roots 10 cyclic_state cyclic_state.heaps = some marked ∧
      unmark_heaps marked = unmark_heaps cyclic_state.heaps ∧
      (∀ pointer, marked_at marked pointer = true ↔
        Reachable cyclic_state.heaps (known_roots cyclic_state) pointer) ∧
      marked_within (Reachable cyclic_state.heaps (known_roots cyclic_state)) marked :=
  (C19_marked_exactly_reachable 10 cyclic_state (by unfold no_value_marked; decide)
    (by decide)).1

theorem mark_each_traced_fst
    (traced : List lone_heap → Nat → Option (List lone_heap × List Nat))
    (mark : List lone_heap → Nat → Option (List lone_heap))
    (h : ∀ heaps value, (traced heaps value).map Prod.fst = mark heaps value)
    (values : List Nat) (heaps : List lone_heap) :
    (mark_each_traced traced heaps values).map Prod.fst = mark_each mark heaps values := by
  induction values generalizing heaps with
  | nil => rfl
  | cons value values ih =>
    simp only [mark_each_traced, mark_each]
    rw [← h heaps value]
    cases traced heaps value with
    | none => rfl
    | some first =>
      simp only [Option.map_some']
      rw [← ih first.1]
      cases mark_each_traced traced first.1 values <;> rfl

/-- The instrumented function computes the heaps `lone_mark_value` computes. -/
theorem lone_mark_value_traced_fst (depth : Nat) (heaps : List lone_heap) (value : Nat) :
    (lone_mark_value_traced depth heaps value).map Prod.fst =
      lone_mark_value depth heaps value := by
  induction depth generalizing heaps value with
  | zero => rfl
  | succ depth ih =>
    rw [lone_mark_value_succ, lone_mark_value_traced]
    split
    · rfl
    · cases lone_value_at heaps value with
      | none => rfl
      | some cell =>
        simp only
        split
        · rfl
        · rw [← mark_each_traced_fst (lone_mark_value_traced depth) (lone_mark_value depth) ih]
          cases mark_each_traced (lone_mark_value_traced depth) (set_marked heaps value)
            (references cell) <;> rfl

theorem lone_mark_value_traced_extends (depth : Nat) (heaps : List lone_heap) (value : Nat)
    (after : List lone_heap) (trace : List Nat)
    (h : lone_mark_value_traced depth heaps value = some (after, trace)) :
    mark_extends heaps after := by
  apply lone_mark_value_extends depth heaps value after
  rw [← lone_mark_value_traced_fst, h]
  rfl

theorem mark_each_traced_extends (depth : Nat) (values : List Nat) (heaps : List lone_heap)
    (after : List lone_heap) (trace : List Nat)
    (h : mark_each_traced (lone_mark_value_traced depth) heaps values = some (after, trace)) :
    mark_extends heaps after := by
  apply mark_each_extends (lone_mark_value depth)
    (fun a b c hh => lone_mark_value_extends depth a b c hh) values heaps after
  rw [← mark_each_traced_fst (lone_mark_value_traced depth) (lone_mark_value depth)
    (lone_mark_value_traced_fst depth), h]
  rfl

theorem mark_each_traced_sound (depth : Nat)
    (hsound : ∀ heaps value after trace,
      lone_mark_value_traced depth heaps value = some (after, trace) →
      trace_sound heaps after trace)
    (values : List Nat) (heaps after : List lone_heap) (trace : List Nat)
    (h : mark_each_traced (lone_mark_value_traced depth) heaps values = some (after, trace)) :
    trace_sound heaps after trace := by
  induction values generalizing heaps trace with
  | nil =>
    simp only [mark_each_traced, Option.some.injEq, Prod.mk.injEq] at h
    obtain ⟨rfl, rfl⟩ := h
    exact ⟨List.nodup_nil, by simp, fun _ hin => by simp at hin⟩
  | cons value values ih =>
    simp only [mark_each_traced] at h
    cases hfirst : lone_mark_value_traced depth heaps value with
    | none => simp [hfirst] at h
    | some first =>
      obtain ⟨heaps1, trace1⟩ := first
      simp only [hfirst] at h
      cases hrest : mark_each_traced (lone_mark_value_traced depth) heaps1 values with
      | none => simp [hrest] at h
      | some rest =>
        obtain ⟨heaps2, trace2⟩ := rest
        simp only [hrest, Option.some.injEq, Prod.mk.injEq] at h
        obtain ⟨rfl, rfl⟩ := h
        obtain ⟨hn1, hc1, hm1⟩ := hsound heaps value heaps1 trace1 hfirst
        obtain ⟨hn2, hc2, hm2⟩ := ih heaps1 trace2 hrest
        have hext1 := lone_mark_value_traced_extends depth heaps value heaps1 trace1 hfirst
        have hext2 := mark_each_traced_extends depth values heaps1 heaps2 trace2 hrest
        refine ⟨?_, ?_, ?_⟩
        · rw [List.nodup_append]
          refine ⟨hn1, hn2, ?_⟩
          intro pointer h1 h2
          have := (hm1 pointer h1).2
          rw [(hm2 pointer h2).1] at this
          exact absurd this (by simp)
        · rw [List.length_append]
          omega
        · intro pointer hin
          rcases List.mem_append.mp hin with hin | hin
          · exact ⟨(hm1 pointer hin).1, hext2.2.2.1 pointer (hm1 pointer hin).2⟩
          · refine ⟨?_, (hm2 pointer hin).2⟩
            cases hb : marked_at heaps pointer with
            | false => rfl
            | true =>
              have := hext1.2.2.1 pointer hb
              rw [(hm2 pointer hin).1] at this
              exact absurd this (by simp)

theorem lone_mark_value_traced_sound (depth : Nat) (heaps : List lone_heap) (value : Nat)
    (after : List lone_heap) (trace : List Nat)
    (h : lone_mark_value_traced depth heaps value = some (after, trace)) :
    trace_sound heaps after trace := by
  induction depth generalizing heaps value after trace with
  | zero => simp [lone_mark_value_traced] at h
  | succ depth ih =>
    have hempty : ∀ before : List lone_heap, trace_sound before before [] :=
      fun before => ⟨List.nodup_nil, by simp, fun _ hin => by simp at hin⟩
    rw [lone_mark_value_traced] at h
    split at h
    · simp only [Option.some.injEq, Prod.mk.injEq] at h
      obtain ⟨rfl, rfl⟩ := h
      exact hempty heaps
    · split at h
      · simp only [Option.some.injEq, Prod.mk.injEq] at h
        obtain ⟨rfl, rfl⟩ := h
        exact hempty heaps
      · rename_i cell hat
        split at h
        · simp only [Option.some.injEq, Prod.mk.injEq] at h
          obtain ⟨rfl, rfl⟩ := h
          exact hempty heaps
        · rename_i hguard
          simp only [Bool.or_eq_true, Bool.not_eq_true', not_or, Bool.not_eq_false,
            Bool.not_eq_true] at hguard
          cases hrun : mark_each_traced (lone_mark_value_traced depth) (set_marked heaps value)
              (references cell) with
          | none => simp [hrun] at h
          | some result =>
            obtain ⟨heaps1, trace1⟩ := result
            simp only [hrun, Option.some.injEq, Prod.mk.injEq] at h
            obtain ⟨rfl, rfl⟩ := h
            obtain ⟨hn, hc, hm⟩ := mark_each_traced_sound depth ih _ _ _ _ hrun
            have hext := mark_each_traced_extends depth _ _ _ _ hrun
            have hself := marked_at_set_marked_self heaps value cell hat
            have hcount := unmarked_live_count_set_marked heaps value cell hat hguard.1 hguard.2
            refine ⟨?_, ?_, ?_⟩
            · rw [List.nodup_cons]
              refine ⟨fun hin => ?_, hn⟩
              have := (hm value hin).1
              rw [hself] at this
              exact absurd this (by simp)
            · simp only [List.length_cons]
              omega
            · intro pointer hin
              rcases List.mem_cons.mp hin with rfl | hin
              · exact ⟨by simp [marked_at, hat, hguard.2], hext.2.2.1 _ hself⟩
              · refine ⟨?_, (hm pointer hin).2⟩
                have hne : pointer ≠ value := by
                  intro heq
                  have := (hm pointer hin).1
                  rw [heq, hself] at this
                  exact absurd this (by simp)
                rw [← marked_at_set_marked_other heaps value pointer hne]
                exact (hm pointer hin).1

/-- C20: with a call depth above the number of live unmarked cells,
`lone_mark_value` returns on every heap list, cyclic object graphs included;
the cells whose mark bit it sets and whose fields it traverses are pairwise
distinct, each was unmarked before and is marked after, and their number is
the number of live unmarked cells before minus that number after, so at most
the number of live unmarked cells on entry. -/
theorem C20_marking_terminates (depth : Nat) (heaps : List lone_heap) (value : Nat)
    (hdepth : unmarked_live_count heaps < depth) :
    ∃ after trace, lone_mark_value depth heaps value = some after ∧
      lone_mark_value_traced depth heaps value = some (after, trace) ∧
      trace.Nodup ∧
      (∀ pointer ∈ trace, marked_at heaps pointer = false ∧ marked_at after pointer = true) ∧
      trace.length + unmarked_live_count after = unmarked_live_count heaps ∧
      trace.length ≤ unmarked_live_count heaps := by
  obtain ⟨after, hrun⟩ := lone_mark_value_adequate depth heaps value hdepth
  have hfst := lone_mark_value_traced_fst depth heaps value
  rw [hrun] at hfst
  cases htraced : lone_mark_value_traced depth heaps value with
  | none => simp [htraced] at hfst
  | some result =>
    obtain ⟨after2, trace⟩ := result
    simp only [htraced, Option.map_some', Option.some.injEq] at hfst
    subst hfst
    obtain ⟨hn, hc, hm⟩ := lone_mark_value_traced_sound depth heaps value after2 trace htraced
    exact ⟨after2, trace, hrun, rfl, hn, hm, hc, by omega⟩

/-- C20, witness: the theorem at `cyclic_state`, from the list that is its own `rest`. -/
theorem C20_marking_terminates_witness :
    ∃ after trace, lone_mark_value 7 cyclic_state.heaps 100 = some after ∧
      lone_mark_value_traced 7 cyclic_state.heaps 100 = some (after, trace) ∧
      trace.Nodup ∧
      (∀ pointer ∈ trace,
        marked_at cyclic_state.heaps pointer = false ∧ marked_at after pointer = true) ∧
      trace.length + unmarked_live_count after = unmarked_live_count cyclic_state.heaps ∧
      trace.length ≤ unmarked_live_count cyclic_state.heaps :=
  C20_marking_terminates 7 cyclic_state.heaps 100 (by decide)

/-- The cyclic graphs of `cyclic_state`: marking from the list, from a table of
the prototype cycle and from the function returns, and traverses each cell once. -/
theorem cyclic_state_traces :
    (lone_mark_value_traced 7 cyclic_state.heaps 100).map Prod.snd = some [100] ∧
      (lone_mark_value_traced 7 cyclic_state.heaps 101).map Prod.snd = some [101, 102] ∧
      (lone_mark_value_traced 7 cyclic_state.heaps 103).map Prod.snd =
        some [103, 104, 100] := by
  refine ⟨by decide, by decide, by decide⟩

/-! ## The reader -/

theorem lone_reader_peek_eq (reader : lone_reader) :
    lone_reader_peek reader = (input_left reader).head? := by
  simp only [lone_reader_peek, lone_reader_peek_k, input_left, Nat.add_zero, List.head?_drop]
  split
  · rename_i h
    exact (List.getElem?_eq_none h).symm
  · rfl

theorem input_left_consume (reader : lone_reader) :
    input_left (lone_reader_consume reader) = (input_left reader).tail := by
  simp only [input_left, lone_reader_consume, lone_reader_consume_k, List.tail_drop]

theorem input_left_advanced (reader : lone_reader) (count : Nat) :
    input_left (advanced reader count) = (input_left reader).drop count := by
  simp only [input_left, advanced, List.drop_drop]

theorem input_left_length (reader : lone_reader) :
    (input_left reader).length = reader.bytes.length - reader.read := by
  simp only [input_left, List.length_drop]

/-- The loops of the token functions consume the longest prefix of the input
left whose bytes pass the test. -/
theorem consume_while_eq (test : Nat → Bool) (iterations : Nat) (reader : lone_reader)
    (count : Nat) (h : (input_left reader).length ≤ iterations) :
    consume_while test iterations reader count =
      (advanced reader ((input_left reader).takeWhile test).length,
        count + ((input_left reader).takeWhile test).length) := by
  induction iterations generalizing reader count with
  | zero =>
    have hnil : input_left reader = [] := List.length_eq_zero.mp (by omega)
    simp [consume_while, hnil, advanced]
  | succ iterations ih =>
    rw [consume_while, lone_reader_peek_eq]
    cases hleft : input_left reader with
    | nil => simp [advanced]
    | cons byte rest =>
      simp only [List.head?_cons]
      have htail : input_left (lone_reader_consume reader) = rest := by
        rw [input_left_consume, hleft]
        rfl
      by_cases htest : test byte = true
      · simp only [htest, if_true, List.takeWhile_cons_of_pos]
        rw [ih (lone_reader_consume reader) (count + 1)
          (by rw [htail]; rw [hleft] at h; simp at h; omega), htail]
        simp only [List.length_cons, advanced, lone_reader_consume, lone_reader_consume_k,
          Prod.mk.injEq, lone_reader.mk.injEq, true_and, and_true]
        constructor <;> omega
      · simp [htest, advanced]

theorem reader_slice_eq (reader : lone_reader) (count : Nat) (other : lone_reader)
    (hbytes : other.bytes = reader.bytes) :
    reader_slice other reader.read count = (input_left reader).take count := by
  simp only [reader_slice, input_left, hbytes]

theorem not_delimiter_eq (byte : Nat) :
    (!lone_reader_match_byte byte 41 && !lone_reader_match_byte byte 32) = !is_delimiter byte := by
  simp only [lone_reader_match_byte, is_delimiter]
  simp only [show (41 : Nat) = 32 ↔ False by decide, if_false, true_or, if_true]
  cases decide (byte = 32) <;> cases decide (byte = 9) <;> cases decide (byte = 10) <;>
    cases decide (byte = 41) <;> cases decide (byte = 93) <;> cases decide (byte = 125) <;> rfl

theorem match_digit_eq (byte : Nat) : lone_reader_match_byte byte 49 = is_digit byte := by
  simp [lone_reader_match_byte, is_digit]

theorem take_length_takeWhile (test : Nat → Bool) (bytes : List Nat) :
    bytes.take (bytes.takeWhile test).length = bytes.takeWhile test := by
  conv => lhs; arg 2; rw [← List.takeWhile_append_dropWhile test bytes]
  exact List.take_left _ _

theorem drop_length_takeWhile (test : Nat → Bool) (bytes : List Nat) :
    bytes.drop (bytes.takeWhile test).length = bytes.dropWhile test := by
  conv => lhs; arg 2; rw [← List.takeWhile_append_dropWhile test bytes]
  exact List.drop_left _ _

theorem dropWhile_head (test : Nat → Bool) (bytes : List Nat) :
    bytes.dropWhile test = [] ∨
      ∃ byte rest, bytes.dropWhile test = byte :: rest ∧ test byte = false := by
  have h := List.head?_dropWhile_not test bytes
  cases hd : bytes.dropWhile test with
  | nil => exact Or.inl rfl
  | cons byte rest =>
    rw [hd] at h
    simp only [List.head?_cons] at h
    exact Or.inr ⟨byte, rest, rfl, by simpa using h⟩

/-- A run of bytes that pass the test, followed by nothing or by a byte that
fails it, is the longest prefix whose bytes pass the test. -/
theorem takeWhile_of_run (test : Nat → Bool) (run rest : List Nat)
    (hrun : ∀ byte ∈ run, test byte = true)
    (hrest : rest = [] ∨ ∃ byte tail, rest = byte :: tail ∧ test byte = false) :
    (run ++ rest).takeWhile test = run := by
  rw [List.takeWhile_append_of_pos hrun]
  rcases hrest with rfl | ⟨byte, tail, rfl, hbyte⟩
  · simp
  · simp [List.takeWhile_cons, hbyte]

theorem lone_reader_consume_symbol_eq (reader : lone_reader) (byte : Nat)
    (hpeek : lone_reader_peek reader = some byte) :
    lone_reader_consume_symbol reader =
      (advanced reader ((input_left reader).takeWhile (fun b => !is_delimiter b)).length,
        .symbol ((input_left reader).takeWhile (fun b => !is_delimiter b))) := by
  have htest : (fun b => !lone_reader_match_byte b 41 && !lone_reader_match_byte b 32) =
      (fun b => !is_delimiter b) := funext not_delimiter_eq
  simp only [lone_reader_consume_symbol, hpeek, htest]
  rw [consume_while_eq _ _ _ _ (by rw [input_left_length])]
  simp only [Nat.zero_add, reader_slice_eq reader _ (advanced reader _) rfl,
    take_length_takeWhile]

/-- C16: when the byte at the read position is neither whitespace nor a closing
bracket, `lone_reader_consume_symbol` consumes a run of bytes without space,
tab, newline, `)`, `]` or `}` that ends at the end of the input or before one
of these bytes, the symbol it returns is made of exactly the bytes of the run,
the run is not empty, and no other field of the reader changes. -/
theorem C16_symbol_is_longest_run (reader : lone_reader) (byte : Nat)
    (hpeek : lone_reader_peek reader = some byte) (hbyte : is_delimiter byte = false) :
    ∃ run rest, input_left reader = run ++ rest ∧ run ≠ [] ∧
      (∀ b ∈ run, is_delimiter b = false) ∧
      (rest = [] ∨ ∃ delimiter tail, rest = delimiter :: tail ∧ is_delimiter delimiter = true) ∧
      lone_reader_consume_symbol reader = (advanced reader run.length, .symbol run) := by
  refine ⟨(input_left reader).takeWhile (fun b => !is_delimiter b),
    (input_left reader).dropWhile (fun b => !is_delimiter b),
    (List.takeWhile_append_dropWhile _ _).symm, ?_, ?_, ?_,
    lone_reader_consume_symbol_eq reader byte hpeek⟩
  · rw [lone_reader_peek_eq] at hpeek
    cases hleft : input_left reader with
    | nil => simp [hleft] at hpeek
    | cons first rest =>
      simp only [hleft, List.head?_cons, Option.some.injEq] at hpeek
      subst hpeek
      simp [List.takeWhile_cons, hbyte]
  · intro b hb
    simpa using List.mem_takeWhile_imp hb
  · rcases dropWhile_head (fun b => !is_delimiter b) (input_left reader) with h | ⟨d, tail, h, hd⟩
    · exact Or.inl h
    · exact Or.inr ⟨d, tail, h, by simpa using hd⟩

/-- C16, witness: the symbol `ab` before a closing parenthesis. -/
theorem C16_symbol_is_longest_run_witness :
    ∃ run rest, input_left (lone_reader_for_bytes [97, 98, 41]) = run ++ rest ∧ run ≠ [] ∧
      (∀ b ∈ run, is_delimiter b = false) ∧
      (rest = [] ∨ ∃ delimiter tail, rest = delimiter :: tail ∧ is_delimiter delimiter = true) ∧
      lone_reader_consume_symbol (lone_reader_for_bytes [97, 98, 41]) =
        (advanced (lone_reader_for_bytes [97, 98, 41]) run.length, .symbol run) :=
  C16_symbol_is_longest_run (lone_reader_for_bytes [97, 98, 41]) 97 (by decide) (by decide)

theorem getElem?_of_input_left (reader : lone_reader) (i : Nat) :
    reader.bytes[reader.read + i]? = (input_left reader)[i]? := by
  simp only [input_left, List.getElem?_drop]

/-- C17: when the input left is a `"`, a byte string `s` without `"`, a `"` and
one more byte, `lone_reader_consume_text` consumes `len(s) + 2` bytes and changes
no other field of the reader if that byte is `)`, `]`, `}`, space, newline or
tab, returning the text `s`; for any other byte it consumes the same bytes, sets
the error flag and returns nil. -/
theorem C17_text_between_quotes (reader : lone_reader) (s rest : List Nat) (next : Nat)
    (hinput : input_left reader = 34 :: (s ++ 34 :: next :: rest))
    (hs : ∀ byte ∈ s, byte ≠ 34) :
    lone_reader_consume_text reader =
      if is_delimiter next then .returned (advanced reader (s.length + 2)) (.text s)
      else .returned { advanced reader (s.length + 2) with error := true } .nil := by
  have hpeek : lone_reader_peek reader = some 34 := by
    rw [lone_reader_peek_eq, hinput]
    rfl
  have hleft : input_left (lone_reader_consume reader) = s ++ 34 :: next :: rest := by
    rw [input_left_consume, hinput]
    rfl
  have hrun : (s ++ 34 :: next :: rest).takeWhile (fun byte => decide (byte ≠ 34)) = s :=
    takeWhile_of_run _ s _ (fun byte hb => by simpa using hs byte hb)
      (Or.inr ⟨34, next :: rest, rfl, by simp⟩)
  have hbound : (input_left (lone_reader_consume reader)).length ≤
      reader.bytes.length - (reader.read + 1) := by
    rw [input_left_length]
    rfl
  have hpeek2 : lone_reader_peek (advanced (lone_reader_consume reader) s.length) = some 34 := by
    rw [lone_reader_peek_eq, input_left_advanced, hleft]
    simp
  have hnext : reader.bytes[reader.read + 1 + s.length + 1]? = some next := by
    have := getElem?_of_input_left reader (s.length + 2)
    rw [hinput] at this
    rw [show reader.read + 1 + s.length + 1 = reader.read + (s.length + 2) by omega, this,
      List.getElem?_cons_succ, List.getElem?_append_right (by omega),
      show s.length + 1 - s.length = 1 by omega]
    simp
  have hslice : reader_slice reader (reader.read + 1) s.length = s := by
    have := reader_slice_eq (lone_reader_consume reader) s.length reader rfl
    rw [hleft] at this
    simpa [lone_reader_consume, lone_reader_consume_k] using this
  simp only [lone_reader_consume_text, hpeek, ne_eq, not_true_eq_false, if_false]
  rw [consume_while_eq _ _ _ _ hbound, hleft, hrun]
  simp only [hpeek2, Nat.zero_add]
  simp only [advanced, lone_reader_consume, lone_reader_consume_k, hnext, not_delimiter_eq,
    reader_error, reader_slice] at hslice ⊢
  cases hd : is_delimiter next
  · simp only [Bool.not_false, if_true, Bool.false_eq_true, if_false,
      reader_outcome.returned.injEq, lone_reader.mk.injEq, and_true, true_and]
    omega
  · simp only [Bool.not_true, Bool.false_eq_true, if_false, if_true,
      reader_outcome.returned.injEq, lone_reader.mk.injEq, and_true, true_and,
      reader_value.text.injEq]
    exact ⟨by omega, hslice⟩

/-- C17, witness: the text `ab` before a closing parenthesis. -/
theorem C17_text_between_quotes_witness :
    lone_reader_consume_text (lone_reader_for_bytes [34, 97, 98, 34, 41]) =
      if is_delimiter 41 then
        .returned (advanced (lone_reader_for_bytes [34, 97, 98, 34, 41]) ([97, 98].length + 2))
          (.text [97, 98])
      else
        .returned
          { advanced (lone_reader_for_bytes [34, 97, 98, 34, 41]) ([97, 98].length + 2) with
            error := true } .nil :=
  C17_text_between_quotes (lone_reader_for_bytes [34, 97, 98, 34, 41]) [97, 98] [] 41
    (by decide) (by decide)

theorem is_digit_of_delimiter (byte : Nat) (h : is_delimiter byte = true) :
    is_digit byte = false := by
  simp only [is_delimiter, Bool.or_eq_true, decide_eq_true_eq] at h
  simp only [is_digit, Bool.and_eq_false_iff, decide_eq_false_iff_not]
  omega

/-- The digits of a number and the byte after them: when the input left starts
with a digit and the digits are followed by nothing or by a delimiter, the
number is accepted. -/
theorem consume_number_digits_accept (reader : lone_reader) (start count : Nat)
    (digits rest : List Nat) (hleft : input_left reader = digits ++ rest)
    (hne : digits ≠ []) (hdigits : ∀ byte ∈ digits, is_digit byte = true)
    (hrest : rest = [] ∨ ∃ byte tail, rest = byte :: tail ∧ is_delimiter byte = true) :
    consume_number_digits reader start count =
      (advanced reader digits.length, .integer (reader_slice reader start (count + digits.length)))
    := by
  have htest : (fun byte => lone_reader_match_byte byte 49) = is_digit := funext match_digit_eq
  cases digits with
  | nil => exact absurd rfl hne
  | cons first more =>
    have hpeek : lone_reader_peek reader = some first := by
      rw [lone_reader_peek_eq, hleft]
      rfl
    have hfirst : is_digit first = true := hdigits first (List.mem_cons_self _ _)
    have hmore : (more ++ rest).takeWhile is_digit = more := by
      apply takeWhile_of_run
      · exact fun byte hb => hdigits byte (List.mem_cons_of_mem _ hb)
      · rcases hrest with h | ⟨byte, tail, h, hd⟩
        · exact Or.inl h
        · exact Or.inr ⟨byte, tail, h, is_digit_of_delimiter byte hd⟩
    have hnext : input_left (lone_reader_consume reader) = more ++ rest := by
      rw [input_left_consume, hleft]
      rfl
    have hbound : (input_left (lone_reader_consume reader)).length ≤
        reader.bytes.length - reader.read := by
      rw [input_left_length]
      simp only [lone_reader_consume, lone_reader_consume_k]
      omega
    simp only [consume_number_digits, hpeek, match_digit_eq, hfirst, if_true, htest]
    rw [consume_while_eq _ _ _ _ hbound, hnext, hmore]
    have hafter : advanced (lone_reader_consume reader) more.length =
        advanced reader (first :: more).length := by
      simp only [advanced, lone_reader_consume, lone_reader_consume_k, List.length_cons,
        lone_reader.mk.injEq, and_true, true_and]
      omega
    have hcount : count + 1 + more.length = count + (first :: more).length := by
      simp only [List.length_cons]
      omega
    simp only [hafter, hcount]
    have hpeek2 : lone_reader_peek (advanced reader (first :: more).length) = rest.head? := by
      rw [lone_reader_peek_eq, input_left_advanced, hleft, List.drop_left]
    rw [hpeek2]
    rcases hrest with rfl | ⟨byte, tail, rfl, hd⟩
    · rfl
    · simp only [List.head?_cons, not_delimiter_eq, hd, Bool.not_true, Bool.false_eq_true,
        if_false]
      rfl

/-- The digits of a number and the byte after them: when the input left does
not start with a digit, or the digits are followed by a byte that is not a
delimiter, the number is refused. -/
theorem consume_number_digits_refuse (reader : lone_reader) (start count : Nat)
    (h : (input_left reader).takeWhile is_digit = [] ∨
      ∃ byte tail, (input_left reader).dropWhile is_digit = byte :: tail ∧
        is_delimiter byte = false) :
    (consume_number_digits reader start count).1.error = true ∧
      (consume_number_digits reader start count).2 = .nil := by
  have htest : (fun byte => lone_reader_match_byte byte 49) = is_digit := funext match_digit_eq
  cases hleft : input_left reader with
  | nil =>
    have hpeek : lone_reader_peek reader = none := by
      rw [lone_reader_peek_eq, hleft]
      rfl
    simp [consume_number_digits, hpeek, reader_error]
  | cons first more =>
    have hpeek : lone_reader_peek reader = some first := by
      rw [lone_reader_peek_eq, hleft]
      rfl
    cases hfirst : is_digit first with
    | false => simp [consume_number_digits, hpeek, match_digit_eq, hfirst, reader_error]
    | true =>
      rw [hleft] at h
      simp only [List.takeWhile_cons_of_pos hfirst, List.dropWhile_cons_of_pos hfirst] at h
      rcases h with h | ⟨byte, tail, hdrop, hd⟩
      · exact absurd h (by simp)
      · have hnext : input_left (lone_reader_consume reader) = more := by
          rw [input_left_consume, hleft]
          rfl
        have hbound : (input_left (lone_reader_consume reader)).length ≤
            reader.bytes.length - reader.read := by
          rw [input_left_length]
          simp only [lone_reader_consume, lone_reader_consume_k]
          omega
        simp only [consume_number_digits, hpeek, match_digit_eq, hfirst, if_true, htest]
        rw [consume_while_eq _ _ _ _ hbound, hnext]
        have hpeek2 : lone_reader_peek
            (advanced (lone_reader_consume reader) (more.takeWhile is_digit).length) =
            some byte := by
          rw [lone_reader_peek_eq, input_left_advanced, hnext, drop_length_takeWhile, hdrop]
          rfl
        simp [hpeek2, not_delimiter_eq, hd, reader_error]

theorem consume_number_accept (reader : lone_reader) (sign digits rest : List Nat)
    (hshape : number_shape (input_left reader) sign digits rest)
    (hrest : rest = [] ∨ delimiter_next rest) :
    lone_reader_consume_number reader =
      (advanced reader (sign.length + digits.length), .integer (sign ++ digits)) := by
  obtain ⟨hleft, hsign, hne, hdigits⟩ := hshape
  have hslice : reader_slice reader reader.read (sign.length + digits.length) = sign ++ digits := by
    rw [reader_slice_eq reader _ reader rfl, hleft, ← List.length_append]
    exact List.take_left _ _
  rcases hsign with rfl | hsign
  · cases digits with
    | nil => exact absurd rfl hne
    | cons first more =>
      have hfirst : is_digit first = true := hdigits first (List.mem_cons_self _ _)
      have hpeek : lone_reader_peek reader = some first := by
        rw [lone_reader_peek_eq, hleft]
        rfl
      have hnot : ¬ (first = 43 ∨ first = 45) := by
        simp only [is_digit, Bool.and_eq_true, decide_eq_true_eq] at hfirst
        omega
      simp only [lone_reader_consume_number, hpeek, hnot, if_false]
      rw [consume_number_digits_accept reader reader.read 0 (first :: more) rest
        (by simpa using hleft) hne hdigits hrest]
      simp only [List.length_nil, Nat.zero_add, List.nil_append] at hslice ⊢
      rw [hslice]
  · have hone : ∃ first, sign = [first] ∧ (first = 43 ∨ first = 45) := by
      rcases hsign with rfl | rfl
      · exact ⟨43, rfl, Or.inl rfl⟩
      · exact ⟨45, rfl, Or.inr rfl⟩
    obtain ⟨first, rfl, hfirst⟩ := hone
    have hpeek : lone_reader_peek reader = some first := by
      rw [lone_reader_peek_eq, hleft]
      rfl
    have hnext : input_left (lone_reader_consume reader) = digits ++ rest := by
      rw [input_left_consume, hleft]
      rfl
    simp only [lone_reader_consume_number, hpeek, hfirst, if_true]
    rw [consume_number_digits_accept (lone_reader_consume reader) reader.read 1 digits rest
      hnext hne hdigits hrest]
    have hslice2 : reader_slice (lone_reader_consume reader) reader.read (1 + digits.length) =
        [first] ++ digits := by
      simpa [reader_slice, lone_reader_consume, lone_reader_consume_k] using hslice
    rw [hslice2]
    simp only [advanced, lone_reader_consume, lone_reader_consume_k, List.length_singleton,
      Prod.mk.injEq, lone_reader.mk.injEq, and_true, true_and]
    omega

theorem consume_number_digits_cases (reader : lone_reader) (start count : Nat) :
    (∃ digits rest, input_left reader = digits ++ rest ∧ digits ≠ [] ∧
        (∀ byte ∈ digits, is_digit byte = true) ∧ (rest = [] ∨ delimiter_next rest)) ∨
      ((consume_number_digits reader start count).1.error = true ∧
        (consume_number_digits reader start count).2 = .nil) := by
  by_cases hnil : (input_left reader).takeWhile is_digit = []
  · exact Or.inr (consume_number_digits_refuse reader start count (Or.inl hnil))
  · rcases dropWhile_head is_digit (input_left reader) with hdrop | ⟨byte, tail, hdrop, hbyte⟩
    · exact Or.inl ⟨_, _, (List.takeWhile_append_dropWhile is_digit _).symm, hnil,
        fun byte hb => List.mem_takeWhile_imp hb, Or.inl hdrop⟩
    · cases hd : is_delimiter byte with
      | true =>
        exact Or.inl ⟨_, _, (List.takeWhile_append_dropWhile is_digit _).symm, hnil,
          fun byte hb => List.mem_takeWhile_imp hb, Or.inr ⟨byte, tail, hdrop, hd⟩⟩
      | false =>
        exact Or.inr (consume_number_digits_refuse reader start count
          (Or.inr ⟨byte, tail, hdrop, hd⟩))

theorem consume_number_cases (reader : lone_reader) :
    (∃ sign digits rest, number_shape (input_left reader) sign digits rest ∧
        (rest = [] ∨ delimiter_next rest)) ∨
      ((lone_reader_consume_number reader).1.error = true ∧
        (lone_reader_consume_number reader).2 = .nil) := by
  cases hleft : input_left reader with
  | nil =>
    have hpeek : lone_reader_peek reader = none := by
      rw [lone_reader_peek_eq, hleft]
      rfl
    exact Or.inr (by simp [lone_reader_consume_number, hpeek, reader_error])
  | cons first more =>
    have hpeek : lone_reader_peek reader = some first := by
      rw [lone_reader_peek_eq, hleft]
      rfl
    by_cases hsign : first = 43 ∨ first = 45
    · have hnext : input_left (lone_reader_consume reader) = more := by
        rw [input_left_consume, hleft]
        rfl
      rcases consume_number_digits_cases (lone_reader_consume reader) reader.read 1 with
        ⟨digits, rest, hsplit, hne, hdigits, hrest⟩ | hrefuse
      · refine Or.inl ⟨[first], digits, rest, ⟨?_, ?_, hne, hdigits⟩, hrest⟩
        · rw [← hnext, hsplit]
          rfl
        · rcases hsign with rfl | rfl
          · exact Or.inr (Or.inl rfl)
          · exact Or.inr (Or.inr rfl)
      · exact Or.inr (by simpa [lone_reader_consume_number, hpeek, hsign] using hrefuse)
    · rcases consume_number_digits_cases reader reader.read 0 with
        ⟨digits, rest, hsplit, hne, hdigits, hrest⟩ | hrefuse
      · refine Or.inl ⟨[], digits, rest, ⟨?_, Or.inl rfl, hne, hdigits⟩, hrest⟩
        rw [← hleft, hsplit]
        rfl
      · exact Or.inr (by simpa [lone_reader_consume_number, hpeek, hsign] using hrefuse)

/-- C15, as amended: with the error flag clear on entry,
`lone_reader_consume_number` leaves it clear exactly when the input left is an
optional `+` or `-`, then one or more decimal digits, then either the end of
the input or one of `)`, `]`, `}`, space, newline, tab; in that case it consumes
the sign and the digits and nothing else, and the bytes passed to
`lone_integer_parse` are the sign and the digits; otherwise it sets the error
flag and returns nil. -/
theorem C15_number_accepted (reader : lone_reader) (herror : reader.error = false) :
    ((lone_reader_consume_number reader).1.error = false ↔
        ∃ sign digits rest, number_shape (input_left reader) sign digits rest ∧
          (rest = [] ∨ delimiter_next rest)) ∧
      (∀ sign digits rest, number_shape (input_left reader) sign digits rest →
        (rest = [] ∨ delimiter_next rest) →
        lone_reader_consume_number reader =
          (advanced reader (sign.length + digits.length), .integer (sign ++ digits))) ∧
      ((lone_reader_consume_number reader).1.error = true →
        (lone_reader_consume_number reader).2 = .nil) := by
  refine ⟨⟨fun hclear => ?_, fun hshape => ?_⟩,
    fun sign digits rest hshape hrest => consume_number_accept reader sign digits rest hshape hrest,
    fun hset => ?_⟩
  · rcases consume_number_cases reader with hshape | hrefuse
    · exact hshape
    · rw [hrefuse.1] at hclear
      exact absurd hclear (by simp)
  · obtain ⟨sign, digits, rest, hshape, hrest⟩ := hshape
    rw [consume_number_accept reader sign digits rest hshape hrest]
    exact herror
  · rcases consume_number_cases reader with ⟨sign, digits, rest, hshape, hrest⟩ | hrefuse
    · rw [consume_number_accept reader sign digits rest hshape hrest] at hset
      have hclear : reader.error = true := hset
      rw [herror] at hclear
      exact absurd hclear (by simp)
    · exact hrefuse.2

/-- C15, witness: the number `-7` before a space. -/
theorem C15_number_accepted_witness :
    ((lone_reader_consume_number (lone_reader_for_bytes [45, 55, 32])).1.error = false ↔
        ∃ sign digits rest,
          number_shape (input_left (lone_reader_for_bytes [45, 55, 32])) sign digits rest ∧
          (rest = [] ∨ delimiter_next rest)) ∧
      (∀ sign digits rest,
        number_shape (input_left (lone_reader_for_bytes [45, 55, 32])) sign digits rest →
        (rest = [] ∨ delimiter_next rest) →
        lone_reader_consume_number (lone_reader_for_bytes [45, 55, 32]) =
          (advanced (lone_reader_for_bytes [45, 55, 32]) (sign.length + digits.length),
            .integer (sign ++ digits))) ∧
      ((lone_reader_consume_number (lone_reader_for_bytes [45, 55, 32])).1.error = true →
        (lone_reader_consume_number (lone_reader_for_bytes [45, 55, 32])).2 = .nil) :=
  C15_number_accepted (lone_reader_for_bytes [45, 55, 32]) rfl

/-- C15, as stated, fails: the input `42` ends after its digits, no delimiter
follows them, and `lone_reader_consume_number` leaves the error flag clear and
returns the integer. -/
theorem C15_counterexample :
    input_left (lone_reader_for_bytes [52, 50]) = [52, 50] ∧
      lone_reader_consume_number (lone_reader_for_bytes [52, 50]) =
        ({ bytes := [52, 50], read := 2, error := false, end_of_input := false },
          .integer [52, 50]) ∧
      ¬ ∃ sign digits rest, number_shape [52, 50] sign digits rest ∧ delimiter_next rest := by
  refine ⟨by decide, by decide, ?_⟩
  rintro ⟨sign, digits, rest, ⟨hsplit, _, _, _⟩, byte, tail, rfl, hbyte⟩
  have hmem : byte ∈ [52, 50] := by
    rw [hsplit]
    simp
  simp only [List.mem_cons, List.mem_singleton, List.not_mem_nil, or_false] at hmem
  rcases hmem with rfl | rfl <;> exact absurd hbyte (by decide)

/-- The lexer on a quote or a backquote: the byte is consumed and returned as a
symbol of one byte. -/
theorem lone_lex_quote (reader : lone_reader) (character : Nat)
    (hpeek : lone_reader_peek reader = some character)
    (hquote : character = 39 ∨ character = 96) (herror : reader.error = false) :
    lone_lex reader =
      .returned { lone_reader_consume reader with end_of_input := false }
        (.symbol [character]) := by
  have hleft : (input_left reader).head? = some character := by
    rw [← lone_reader_peek_eq, hpeek]
  have hslice : reader_slice reader reader.read 1 = [character] := by
    rw [reader_slice_eq reader 1 reader rfl]
    cases hl : input_left reader with
    | nil => simp [hl] at hleft
    | cons first rest =>
      simp only [hl, List.head?_cons, Option.some.injEq] at hleft
      simp [hleft]
  rw [lone_lex, lex_loop, hpeek]
  rcases hquote with rfl | rfl <;>
    simp [lone_reader_match_byte, lone_reader_consume_character, hpeek, lex_found, hslice,
      lone_reader_consume, lone_reader_consume_k, herror]

/-- C18: when the byte at the read position is a single quote, and reading the
form after it gives the token `token` and the value `value`, `lone_read`
returns the list of two elements whose first is the symbol `quote` and whose
second is `value`; for a backquote the first element is the symbol
`quasiquote`. -/
theorem C18_quote_forms (fuel : Nat) (reader : lone_reader) (character : Nat)
    (hpeek : lone_reader_peek reader = some character)
    (hquote : character = 39 ∨ character = 96) (herror : reader.error = false)
    (lexed after : lone_reader) (token value : reader_value)
    (hlex : lone_lex { lone_reader_consume reader with end_of_input := false } =
      .returned lexed token)
    (hparse : lone_parse fuel lexed token = some (.returned after value)) :
    lone_read (fuel + 1) reader =
      some (.returned after
        (.list
          (.symbol (if character = 39 then [113, 117, 111, 116, 101]
            else [113, 117, 97, 115, 105, 113, 117, 111, 116, 101]))
          (.list value .nil))) := by
  rw [lone_read, lone_lex_quote reader character hpeek hquote herror]
  simp only [lone_parse, Bool.false_eq_true, if_false, List.length_singleton,
    gt_iff_lt, Nat.lt_irrefl, hquote, if_true, lone_parse_special_character, hlex, hparse,
    lone_list_build]
  rcases hquote with rfl | rfl <;> simp

/-- C18, witness: the input `'ab` reads as `(quote ab)`. -/
theorem C18_quote_forms_witness :
    lone_read (1 + 1) (lone_reader_for_bytes [39, 97, 98]) =
      some (.returned { bytes := [39, 97, 98], read := 3, error := false, end_of_input := false }
        (.list
          (.symbol (if 39 = 39 then [113, 117, 111, 116, 101]
            else [113, 117, 97, 115, 105, 113, 117, 111, 116, 101]))
          (.list (.symbol [97, 98]) .nil))) :=
  C18_quote_forms 1 (lone_reader_for_bytes [39, 97, 98]) 39 (by decide) (Or.inl rfl) rfl
    { bytes := [39, 97, 98], read := 3, error := false, end_of_input := false }
    { bytes := [39, 97, 98], read := 3, error := false, end_of_input := false }
    (.symbol [97, 98]) (.symbol [97, 98]) (by decide) (by decide)

/-! ### Lists, pairs and tables -/

theorem lone_list_append_list_of (elements : List reader_value) (value : reader_value) :
    lone_list_append (list_of elements .nil) value = list_of (elements ++ [value]) .nil := by
  induction elements with
  | nil => rfl
  | cons element elements ih =>
    rw [List.cons_append]
    simp only [list_of, lone_list_append, ih]

theorem lone_list_set_rest_list_of (elements : List reader_value) (last rest : reader_value) :
    lone_list_set_rest (list_of (elements ++ [last]) .nil) rest =
      list_of elements (.list last rest) := by
  induction elements with
  | nil => rfl
  | cons element elements ih =>
    simp only [List.cons_append, list_of]
    cases hrest : list_of (elements ++ [last]) .nil with
    | nil =>
      cases elements <;> simp [list_of] at hrest
    | list a b =>
      rw [hrest] at ih
      simp only [lone_list_set_rest, ih]
    | _ => cases elements <;> simp [list_of] at hrest

theorem foldl_append_list_of (elements values : List reader_value) :
    values.foldl lone_list_append (list_of elements .nil) = list_of (elements ++ values) .nil := by
  induction values generalizing elements with
  | nil => simp
  | cons value values ih =>
    simp only [List.foldl_cons, lone_list_append_list_of, ih]
    simp

/-- The loop of `lone_parse_list` over a sequence of elements: one iteration
per element, each appended to the list. -/
theorem parse_list_loop_reads (parse : lone_reader → reader_value → Option reader_outcome)
    (reader final : lone_reader) (values : List reader_value)
    (hforms : reads_forms parse list_stop reader values final) (iterations : Nat)
    (first : reader_value) (at_least_one : Bool) :
    parse_list_loop parse (values.length + iterations) reader first at_least_one =
      parse_list_loop parse iterations final (values.foldl lone_list_append first)
        (at_least_one || decide (values ≠ [])) := by
  induction hforms generalizing first at_least_one with
  | done reader => simp
  | @form reader lexed after final token value values hlex hmore hstop hparse _ ih =>
    rw [show (value :: values).length + iterations = (values.length + iterations) + 1 by
      simp only [List.length_cons]; omega]
    simp only [list_stop, Bool.and_eq_false_iff, Bool.or_eq_false_iff] at hstop
    have h41 : (lone_is_symbol token && lone_is_expected_character_symbol token 41) = false := by
      rcases hstop with h | h
      · simp [h]
      · simp [h.1]
    have h46 : (lone_is_symbol token && lone_is_expected_character_symbol token 46) = false := by
      rcases hstop with h | h
      · simp [h]
      · simp [h.2]
    rw [parse_list_loop]
    simp only [hlex, hmore, h41, h46, hparse, Bool.false_eq_true, if_false]
    rw [ih]
    simp

/-- The list syntax without a dot: the elements, then `)` or the end of the
input. -/
theorem parse_list_elements (parse : lone_reader → reader_value → Option reader_outcome)
    (reader final : lone_reader) (values : List reader_value)
    (hforms : reads_forms parse list_stop reader values final) (iterations : Nat) :
    (∀ closed, lone_lex final = .returned closed (.symbol [41]) → closed.end_of_input = false →
        lone_parse_list parse (values.length + (iterations + 1)) reader =
          some (.returned closed (list_of values .nil))) ∧
      (∀ ended token, lone_lex final = .returned ended token → ended.end_of_input = true →
        lone_parse_list parse (values.length + (iterations + 1)) reader =
          some (.returned { ended with error := true } .nil)) := by
  have hfold : values.foldl lone_list_append .nil = list_of values .nil :=
    foldl_append_list_of [] values
  constructor
  · intro closed hlex hmore
    rw [lone_parse_list, parse_list_loop_reads parse reader final values hforms, parse_list_loop]
    simp only [hlex, hmore, hfold, Bool.false_eq_true, if_false]
    cases values <;> simp [lone_is_symbol, lone_is_expected_character_symbol, list_of]
  · intro ended token hlex hend
    rw [lone_parse_list, parse_list_loop_reads parse reader final values hforms, parse_list_loop]
    simp only [hlex, hend, if_true, reader_error]

/-- C13: in a list, after the elements read so far, let the lexer return the
token `.`. Without an element before it `lone_parse_list` sets the error flag
and returns nil. With elements before it: when the input ends after the dot it
sets the error flag and returns nil; else the next form is read, and when the
token after that form is `)` the list is returned with the form as the rest of
its last pair, and for any other token, or at the end of the input, the error
flag is set and nil is returned. -/
theorem C13_dotted_pair (parse : lone_reader → reader_value → Option reader_outcome)
    (reader final dot : lone_reader) (elements : List reader_value)
    (hforms : reads_forms parse list_stop reader elements final)
    (hdot : lone_lex final = .returned dot (.symbol [46])) (hmore : dot.end_of_input = false)
    (iterations : Nat) :
    (elements = [] →
        lone_parse_list parse (elements.length + (iterations + 1)) reader =
          some (.returned { dot with error := true } .nil)) ∧
      (elements ≠ [] → ∀ ended token, lone_lex dot = .returned ended token →
        ended.end_of_input = true →
        lone_parse_list parse (elements.length + (iterations + 1)) reader =
          some (.returned { ended with error := true } .nil)) ∧
      (∀ init last, elements = init ++ [last] →
        ∀ lexed token parsed rest closing after,
          lone_lex dot = .returned lexed token → lexed.end_of_input = false →
          parse lexed token = some (.returned parsed rest) →
          lone_lex parsed = .returned closing after →
          lone_parse_list parse (elements.length + (iterations + 1)) reader =
            if lone_is_expected_character_symbol after 41 then
              some (.returned closing (list_of init (.list last rest)))
            else some (.returned { closing with error := true } .nil)) := by
  have hloop : lone_parse_list parse (elements.length + (iterations + 1)) reader =
      parse_list_pair parse dot (elements.foldl lone_list_append .nil)
        (decide (elements ≠ [])) := by
    rw [lone_parse_list, parse_list_loop_reads parse reader final elements hforms,
      parse_list_loop]
    simp [hdot, hmore, lone_is_symbol, lone_is_expected_character_symbol]
  refine ⟨?_, ?_, ?_⟩
  · intro hnil
    rw [hloop, hnil]
    simp [parse_list_pair, reader_error]
  · intro hne ended token hlex hend
    rw [hloop]
    simp [parse_list_pair, hne, hlex, hend, reader_error]
  · intro init last hsplit lexed token parsed rest closing after hlex hnot hparse hclose
    have hne : elements ≠ [] := by
      rw [hsplit]
      simp
    have hfold : elements.foldl lone_list_append .nil = list_of elements .nil :=
      foldl_append_list_of [] elements
    rw [hloop, hfold]
    simp only [parse_list_pair, hne, hlex, hnot, hparse, hclose, reader_error, ne_eq,
      not_false_eq_true, decide_True, Bool.not_true, Bool.false_eq_true, if_false]
    rw [hsplit, lone_list_set_rest_list_of]
    cases lone_is_expected_character_symbol after 41 <;> simp

/-- C13, witness: in `(a . b)`, after the `(`, the list parser returns the
pair with first `a` and rest `b`. -/
theorem C13_dotted_pair_witness :
    lone_parse_list (lone_parse 3) ([reader_value.symbol [97]].length + (0 + 1))
        (reader_at [40, 97, 32, 46, 32, 98, 41] 1) =
      if lone_is_expected_character_symbol (.symbol [41]) 41 then
        some (.returned (reader_at [40, 97, 32, 46, 32, 98, 41] 7)
          (list_of [] (.list (.symbol [97]) (.symbol [98]))))
      else
        some (.returned { reader_at [40, 97, 32, 46, 32, 98, 41] 7 with error := true } .nil) :=
  (C13_dotted_pair (lone_parse 3) (reader_at [40, 97, 32, 46, 32, 98, 41] 1)
    (reader_at [40, 97, 32, 46, 32, 98, 41] 2) (reader_at [40, 97, 32, 46, 32, 98, 41] 4)
    [.symbol [97]]
    (@reads_forms.form (lone_parse 3) list_stop (reader_at [40, 97, 32, 46, 32, 98, 41] 1)
      (reader_at [40, 97, 32, 46, 32, 98, 41] 2) (reader_at [40, 97, 32, 46, 32, 98, 41] 2)
      (reader_at [40, 97, 32, 46, 32, 98, 41] 2) (.symbol [97]) (.symbol [97]) []
      (by decide) (by decide) (by decide) (by decide) (reads_forms.done _))
    (by decide) (by decide) 0).2.2 [] (.symbol [97]) rfl
    (reader_at [40, 97, 32, 46, 32, 98, 41] 6) (.symbol [98])
    (reader_at [40, 97, 32, 46, 32, 98, 41] 6) (.symbol [98])
    (reader_at [40, 97, 32, 46, 32, 98, 41] 7) (.symbol [41])
    (by decide) (by decide) (by decide) (by decide)

/-- The inputs `(a . b)`, `( . 2)`, `(1 .` and `(1 2 . 3 4)`, read by
`lone_read`: the pair, and three times the error flag and nil. -/
theorem dotted_pair_examples :
    lone_read 3 (lone_reader_for_bytes [40, 97, 32, 46, 32, 98, 41]) =
        some (.returned (reader_at [40, 97, 32, 46, 32, 98, 41] 7)
          (.list (.symbol [97]) (.symbol [98]))) ∧
      lone_read 3 (lone_reader_for_bytes [40, 32, 46, 32, 50, 41]) =
        some (.returned { reader_at [40, 32, 46, 32, 50, 41] 3 with error := true } .nil) ∧
      lone_read 3 (lone_reader_for_bytes [40, 49, 32, 46]) =
        some (.returned
          { bytes := [40, 49, 32, 46], read := 4, error := true, end_of_input := true } .nil) ∧
      lone_read 4 (lone_reader_for_bytes [40, 49, 32, 50, 32, 46, 32, 51, 32, 52, 41]) =
        some (.returned
          { reader_at [40, 49, 32, 50, 32, 46, 32, 51, 32, 52, 41] 10 with error := true }
          .nil) := by
  refine ⟨?_, ?_, ?_, ?_⟩ <;> decide

/-- The loop of `lone_parse_table` over a sequence of forms, by induction on
a bound of their number. -/
theorem parse_table_loop_reads (parse : lone_reader → reader_value → Option reader_outcome)
    (bound : Nat) :
    ∀ (forms : List reader_value) (reader final : lone_reader) (table : reader_value)
      (iterations : Nat),
      forms.length ≤ bound → reads_forms parse table_stop reader forms final →
      forms.length / 2 < iterations →
      (∀ closed, lone_lex final = .returned closed (.symbol [125]) →
          closed.end_of_input = false →
          parse_table_loop parse iterations reader table =
            if forms.length % 2 = 0 then some (.returned closed (table_of table forms))
            else some (.returned { closed with error := true } .nil)) ∧
        (∀ ended token, lone_lex final = .returned ended token → ended.end_of_input = true →
          parse_table_loop parse iterations reader table =
            some (.returned { ended with error := true } .nil)) := by
  induction bound using Nat.strong_induction_on with
  | _ bound ih =>
    intro forms reader final table iterations hbound hforms hiter
    obtain ⟨iterations, rfl⟩ : ∃ k, iterations = k + 1 := ⟨iterations - 1, by omega⟩
    cases hforms with
    | done =>
      constructor
      · intro closed hlex hmore
        have hbrace : lone_is_expected_character_symbol (.symbol [125]) 125 = true := rfl
        rw [parse_table_loop]
        simp [hlex, hmore, hbrace, table_of]
      · intro ended token hlex hend
        rw [parse_table_loop]
        simp [hlex, hend, reader_error]
    | @form _ lexed after _ token key values hlex hmore hstop hparse hrest =>
      simp only [table_stop] at hstop
      cases hrest with
      | done =>
        constructor
        · intro closed hclose hopen
          have hbrace : lone_is_expected_character_symbol (.symbol [125]) 125 = true := rfl
          rw [parse_table_loop]
          simp [hlex, hmore, hstop, hparse, hclose, hopen, hbrace, reader_error]
        · intro ended token2 hclose hend
          rw [parse_table_loop]
          simp [hlex, hmore, hstop, hparse, hclose, hend, reader_error]
      | @form _ lexed2 after2 _ token2 value values2 hlex2 hmore2 hstop2 hparse2 hrest2 =>
        simp only [table_stop] at hstop2
        simp only [List.length_cons] at hbound hiter
        have hstep : parse_table_loop parse (iterations + 1) reader table =
            parse_table_loop parse iterations after2 (.table_set table key value) := by
          rw [parse_table_loop]
          simp [hlex, hmore, hstop, hparse, hlex2, hmore2, hstop2, hparse2]
        have hrec := ih (bound - 2) (by omega) values2 after2 final
          (.table_set table key value) iterations (by omega) hrest2 (by omega)
        rw [hstep]
        have hparity : (values2.length + 1 + 1) % 2 = values2.length % 2 := by omega
        simp only [List.length_cons, hparity, table_of]
        exact hrec

/-- C14: let the forms after the `{` be read, one after the other, up to
`final`. When the lexer then returns the token `}`, `lone_parse_table` returns,
for an even number of forms, the new table after one call of `lone_table_set`
for each consecutive (key, value) pair in input order, and for an odd number
of forms it sets the error flag and returns nil; when the input ends there
instead, it sets the error flag and returns nil. -/
theorem C14_table_pairs (parse : lone_reader → reader_value → Option reader_outcome)
    (reader final : lone_reader) (forms : List reader_value) (iterations : Nat)
    (hforms : reads_forms parse table_stop reader forms final)
    (hiter : forms.length / 2 < iterations) :
    (∀ closed, lone_lex final = .returned closed (.symbol [125]) →
        closed.end_of_input = false →
        lone_parse_table parse iterations reader =
          if forms.length % 2 = 0 then some (.returned closed (table_of .table_create forms))
          else some (.returned { closed with error := true } .nil)) ∧
      (∀ ended token, lone_lex final = .returned ended token → ended.end_of_input = true →
        lone_parse_table parse iterations reader =
          some (.returned { ended with error := true } .nil)) :=
  parse_table_loop_reads parse forms.length forms reader final .table_create iterations
    (Nat.le_refl _) hforms hiter

/-- C14, witness: in `{ x y }`, after the `{`, the table parser returns the
new table after `lone_table_set` of `x` to `y`. -/
theorem C14_table_pairs_witness :
    lone_parse_table (lone_parse 1) 2 (reader_at [123, 32, 120, 32, 121, 32, 125] 1) =
      if [reader_value.symbol [120], reader_value.symbol [121]].length % 2 = 0 then
        some (.returned (reader_at [123, 32, 120, 32, 121, 32, 125] 7)
          (table_of .table_create [.symbol [120], .symbol [121]]))
      else
        some (.returned { reader_at [123, 32, 120, 32, 121, 32, 125] 7 with error := true }
          .nil) :=
  (C14_table_pairs (lone_parse 1) (reader_at [123, 32, 120, 32, 121, 32, 125] 1)
    (reader_at [123, 32, 120, 32, 121, 32, 125] 5) [.symbol [120], .symbol [121]] 2
    (@reads_forms.form (lone_parse 1) table_stop (reader_at [123, 32, 120, 32, 121, 32, 125] 1)
      (reader_at [123, 32, 120, 32, 121, 32, 125] 3)
      (reader_at [123, 32, 120, 32, 121, 32, 125] 3)
      (reader_at [123, 32, 120, 32, 121, 32, 125] 5) (.symbol [120]) (.symbol [120])
      [.symbol [121]] (by decide) (by decide) (by decide) (by decide)
      (@reads_forms.form (lone_parse 1) table_stop
        (reader_at [123, 32, 120, 32, 121, 32, 125] 3)
        (reader_at [123, 32, 120, 32, 121, 32, 125] 5)
        (reader_at [123, 32, 120, 32, 121, 32, 125] 5)
        (reader_at [123, 32, 120, 32, 121, 32, 125] 5) (.symbol [121]) (.symbol [121]) []
        (by decide) (by decide) (by decide) (by decide) (reads_forms.done _)))
    (by decide)).1 (reader_at [123, 32, 120, 32, 121, 32, 125] 7) (by decide) (by decide)

/-- The inputs `{ x y }`, `{ x }`, `{ x y z }` and `{ x y`, read by
`lone_read`: the table with one entry, and three times the error flag and
nil. -/
theorem table_examples :
    lone_read 3 (lone_reader_for_bytes [123, 32, 120, 32, 121, 32, 125]) =
        some (.returned (reader_at [123, 32, 120, 32, 121, 32, 125] 7)
          (.table_set .table_create (.symbol [120]) (.symbol [121]))) ∧
      lone_read 3 (lone_reader_for_bytes [123, 32, 120, 32, 125]) =
        some (.returned { reader_at [123, 32, 120, 32, 125] 5 with error := true } .nil) ∧
      lone_read 3 (lone_reader_for_bytes [123, 32, 120, 32, 121, 32, 122, 32, 125]) =
        some (.returned
          { reader_at [123, 32, 120, 32, 121, 32, 122, 32, 125] 9 with error := true } .nil) ∧
      lone_read 3 (lone_reader_for_bytes [123, 32, 120, 32, 121]) =
        some (.returned
          { bytes := [123, 32, 120, 32, 121], read := 5, error := true, end_of_input := true }
          .nil) := by
  refine ⟨?_, ?_, ?_, ?_⟩ <;> decide

/-- The inputs `(1 2 3)`, `()`, `("a" b)` and `(1 2`, read by `lone_read`: the
proper list of the values in input order, nil, and for the input that ends
after a number the error flag and nil. -/
theorem list_examples :
    lone_read 5 (lone_reader_for_bytes [40, 49, 32, 50, 32, 51, 41]) =
        some (.returned (reader_at [40, 49, 32, 50, 32, 51, 41] 7)
          (list_of [.integer [49], .integer [50], .integer [51]] .nil)) ∧
      lone_read 2 (lone_reader_for_bytes [40, 41]) =
        some (.returned (reader_at [40, 41] 2) .nil) ∧
      lone_read 4 (lone_reader_for_bytes [40, 34, 97, 34, 32, 98, 41]) =
        some (.returned (reader_at [40, 34, 97, 34, 32, 98, 41] 7)
          (list_of [.text [97], .symbol [98]] .nil)) ∧
      lone_read 4 (lone_reader_for_bytes [40, 49, 32, 50]) =
        some (.returned
          { bytes := [40, 49, 32, 50], read := 4, error := true, end_of_input := true }
          .nil) := by
  refine ⟨?_, ?_, ?_, ?_⟩ <;> decide

/-- C12: on the input `("a"`, which ends right after the closing quote of a
text, `lone_reader_consume_text` reads the byte after the closing quote without
a check that there is one: the byte is outside the input, and `lone_read` does
not return nil with the error flag set. On `("a`, where the text is not closed,
the loop of `lone_reader_consume_text` ends with a null pointer that is then
incremented and read. On `(1 2`, which ends after a number, the error flag is
set and nil is returned. -/
theorem C12_text_at_end_of_input :
    lone_reader_consume_text (reader_at [40, 34, 97, 34] 1) = .undefined ∧
      lone_read 3 (lone_reader_for_bytes [40, 34, 97, 34]) = some .undefined ∧
      lone_read 3 (lone_reader_for_bytes [40, 34, 97]) = some .undefined ∧
      lone_read 4 (lone_reader_for_bytes [40, 49, 32, 50]) =
        some (.returned
          { bytes := [40, 49, 32, 50], read := 4, error := true, end_of_input := true }
          .nil) := by
  refine ⟨?_, ?_, ?_, ?_⟩ <;> decide

end Lone
